import Mathlib

/-! # gnark: witness codec and PLONK setup

A shallow embedding of
* `internal/backend/bls12-377/witness/witness.go` (`Witness.WriteTo`, `Witness.ReadFrom`,
  `Witness.FromAssignment`, `Witness.ToAssignment`),
* `internal/backend/bn256/plonk/setup.go` (`buildPermutation`, `Setup`),
* `internal/backend/circuits/lookup2.go` (`lookup2Circuit`, `init`),
together with the properties of these functions stated by the specification.
-/

namespace Gnark

/-! ## Streams -/

/-- One octet of a byte stream. -/
abbrev Byte := Fin 256

/-- Errors of the `io` package that the codec can meet: `io.EOF`,
`io.ErrUnexpectedEOF` (both from `io.ReadFull`) and `io.ErrShortWrite`. -/
inductive StreamError where
  | EOF
  | ErrUnexpectedEOF
  | ErrShortWrite
  deriving DecidableEq, Repr

/-- Errors returned by the codec: an error of the stream, or the error with which the
element decoder rejected the bytes of an element. -/
inductive CodecError (E : Type) where
  | stream (e : StreamError)
  | element (e : E)
  deriving DecidableEq, Repr

/-- An `io.Reader` over a finite byte stream: the bytes not yet consumed. -/
abbrev Reader := List Byte

/-- The call `io.ReadFull(r, buf[:k])`: reads `min k (len r)` bytes; the error is `EOF` when
no byte was read, `ErrUnexpectedEOF` when some but fewer than `k` were read.  Returns the
bytes read, the reader after the call and the error. -/
def readFull (r : Reader) (k : Nat) : List Byte × Reader × Option StreamError :=
  if k ≤ r.length then (r.take k, r.drop k, none)
  else if r.length = 0 then ([], r, some StreamError.EOF)
  else (r, [], some StreamError.ErrUnexpectedEOF)

/-- An `io.Writer`: the bytes it has accepted, and how many more it will accept (`none`: it
never fails). -/
structure Writer where
  out : List Byte
  room : Option Nat
  deriving DecidableEq, Repr

/-- The call `w.Write(p)`: accepts all of `p` when there is room, otherwise only what fits and
reports `ErrShortWrite`.  Returns the writer after the call, the number of bytes accepted
and the error. -/
def Writer.write (w : Writer) (p : List Byte) : Writer × Nat × Option StreamError :=
  match w.room with
  | none => ({ w with out := w.out ++ p }, p.length, none)
  | some c =>
    if p.length ≤ c then ({ out := w.out ++ p, room := some (c - p.length) }, p.length, none)
    else ({ out := w.out ++ p.take c, room := some 0 }, c, some StreamError.ErrShortWrite)

/-! ## Fixed-width integers -/

/-- The conversion `uint32(n)` of a Go `int`. -/
def uint32 (n : Nat) : Nat := n % 2 ^ 32

/-- The four bytes `binary.BigEndian.PutUint32` stores for a `uint32` value. -/
def putUint32 (x : Nat) : List Byte :=
  [⟨x / 2 ^ 24 % 256, Nat.mod_lt _ (by decide)⟩, ⟨x / 2 ^ 16 % 256, Nat.mod_lt _ (by decide)⟩,
   ⟨x / 2 ^ 8 % 256, Nat.mod_lt _ (by decide)⟩, ⟨x % 256, Nat.mod_lt _ (by decide)⟩]

/-- The value `binary.BigEndian.Uint32` reads from (the first four bytes of) a buffer. -/
def beUint32 (b : List Byte) : Nat :=
  (b.getD 0 0).val * 2 ^ 24 + (b.getD 1 0).val * 2 ^ 16 + (b.getD 2 0).val * 2 ^ 8
    + (b.getD 3 0).val

/-! ## Field elements on the wire -/

/-- The element codec of the curve package (`fr.Bytes`, `Element.Bytes`, and the
`SetBytes` step of the decoder), which the witness codec uses through
`curve.NewEncoder` and `curve.NewDecoder`.  The package is a parameter: the conversion of
the decoder may return an error (`Element.SetBytes`, which the decoder of the library
calls, never does: see `frCodec`). -/
structure ElementCodec (F E : Type) where
  /-- `fr.Bytes`: the width of an encoded element. -/
  Bytes : Nat
  /-- `Element.Bytes()`: the canonical fixed-width encoding. -/
  toBytes : F → List Byte
  /-- The decoder's conversion of `fr.Bytes` bytes to an element, or its error. -/
  setBytes : List Byte → Except E F

/-- The contract of the element codec: an encoding has the fixed width, and decoding an
encoding gives the element back. -/
structure ElementCodec.Lawful {F E : Type} (c : ElementCodec F E) : Prop where
  length_toBytes : ∀ x, (c.toBytes x).length = c.Bytes
  setBytes_toBytes : ∀ x, c.setBytes (c.toBytes x) = Except.ok x

/-- The state of `curve.Encoder`: the writer and the byte count `n`. -/
structure Encoder where
  w : Writer
  n : Nat
  deriving DecidableEq, Repr

/-- The call `enc.Encode(&x)` for a field element: writes `x.Bytes()`, adds the number of
bytes written to `n`, and returns the error of the write. -/
def Encoder.Encode {F E : Type} (c : ElementCodec F E) (enc : Encoder) (x : F) :
    Encoder × Option StreamError :=
  let (w, written, err) := enc.w.write (c.toBytes x)
  ({ w := w, n := enc.n + written }, err)

/-- The state of `curve.Decoder`: the reader and the byte count `n`. -/
structure Decoder where
  r : Reader
  n : Nat
  deriving DecidableEq, Repr

/-- The call `dec.Decode(&x)` for a field element: reads `fr.Bytes` bytes with `io.ReadFull`,
adds the number of bytes read to `n`, returns the read error if any, and otherwise
converts the bytes.  The result is the decoder after the call and the element or error. -/
def Decoder.Decode {F E : Type} (c : ElementCodec F E) (dec : Decoder) :
    Decoder × Except (CodecError E) F :=
  let (buf, r, err) := readFull dec.r c.Bytes
  let dec1 : Decoder := { r := r, n := dec.n + buf.length }
  match err with
  | some e => (dec1, Except.error (CodecError.stream e))
  | none =>
    match c.setBytes buf with
    | Except.error e => (dec1, Except.error (CodecError.element e))
    | Except.ok x => (dec1, Except.ok x)

/-! ## `witness.go` -/

/-- The type `Witness []fr.Element`. -/
abbrev Witness (F : Type) := List F

/-- What `WriteTo` leaves behind: the writer, the returned count and the returned error. -/
structure WriteResult where
  w : Writer
  n : Nat
  err : Option StreamError
  deriving DecidableEq, Repr

/-- The loop `for i := 0; i < len(*witness); i++` of `WriteTo`, on the elements from `i` on. -/
def writeLoop {F E : Type} (c : ElementCodec F E) : List F → Encoder → WriteResult
  | [], enc => { w := enc.w, n := enc.n + 4, err := none }
  | x :: xs, enc =>
    match enc.Encode c x with
    | (enc1, some e) => { w := enc1.w, n := enc1.n + 4, err := some e }
    | (enc1, none) => writeLoop c xs enc1

/-- The method `Witness.WriteTo`. -/
def WriteTo {F E : Type} (c : ElementCodec F E) (witness : Witness F) (w : Writer) :
    WriteResult :=
  match w.write (putUint32 (uint32 witness.length)) with
  | (w1, _, some e) => { w := w1, n := 0, err := some e }
  | (w1, _, none) => writeLoop c witness { w := w1, n := 0 }

/-- What `ReadFrom` leaves behind: the witness, the reader, the returned count and the
returned error. -/
structure ReadResult (F E : Type) where
  witness : Witness F
  r : Reader
  n : Nat
  err : Option (CodecError E)

/-- The loop `for i := 0; i < int(sliceLen); i++` of `ReadFrom`, from index `i`, with `k`
iterations left. -/
def readLoop {F E : Type} (c : ElementCodec F E) :
    Nat → Nat → Witness F → Decoder → ReadResult F E
  | 0, _, witness, dec => { witness := witness, r := dec.r, n := dec.n + 4, err := none }
  | k + 1, i, witness, dec =>
    match dec.Decode c with
    | (dec1, Except.error e) => { witness := witness, r := dec1.r, n := dec1.n + 4, err := some e }
    | (dec1, Except.ok x) => readLoop c k (i + 1) (witness.set i x) dec1

/-- The method `Witness.ReadFrom`; `zero` is the zero value of `fr.Element`, with which
`make` fills a fresh slice. -/
def ReadFrom {F E : Type} (c : ElementCodec F E) (zero : F) (witness : Witness F) (r : Reader) :
    ReadResult F E :=
  match readFull r 4 with
  | (buf, r1, some e) =>
    { witness := witness, r := r1, n := buf.length, err := some (CodecError.stream e) }
  | (buf, r1, none) =>
    let sliceLen := beUint32 buf
    let witness1 := if witness.length ≠ sliceLen then List.replicate sliceLen zero else witness
    readLoop c sliceLen 0 witness1 { r := r1, n := 0 }

/-- The wire format of the elements of a witness: the fixed-width encodings of `v[0]`,
`v[1]`, ... one after the other. -/
def encodeAll {F E : Type} (c : ElementCodec F E) : List F → List Byte
  | [] => []
  | x :: xs => c.toBytes x ++ encodeAll c xs

/-- The decoder of `ReadFrom` when it comes to element `k` of the stream `s`, the `k`
elements before it decoded: it has read `k·fr.Bytes` bytes after the length field. -/
def decoderAt {F E : Type} (c : ElementCodec F E) (s : List Byte) (k : Nat) : Decoder :=
  { r := s.drop (4 + k * c.Bytes), n := k * c.Bytes }

/-- The bytes of the `k`-th element in a stream that starts with the length field. -/
def elementBytes {F E : Type} (c : ElementCodec F E) (s : List Byte) (k : Nat) : List Byte :=
  (s.drop (4 + k * c.Bytes)).take c.Bytes

/-! ## The scalar field of BLS12-377 on the wire -/

/-- The big-endian bytes of `x` in a buffer of `k` bytes (`Element.Bytes` writes the
regular form of the element this way, most significant byte first). -/
def beBytes : Nat → Nat → List Byte
  | 0, _ => []
  | k + 1, x => beBytes k (x / 256) ++ [⟨x % 256, Nat.mod_lt _ (by decide)⟩]

/-- The number a buffer holds in big-endian order. -/
def beNat (b : List Byte) : Nat := b.foldl (fun acc d => acc * 256 + d.val) 0

/-- The decoder's conversion `Element.SetBytes` for a field of `m` elements: the number the
bytes hold in big-endian order, reduced modulo `m`.  It returns no error: bytes that are
not the encoding of an element (a number that is not below the modulus) are accepted and
reduced. -/
def beSetBytes (m : Nat) (hm : 0 < m) (b : List Byte) : Except String (Fin m) :=
  Except.ok ⟨beNat b % m, Nat.mod_lt _ hm⟩

/-- The codec of a prime field of `m` elements whose elements take `k` bytes: `Bytes` gives
the regular form of the element, big-endian, and `SetBytes` reads any `k` bytes. -/
def beCodec (m k : Nat) (hm : 0 < m) : ElementCodec (Fin m) String where
  Bytes := k
  toBytes := fun x => beBytes k x.val
  setBytes := beSetBytes m hm

/-- The modulus of `fr` for BLS12-377. -/
def frModulus : Nat :=
  8444461749428370424248824938781546531375899335154063827935233455917409239041

/-- The codec of `fr.Element` for BLS12-377 (`fr.Bytes = 32`). -/
def frCodec : ElementCodec (Fin frModulus) String :=
  beCodec frModulus 32 (by norm_num [frModulus])

/-- The element `n` of `fr` (as `Element.SetUint64` builds it). -/
def frElement (n : Nat) : Fin frModulus :=
  ⟨n % frModulus, Nat.mod_lt _ (by norm_num [frModulus])⟩

/-- A writer that never fails and has accepted nothing yet (an empty `bytes.Buffer`). -/
def emptyBuffer : Writer := { out := [], room := none }

/-! ## The constraint system -/

/-- Modelled from the spec: the wire reference `Term` of the constraint system (its
declaration is not among the sources); it carries a `CoeffID`, an index into the
coefficient table, and a `VariableID`, the witness slot the wire reads. -/
structure Term where
  CoeffID : Nat
  VariableID : Nat
  deriving DecidableEq, Repr

/-- Modelled from the spec: the gate `SparseR1C` of the constraint system (its declaration
is not among the sources): `{L, R, O: Term, M: [2]Term, K: CoeffID}`, standing for
`qL·l + qR·r + qM·l·r + qO·o + qK = 0`. -/
structure SparseR1C where
  L : Term
  R : Term
  O : Term
  M0 : Term
  M1 : Term
  K : Nat
  deriving DecidableEq, Repr

/-- Modelled from the spec: the circuit `cs.SparseR1CS` (its declaration is not among the
sources): the constraints, the assertions, the three variable counts and the coefficient
table. -/
structure SparseR1CS (F : Type) where
  Constraints : List SparseR1C
  Assertions : List SparseR1C
  NbInternalVariables : Nat
  NbPublicVariables : Nat
  NbSecretVariables : Nat
  Coefficients : List F

/-- The number `nbVariables` that `buildPermutation` computes. -/
def SparseR1CS.nbVariables {F : Type} (spr : SparseR1CS F) : Nat :=
  spr.NbInternalVariables + spr.NbPublicVariables + spr.NbSecretVariables

/-! ## `setup.go`: the permutation -/

/-- The assignment `a[i] = v` to a slice: `none` is the run-time panic of an index out of
range. -/
def store {α : Type} (a : List α) (i : Nat) (v : α) : Option (List α) :=
  if i < a.length then some (a.set i v) else none

/-- The loops over `spr.Constraints` and over `spr.Assertions` of `buildPermutation`: the
gate `c` at the head of the list fills row `row` of `lro` and of `Permutation`. -/
def fillRows (sizeSolution : Nat) :
    List SparseR1C → Nat → List Nat → List Int → Option (List Nat × List Int)
  | [], _, lro, perm => some (lro, perm)
  | c :: rest, row, lro, perm => do
    let lro ← store lro row c.L.VariableID
    let lro ← store lro (sizeSolution + row) c.R.VariableID
    let lro ← store lro (2 * sizeSolution + row) c.O.VariableID
    let perm ← store perm row (-1)
    let perm ← store perm (sizeSolution + row) (-1)
    let perm ← store perm (2 * sizeSolution + row) (-1)
    fillRows sizeSolution rest (row + 1) lro perm

/-- The loop `for i := 0; i < sizeSolution-offset; i++` of `buildPermutation`, with `k`
iterations left and `row = offset+i`. -/
def fillPadding (sizeSolution : Nat) : Nat → Nat → List Int → Option (List Int)
  | 0, _, perm => some perm
  | k + 1, row, perm => do
    let perm ← store perm row (-1)
    let perm ← store perm (sizeSolution + row) (-1)
    let perm ← store perm (2 * sizeSolution + row) (-1)
    fillPadding sizeSolution k (row + 1) perm

/-- The first part of `buildPermutation`, up to and including the padding loop: the slices
`lro` and `Permutation` it has built. -/
def initLoops {F : Type} (spr : SparseR1CS F) (sizeSolution : Nat) :
    Option (List Nat × List Int) := do
  let lro := List.replicate (3 * sizeSolution) 0
  let perm := List.replicate (3 * sizeSolution) 0
  let (lro, perm) ← fillRows sizeSolution spr.Constraints 0 lro perm
  let offset := spr.Constraints.length
  let (lro, perm) ← fillRows sizeSolution spr.Assertions offset lro perm
  let offset := offset + spr.Assertions.length
  let perm ← fillPadding sizeSolution (sizeSolution - offset) offset perm
  some (lro, perm)

/-- The loop `for i := 0; i < 3*sizeSolution; i++` of `buildPermutation`, with `k` iterations
left. -/
def scanLoop (lro : List Nat) : Nat → Nat → List Int → List Int → Option (List Int × List Int)
  | 0, _, perm, cycle => some (perm, cycle)
  | k + 1, i, perm, cycle => do
    let id ← lro[i]?
    let last ← cycle[id]?
    let perm ← if last ≠ -1 then store perm i last else some perm
    let cycle ← store cycle id (i : Int)
    scanLoop lro k (i + 1) perm cycle

/-- The loop `for iter := 0; counter > 0; iter++` of `buildPermutation`.  Every iteration
reads `Permutation[iter]`, which panics at `iter = len(Permutation)`, so the loop makes at
most `len(Permutation)+1` iterations; `fuel` is the number of iterations still allowed. -/
def completeLoop (lro : List Nat) (cycle : List Int) :
    Nat → Nat → Nat → List Int → Option (List Int)
  | 0, _, _, _ => none
  | fuel + 1, iter, counter, perm =>
    if counter = 0 then some perm
    else do
      let p ← perm[iter]?
      if p = -1 then do
        let id ← lro[iter]?
        let last ← cycle[id]?
        let perm ← store perm iter last
        completeLoop lro cycle fuel (iter + 1) (counter - 1) perm
      else completeLoop lro cycle fuel (iter + 1) counter perm

/-- The function `buildPermutation`, for `sizeSolution = publicData.DomainNum.Cardinality`:
the slice it leaves in `publicData.Permutation`, or `none` when it panics. -/
def buildPermutation {F : Type} (spr : SparseR1CS F) (sizeSolution : Nat) :
    Option (List Int) := do
  let (lro, perm) ← initLoops spr sizeSolution
  let nbVariables := spr.nbVariables
  let cycle := List.replicate nbVariables (-1 : Int)
  let (perm, cycle) ← scanLoop lro (3 * sizeSolution) 0 perm cycle
  completeLoop lro cycle (perm.length + 1) 0 nbVariables perm

/-! ### The wiring `l||r||o` -/

/-- The rows of the system: the constraints, then the assertions. -/
def SparseR1CS.rows {F : Type} (spr : SparseR1CS F) : List SparseR1C :=
  spr.Constraints ++ spr.Assertions

/-- The row of position `pos` of `l||r||o` for a domain of `sizeSolution` rows. -/
def rowOf (sizeSolution pos : Nat) : Nat :=
  if pos < sizeSolution then pos
  else if pos < 2 * sizeSolution then pos - sizeSolution
  else pos - 2 * sizeSolution

/-- The variable ID of the wire of gate `c` that position `pos` stands for: `L` in the first
third of `l||r||o`, `R` in the second, `O` in the last. -/
def wireOf (sizeSolution pos : Nat) (c : SparseR1C) : Nat :=
  if pos < sizeSolution then c.L.VariableID
  else if pos < 2 * sizeSolution then c.R.VariableID
  else c.O.VariableID

/-- The variable ID at position `pos` of `l||r||o` when the rows hold the gates `rows`: the
wire of the gate of that row, and `0` (the value `make` leaves) in a row without gate. -/
def wiringAt (rows : List SparseR1C) (sizeSolution pos : Nat) : Nat :=
  match rows[rowOf sizeSolution pos]? with
  | some c => wireOf sizeSolution pos c
  | none => 0

/-- The variable ID at position `pos` of `l||r||o` for the circuit `spr` and a domain of
`sizeSolution` rows. -/
def lroAt {F : Type} (spr : SparseR1CS F) (sizeSolution pos : Nat) : Nat :=
  wiringAt spr.rows sizeSolution pos

/-- The slice `lro` of `buildPermutation` (position -> variable ID). -/
def lroOf {F : Type} (spr : SparseR1CS F) (sizeSolution : Nat) : List Nat :=
  (List.range (3 * sizeSolution)).map (lroAt spr sizeSolution)

/-- The greatest position below `k` at which `lro` holds the variable `x`. -/
def lastBelow (lro : List Nat) (x : Nat) : Nat → Option Nat
  | 0 => none
  | k + 1 => if lro[k]? = some x then some k else lastBelow lro x k

/-- The encoding of an optional position in `Permutation` and in `cycle`: `-1` stands for
"none". -/
def optPos : Option Nat → Int
  | none => -1
  | some j => (j : Int)

/-- The state of `buildPermutation` when its loop `for i := 0; i < 3*sizeSolution; i++` has
made `k` iterations: `Permutation[i]` holds the previous position of the variable of `i` for
`i < k` (`-1` if there is none) and `-1` for the other `i`; `cycle[x]` holds the last position
of `x` below `k`. -/
def ScanInv (lro : List Nat) (nbVariables k : Nat) (perm cycle : List Int) : Prop :=
  perm.length = lro.length ∧ cycle.length = nbVariables ∧
  (∀ i, i < lro.length →
    perm[i]? = some (if i < k then optPos (lastBelow lro (lro.getD i 0) i) else -1)) ∧
  (∀ x, x < nbVariables → cycle[x]? = some (optPos (lastBelow lro x k)))

/-- The number of positions below `k` that are the first position of their variable. -/
def firsts (lro : List Nat) : Nat → Nat
  | 0 => 0
  | k + 1 => firsts lro k + (if lastBelow lro (lro.getD k 0) k = none then 1 else 0)

/-- The image of position `i` under the permutation of the wiring `lro`: the previous position
of the same variable, and from the first position of a variable its last position. -/
def sigma (lro : List Nat) (i : Nat) : Nat :=
  match lastBelow lro (lro.getD i 0) i with
  | some j => j
  | none => (lastBelow lro (lro.getD i 0) lro.length).getD i

/-- The position reached from `i` by `k` applications of the permutation `perm`
(`none` if an entry is missing or is not a position). -/
def iterPerm (perm : List Int) : Nat → Nat → Option Nat
  | 0, i => some i
  | k + 1, i =>
    match perm[i]? with
    | some (Int.ofNat j) => iterPerm perm k j
    | _ => none

/-! ## `setup.go`: the selector polynomials -/

/-- Modelled from the spec: the evaluation domain `fft.Domain` (the package `fft` is not
among the sources): a multiplicative subgroup of the field of power-of-two order, with
its cardinality, its generator, the inverse of the generator and the inverse of the
cardinality. -/
structure Domain (F : Type) where
  Cardinality : Nat
  Generator : F
  GeneratorInv : F
  CardinalityInv : F

/-- The search of `nextPowerOfTwo`: doubles `p` until it reaches `n`. -/
def nextPowerOfTwoFrom (n : Nat) : Nat → Nat → Nat
  | 0, p => p
  | fuel + 1, p => if n ≤ p then p else nextPowerOfTwoFrom n fuel (2 * p)

/-- Modelled from the spec: the cardinality `fft.NewDomain` gives a domain for a target size
`n`, "the smallest power-of-two subgroup domain with cardinality ≥ n". -/
def nextPowerOfTwo (n : Nat) : Nat := nextPowerOfTwoFrom n n 1

/-- Modelled from the spec: the constructor `fft.NewDomain(m, depth)` (the package `fft` is
not among the sources): the domain of the smallest power-of-two cardinality that is at
least `m`.  The field supplies `root`, which gives for a power of two `n` a generator of
its subgroup of order `n`; `depth` only asks for precomputed cosets, which the setup does
not read. -/
def NewDomain {F : Type} [Field F] (root : Nat → F) (m : Nat) (_depth : Nat) : Domain F :=
  { Cardinality := nextPowerOfTwo m
    Generator := root (nextPowerOfTwo m)
    GeneratorInv := (root (nextPowerOfTwo m))⁻¹
    CardinalityInv := ((nextPowerOfTwo m : Nat) : F)⁻¹ }

/-- The index `i` with its `k` low bits in reverse order. -/
def bitReverseIndex : Nat → Nat → Nat
  | 0, _ => 0
  | k + 1, i => (i % 2) * 2 ^ k + bitReverseIndex k (i / 2)

/-- Modelled from the spec: `fft.BitReverse`, the bit-reversal permutation of a vector whose
length is a power of two: entry `i` of the result is the entry of the argument at the
index `i` with its bits reversed. -/
def BitReverse {F : Type} [Zero F] (v : List F) : List F :=
  (List.range v.length).map (fun i => v.getD (bitReverseIndex (Nat.log 2 v.length) i) 0)

/-- The coefficients, in natural order, of the polynomial of degree below the cardinality
that takes the value `v[i]` at the `i`-th power of the generator: the inverse discrete
Fourier transform of `v`. -/
def inverseDFT {F : Type} [Field F] (d : Domain F) (v : List F) : List F :=
  (List.range d.Cardinality).map (fun j =>
    d.CardinalityInv *
      Finset.sum (Finset.range d.Cardinality) (fun i => v.getD i 0 * d.GeneratorInv ^ (i * j)))

/-- Modelled from the spec: `Domain.FFTInverse(v, fft.DIF, 0)`, which converts `v` "from
evaluation form to canonical (coefficient) form" and "emits decimation-in-frequency
order": the coefficients in bit-reversed order. -/
def FFTInverse {F : Type} [Field F] (d : Domain F) (v : List F) : List F :=
  BitReverse (inverseDFT d v)

/-- The value at `x` of the polynomial with the coefficients `p` (canonical basis). -/
def evalPoly {F : Type} [Field F] (p : List F) (x : F) : F :=
  Finset.sum (Finset.range p.length) (fun j => p.getD j 0 * x ^ j)

/-- The five vectors `Ql, Qr, Qm, Qo, Qk` of `PublicRaw`. -/
structure Selectors (F : Type) where
  Ql : List F
  Qr : List F
  Qm : List F
  Qo : List F
  Qk : List F

/-- The loops over `spr.Constraints` and over `spr.Assertions` of `Setup`: the gate at the
head of the list sets entry `index` of the five vectors from the coefficient table
(`none` is the panic of an index out of range). -/
def fillSelectors {F : Type} [Field F] (coeffs : List F) :
    List SparseR1C → Nat → Selectors F → Option (Selectors F)
  | [], _, q => some q
  | c :: rest, index, q => do
    let cl ← coeffs[c.L.CoeffID]?
    let Ql ← store q.Ql index cl
    let cr ← coeffs[c.R.CoeffID]?
    let Qr ← store q.Qr index cr
    let m0 ← coeffs[c.M0.CoeffID]?
    let Qm ← store q.Qm index m0
    let m1 ← coeffs[c.M1.CoeffID]?
    let Qm ← store Qm index (m0 * m1)
    let co ← coeffs[c.O.CoeffID]?
    let Qo ← store q.Qo index co
    let ck ← coeffs[c.K]?
    let Qk ← store q.Qk index ck
    fillSelectors coeffs rest (index + 1) { Ql := Ql, Qr := Qr, Qm := Qm, Qo := Qo, Qk := Qk }

/-- The part of `Setup` that fills the five vectors of length `cardinality` with the
selectors of the rows, before the inverse transform. -/
def selectorRows {F : Type} [Field F] (spr : SparseR1CS F) (cardinality : Nat) :
    Option (Selectors F) := do
  let zeros := List.replicate cardinality (0 : F)
  let q ← fillSelectors spr.Coefficients spr.Constraints 0
    { Ql := zeros, Qr := zeros, Qm := zeros, Qo := zeros, Qk := zeros }
  fillSelectors spr.Coefficients spr.Assertions spr.Constraints.length q

/-- The struct `PublicRaw`; `C` is the type of the commitment scheme. -/
structure PublicRaw (F C : Type) where
  CommitmentScheme : C
  Ql : List F
  Qr : List F
  Qm : List F
  Qo : List F
  Qk : List F
  DomainNum : Domain F
  DomainH : Domain F
  Permutation : List Int

/-- The function `Setup`; `none` is a panic. -/
def Setup {F C : Type} [Field F] (root : Nat → F) (spr : SparseR1CS F)
    (polynomialCommitment : C) : Option (PublicRaw F C) := do
  let nbConstraints := spr.Constraints.length
  let nbAssertions := spr.Assertions.length
  let sizeSystem := nbConstraints + nbAssertions
  let domainNum := NewDomain root sizeSystem 2
  let domainH := NewDomain root (2 * sizeSystem) 1
  let q ← selectorRows spr domainNum.Cardinality
  let permutation ← buildPermutation spr domainNum.Cardinality
  some
    { CommitmentScheme := polynomialCommitment
      Ql := BitReverse (FFTInverse domainNum q.Ql)
      Qr := BitReverse (FFTInverse domainNum q.Qr)
      Qm := BitReverse (FFTInverse domainNum q.Qm)
      Qo := BitReverse (FFTInverse domainNum q.Qo)
      Qk := BitReverse (FFTInverse domainNum q.Qk)
      DomainNum := domainNum
      DomainH := domainH
      Permutation := permutation }

/-! ### The gates -/

/-- The selectors of a gate, read from the coefficient table: `qL`. -/
def SparseR1C.qL {F : Type} [Field F] (coeffs : List F) (c : SparseR1C) : F :=
  coeffs.getD c.L.CoeffID 0

/-- The selector `qR` of a gate. -/
def SparseR1C.qR {F : Type} [Field F] (coeffs : List F) (c : SparseR1C) : F :=
  coeffs.getD c.R.CoeffID 0

/-- The selector `qM` of a gate: the product of the coefficients of `M[0]` and `M[1]`. -/
def SparseR1C.qM {F : Type} [Field F] (coeffs : List F) (c : SparseR1C) : F :=
  coeffs.getD c.M0.CoeffID 0 * coeffs.getD c.M1.CoeffID 0

/-- The selector `qO` of a gate. -/
def SparseR1C.qO {F : Type} [Field F] (coeffs : List F) (c : SparseR1C) : F :=
  coeffs.getD c.O.CoeffID 0

/-- The selector `qK` of a gate. -/
def SparseR1C.qK {F : Type} [Field F] (coeffs : List F) (c : SparseR1C) : F :=
  coeffs.getD c.K 0

/-- Modelled from the spec: what a gate of the sparse R1CS asks of the values `l, r, o` of
its wires (the solver is not among the sources): `L + R + M[0]·M[1] + O + K = 0`, each
term being its coefficient times the value of its wire, which the spec writes
`qL·l + qR·r + qM·l·r + qO·o + qK = 0`. -/
def SparseR1C.holds {F : Type} [Field F] (coeffs : List F) (c : SparseR1C) (l r o : F) : Prop :=
  coeffs.getD c.L.CoeffID 0 * l + coeffs.getD c.R.CoeffID 0 * r
    + (coeffs.getD c.M0.CoeffID 0 * l) * (coeffs.getD c.M1.CoeffID 0 * r)
    + coeffs.getD c.O.CoeffID 0 * o + coeffs.getD c.K 0 = 0

/-- The gate expression `Ql·l + Qr·r + Qm·l·r + Qo·o + Qk` of PLONK. -/
def gateExpression {F : Type} [Field F] (ql qr qm qo qk l r o : F) : F :=
  ql * l + qr * r + qm * l * r + qo * o + qk

/-- The coefficient IDs of a gate are indices of a coefficient table of `n` entries. -/
def SparseR1C.coeffsBelow (n : Nat) (c : SparseR1C) : Prop :=
  c.L.CoeffID < n ∧ c.R.CoeffID < n ∧ c.M0.CoeffID < n ∧ c.M1.CoeffID < n ∧
    c.O.CoeffID < n ∧ c.K < n

instance SparseR1C.decidableCoeffsBelow (n : Nat) (c : SparseR1C) :
    Decidable (c.coeffsBelow n) := by
  unfold SparseR1C.coeffsBelow
  exact inferInstance

/-- The entry of row `i` of a vector that holds `f c` in the row of the gate `c` and zero in
a row without gate. -/
def columnAt {F : Type} [Field F] (f : SparseR1C → F) (rows : List SparseR1C) (i : Nat) : F :=
  match rows[i]? with
  | some c => f c
  | none => 0

/-- The five vectors have `cardinality` entries each, and hold in every row the selectors of
the gate that `rows` has there, zero in a row without gate. -/
def SelectorsOf {F : Type} [Field F] (coeffs : List F) (rows : List SparseR1C)
    (cardinality : Nat) (q : Selectors F) : Prop :=
  (q.Ql.length = cardinality ∧ q.Qr.length = cardinality ∧ q.Qm.length = cardinality ∧
    q.Qo.length = cardinality ∧ q.Qk.length = cardinality) ∧
  ∀ i, i < cardinality →
    q.Ql[i]? = some (columnAt (SparseR1C.qL coeffs) rows i) ∧
    q.Qr[i]? = some (columnAt (SparseR1C.qR coeffs) rows i) ∧
    q.Qm[i]? = some (columnAt (SparseR1C.qM coeffs) rows i) ∧
    q.Qo[i]? = some (columnAt (SparseR1C.qO coeffs) rows i) ∧
    q.Qk[i]? = some (columnAt (SparseR1C.qK coeffs) rows i)

/-- A circuit of three gates over the variables `x0, ..., x4` (`x0` public, `x1, x2` secret,
`x3, x4` internal), with the coefficient table `[0, 1, -1]`: the constraints
`x1·x2 - x3 = 0` and `x3 + x1 - x4 = 0` and the assertion `x4 - x3 = 0`.  The variable `x2`
is at one position only. -/
def exampleCircuit : SparseR1CS (ZMod 17) where
  Constraints :=
    [{ L := ⟨0, 1⟩, R := ⟨0, 2⟩, O := ⟨2, 3⟩, M0 := ⟨1, 1⟩, M1 := ⟨1, 2⟩, K := 0 },
     { L := ⟨1, 3⟩, R := ⟨1, 1⟩, O := ⟨2, 4⟩, M0 := ⟨0, 3⟩, M1 := ⟨0, 1⟩, K := 0 }]
  Assertions :=
    [{ L := ⟨1, 4⟩, R := ⟨0, 0⟩, O := ⟨2, 3⟩, M0 := ⟨0, 4⟩, M1 := ⟨0, 0⟩, K := 0 }]
  NbInternalVariables := 2
  NbPublicVariables := 1
  NbSecretVariables := 2
  Coefficients := [0, 1, -1]

instance fact17 : Fact (Nat.Prime 17) := ⟨by norm_num⟩

/-- The roots of unity of the field of 17 elements: `3` generates its multiplicative group,
which has order 16. -/
def exampleRoot (n : Nat) : ZMod 17 := 3 ^ (16 / n)

/-- The circuit of the single constraint `qL = 1, qR = 1, qM = 0, qO = -1, qK = 0`, that is
`l + r - o = 0`, over the variables `x0` (public) and `x1, x2` (secret), which are its three
wires. -/
def additionCircuit (F : Type) [Field F] : SparseR1CS F where
  Constraints :=
    [{ L := ⟨1, 0⟩, R := ⟨1, 1⟩, O := ⟨2, 2⟩, M0 := ⟨0, 0⟩, M1 := ⟨0, 1⟩, K := 0 }]
  Assertions := []
  NbInternalVariables := 0
  NbPublicVariables := 1
  NbSecretVariables := 2
  Coefficients := [0, 1, -1]

/-! ## `witness.go`: assignments -/

/-- Modelled from the spec: the visibility `compiled.Visibility` that the schema walker
reports for a leaf (its declaration is not among the sources): "each leaf's declared
visibility (`Public`/`Secret`)". -/
inductive Visibility where
  | Secret
  | Public
  deriving DecidableEq, Repr

/-- Modelled from the spec: a leaf of an assignment as the schema walker hands it to a
`schema.LeafHandler`: its visibility, its schema-qualified name, and its value `tInput`
(`none` is a nil value, for which `tInput.IsNil()` holds or `tInput.Interface()` is
`nil`). -/
structure Leaf (V : Type) where
  visibility : Visibility
  name : String
  tInput : Option V
  deriving DecidableEq, Repr

/-- What a call of a `schema.LeafHandler` leaves behind: the value of the leaf (the handler may
`Set` it), the variables its closure captured, and the error it returned. -/
structure Visit (V S X : Type) where
  tInput : Option V
  state : S
  err : Option X

/-- What a call of `schema.Parse` with a handler leaves behind: the leaves, the variables the
handler captured, and the error returned. -/
structure Walk (V S X : Type) where
  leaves : List (Leaf V)
  state : S
  err : Option X

/-- Modelled from the spec: `schema.Parse` with a handler (the package `schema` is not among
the sources): "visits every leaf field in declaration order", "in a deterministic,
repeatable order", and stops at the first error of the handler ("fail-fast, not
best-effort").  `none` is a panic of the handler. -/
def Parse {V S X : Type}
    (handler : Visibility → String → Option V → S → Option (Visit V S X)) :
    List (Leaf V) → S → Option (Walk V S X)
  | [], st => some { leaves := [], state := st, err := none }
  | l :: rest, st =>
    match handler l.visibility l.name l.tInput st with
    | none => none
    | some r =>
      match r.err with
      | some e =>
        some { leaves := { l with tInput := r.tInput } :: rest, state := r.state, err := some e }
      | none =>
        match Parse handler rest r.state with
        | none => none
        | some w => some { w with leaves := { l with tInput := r.tInput } :: w.leaves }

/-- Modelled from the spec: the counts `NbPublic` and `NbSecret` of `schema.Schema`. -/
structure Schema where
  NbPublic : Nat
  NbSecret : Nat
  deriving DecidableEq, Repr

/-- Modelled from the spec: the schema of an assignment, the numbers of its public and of
its secret leaves. -/
def schemaOf {V : Type} (assignment : List (Leaf V)) : Schema :=
  { NbPublic := assignment.countP (fun l => l.visibility == Visibility.Public)
    NbSecret := assignment.countP (fun l => l.visibility == Visibility.Secret) }

/-- Modelled from the spec: `schema.Parse` without handler (the package `schema` is not among
the sources), which returns the schema of the assignment or an error of the walker itself.
The spec gives the walker no error of its own; `schemaErr` is that error, if the walker has
one for the assignment object. -/
def ParseSchema {V E : Type} (schemaErr : Option E) (assignment : List (Leaf V)) :
    Except E Schema :=
  match schemaErr with
  | some err => Except.error err
  | none => Except.ok (schemaOf assignment)

/-- The errors `FromAssignment` returns: the error of the walker itself, returned as it is,
and the errors it builds with `fmt.Errorf`,
`"when parsing variable %s: missing assignment"` and `"when parsing variable %s: %v"`. -/
inductive AssignmentError (E : Type) where
  | schema (err : E)
  | missingAssignment (name : String)
  | conversion (name : String) (err : E)
  deriving DecidableEq, Repr

/-- The outcome of the conversion `fr.Element.SetInterface(v)` (of gnark-crypto, a parameter
here): the element it sets, the error it returns, the element staying as it was, or a
panic. -/
inductive Conversion (E F : Type) where
  | ok (x : F)
  | error (err : E)
  | panic
  deriving DecidableEq, Repr

/-- The variables that `collectHandler` captures: the witness and the indexes `i` (secret) and
`j` (public). -/
structure CollectState (F : Type) where
  witness : Witness F
  i : Nat
  j : Nat

/-- The closure `collectHandler` of `FromAssignment`; `SetInterface` is the conversion
`fr.Element.SetInterface` of a value to a field element.  The slot `(*witness)[i]` is
indexed before the conversion is called, so an index out of range panics first; a panic of
the conversion is a panic of the handler. -/
def collectHandler {V F E : Type} (SetInterface : V → Conversion E F) (publicOnly : Bool) :
    Visibility → String → Option V → CollectState F →
      Option (Visit V (CollectState F) (AssignmentError E))
  | visibility, name, tInput, st =>
    if publicOnly && visibility != Visibility.Public then
      some { tInput := tInput, state := st, err := none }
    else
      match tInput with
      | none =>
        some { tInput := tInput, state := st, err := some (AssignmentError.missingAssignment name) }
      | some v =>
        if !publicOnly && visibility == Visibility.Secret then
          if st.i < st.witness.length then
            match SetInterface v with
            | Conversion.panic => none
            | Conversion.error err =>
              some { tInput := tInput, state := st,
                     err := some (AssignmentError.conversion name err) }
            | Conversion.ok x =>
              some { tInput := tInput,
                     state := { st with witness := st.witness.set st.i x, i := st.i + 1 },
                     err := none }
          else none
        else if visibility == Visibility.Public then
          if st.j < st.witness.length then
            match SetInterface v with
            | Conversion.panic => none
            | Conversion.error err =>
              some { tInput := tInput, state := st,
                     err := some (AssignmentError.conversion name err) }
            | Conversion.ok x =>
              some { tInput := tInput,
                     state := { st with witness := st.witness.set st.j x, j := st.j + 1 },
                     err := none }
          else none
        else some { tInput := tInput, state := st, err := none }

/-- The state in which `FromAssignment` starts its walk, for the schema `s` that the first
`schema.Parse` returned: the witness resized to `nbPublic+nbSecret` elements (a fresh slice
of zeros if it was shorter, its first elements otherwise), `i = nbPublic` and `j = 0`. -/
def collectStart {F : Type} (zero : F) (witness : Witness F) (s : Schema)
    (publicOnly : Bool) : CollectState F :=
  let nbSecret := if publicOnly then 0 else s.NbSecret
  let nbPublic := s.NbPublic
  { witness :=
      if witness.length < nbPublic + nbSecret then List.replicate (nbPublic + nbSecret) zero
      else witness.take (nbPublic + nbSecret)
    i := nbPublic
    j := 0 }

/-- What `FromAssignment` leaves behind: the witness, and the schema or the error it
returns. -/
structure AssignmentResult (F E : Type) where
  witness : Witness F
  schema : Option Schema
  err : Option (AssignmentError E)

/-- The method `Witness.FromAssignment`; `none` is a panic.  The first `schema.Parse`, without
handler, gives the schema or an error, which is returned before the witness is touched; the
second one walks the leaves with `collectHandler`. -/
def FromAssignment {V F E : Type} (SetInterface : V → Conversion E F) (schemaErr : Option E)
    (zero : F) (witness : Witness F) (assignment : List (Leaf V)) (publicOnly : Bool) :
    Option (AssignmentResult F E) :=
  match ParseSchema schemaErr assignment with
  | Except.error err =>
    some { witness := witness, schema := none, err := some (AssignmentError.schema err) }
  | Except.ok s =>
    match Parse (collectHandler SetInterface publicOnly) assignment
        (collectStart zero witness s publicOnly) with
    | none => none
    | some w =>
      some { witness := w.state.witness
             schema := if w.err.isNone then some s else none
             err := w.err }

/-- The closure `setHandler(v)` of `ToAssignment`, which captures the index `i`; `addrOf x`
is the value `reflect.ValueOf(&x)`, `valueOf x` the value `reflect.ValueOf(x)` of an element
of the witness. -/
def setHandler {V F : Type} (setAddr : Bool) (addrOf valueOf : F → V) (witness : Witness F)
    (v : Visibility) : Visibility → String → Option V → Nat → Option (Visit V Nat Empty)
  | visibility, _, tInput, i =>
    if visibility == v then
      match witness[i]? with
      | none => none
      | some x =>
        some { tInput := some (if setAddr then addrOf x else valueOf x), state := i + 1,
               err := none }
    else some { tInput := tInput, state := i, err := none }

/-- The method `Witness.ToAssignment`: the leaves of the assignment after the call; `none` is
a panic. -/
def ToAssignment {V F : Type} (setAddr : Bool) (addrOf valueOf : F → V) (witness : Witness F)
    (assignment : List (Leaf V)) (publicOnly : Bool) : Option (List (Leaf V)) :=
  match Parse (setHandler setAddr addrOf valueOf witness Visibility.Public) assignment 0 with
  | none => none
  | some w1 =>
    if publicOnly then some w1.leaves
    else
      match Parse (setHandler setAddr addrOf valueOf witness Visibility.Secret) w1.leaves
          w1.state with
      | none => none
      | some w2 => some w2.leaves

/-! ### Leaves and their field elements -/

/-- The field element of a leaf: the conversion of its value, if it has a value and the value
converts. -/
def leafElement {V F E : Type} (SetInterface : V → Conversion E F) (l : Leaf V) : Option F :=
  match l.tInput with
  | none => none
  | some v =>
    match SetInterface v with
    | Conversion.ok x => some x
    | Conversion.error _ => none
    | Conversion.panic => none

/-- The leaves that `FromAssignment` does not skip: all of them, the public ones only in
`publicOnly` mode. -/
def handled (publicOnly : Bool) (visibility : Visibility) : Bool :=
  !(publicOnly && visibility != Visibility.Public)

/-- The field elements of the leaves of visibility `vis`, in the order of the leaves. -/
def valuesOf {V F E : Type} (SetInterface : V → Conversion E F) (vis : Visibility) :
    List (Leaf V) → List F
  | [] => []
  | l :: rest =>
    if l.visibility = vis then
      match leafElement SetInterface l with
      | some x => x :: valuesOf SetInterface vis rest
      | none => valuesOf SetInterface vis rest
    else valuesOf SetInterface vis rest

/-- The field elements that the secret leaves contribute to the witness: none in `publicOnly`
mode. -/
def secretValues {V F E : Type} (SetInterface : V → Conversion E F) (publicOnly : Bool)
    (leaves : List (Leaf V)) : List F :=
  if publicOnly then [] else valuesOf SetInterface Visibility.Secret leaves

/-- The leaf `lb` with the field element of the leaf `la` as its value. -/
def assignLeaf {V F E : Type} (SetInterface : V → Conversion E F) (inject : F → V)
    (la lb : Leaf V) : Leaf V :=
  { lb with tInput := (leafElement SetInterface la).map inject }

/-- The leaves `b` after `ToAssignment` has walked them with `setHandler(v)` and the elements
`xs` ahead in the witness. -/
def fillFrom {V F : Type} (inject : F → V) (v : Visibility) :
    List F → List (Leaf V) → List (Leaf V)
  | _, [] => []
  | xs, l :: rest =>
    if l.visibility = v then
      match xs with
      | [] => l :: rest
      | x :: xs1 => { l with tInput := some (inject x) } :: fillFrom inject v xs1 rest
    else l :: fillFrom inject v xs rest

/-- The schema of an assignment as a list: the visibility and the name of every leaf. -/
def shape {V : Type} (assignment : List (Leaf V)) : List (Visibility × String) :=
  assignment.map (fun l => (l.visibility, l.name))

/-! ### Values of leaves -/

/-- A value an assignment can hold in a leaf (an `interface{}`): a Go integer, a field
element, a pointer to a field element, a nil pointer to a field element, a Go string, or a
value of a type that `fr.Element.SetInterface` does not accept (the name of the type is
kept). -/
inductive Value (F : Type) where
  | int (n : Int)
  | element (x : F)
  | pointer (x : F)
  | nilPointer
  | string (s : String)
  | other (description : String)
  deriving DecidableEq, Repr

/-- The number a list of decimal digits holds, most significant digit first; `none` if the
list is empty or has a character that is not a digit. -/
def digitsValue : List Char → Option Nat
  | [] => none
  | c :: cs =>
    (c :: cs).foldl
      (fun acc d => acc.bind (fun n => if d.isDigit then some (10 * n + (d.toNat - 48)) else none))
      (some 0)

/-- The integer a string holds in base 10, as `big.Int.SetString(s, 10)` reads it: an
optional sign followed by decimal digits. -/
def parseDecimal (s : String) : Option Int :=
  match s.data with
  | '-' :: cs => (digitsValue cs).map (fun n => -(n : Int))
  | '+' :: cs => (digitsValue cs).map (fun n => (n : Int))
  | cs => (digitsValue cs).map (fun n => (n : Int))

/-- The conversion `fr.Element.SetInterface` on the values of `Value`: an integer, an element
and a pointer to an element convert; a string converts if it holds a number (in base 10, with
an optional sign) and makes `SetString` panic otherwise; a nil pointer is dereferenced, a
panic; for a type that is not accepted the error `"can't set fr.Element from type ..."` is
returned. -/
def Value.SetInterface {F : Type} [Field F] : Value F → Conversion String F
  | Value.int n => Conversion.ok (n : F)
  | Value.element x => Conversion.ok x
  | Value.pointer x => Conversion.ok x
  | Value.nilPointer => Conversion.panic
  | Value.string s =>
    match parseDecimal s with
    | some n => Conversion.ok (n : F)
    | none => Conversion.panic
  | Value.other description =>
    Conversion.error ("can't set fr.Element from type " ++ description)

/-! ## `lookup2.go` -/

/-- The struct `lookup2Circuit`, as an assignment: every `cs.Variable` holds the Go integer
assigned to it. -/
structure lookup2Circuit where
  V0 : Int
  V1 : Int
  V2 : Int
  V3 : Int
  Selector0 : Int
  Selector1 : Int
  Expected : Int
  deriving DecidableEq, Repr

/-- The anonymous struct of the test cases in `init`. -/
structure lookup2Case where
  b0 : Int
  b1 : Int
  expected : Int
  unexpected : Int
  deriving DecidableEq, Repr

/-- The test cases that `init` ranges over. -/
def lookup2Cases : List lookup2Case :=
  [⟨0, 0, 0, 1⟩, ⟨1, 0, 1, 0⟩, ⟨0, 1, 2, 0⟩, ⟨1, 1, 3, 0⟩]

/-- What `addEntry` registers for a test case: the name and the good and the bad assignment
(the empty circuit and the curves are left out). -/
structure lookup2Entry where
  name : String
  good : lookup2Circuit
  bad : lookup2Circuit
  deriving DecidableEq, Repr

/-- The function `init`: the entries it registers. -/
def lookup2Entries : List lookup2Entry :=
  lookup2Cases.map (fun tc =>
    { name := "lookup2-" ++ toString tc.b0 ++ toString tc.b1
      good := ⟨0, 1, 2, 3, tc.b0, tc.b1, tc.expected⟩
      bad := ⟨0, 1, 2, 3, tc.b0, tc.b1, tc.unexpected⟩ })

/-- Modelled from the spec: `api.Lookup2(b0, b1, i0, i1, i2, i3)` (the frontend is not among
the sources), the 2-bit selection "selector bits `(0,0)→0`, `(1,0)→1`, `(0,1)→2`,
`(1,1)→3`": the input of index `b0 + 2·b1`. -/
def Lookup2 {F : Type} [Field F] [DecidableEq F] (b0 b1 i0 i1 i2 i3 : F) : F :=
  if b1 = 0 then (if b0 = 0 then i0 else i1) else (if b0 = 0 then i2 else i3)

/-- The method `lookup2Circuit.Define` on an assignment over the field `F`: the equality that
`api.AssertIsEqual(selected, c.Expected)` asserts. -/
def lookup2Circuit.Define (F : Type) [Field F] [DecidableEq F] (c : lookup2Circuit) : Prop :=
  Lookup2 (c.Selector0 : F) (c.Selector1 : F) (c.V0 : F) (c.V1 : F) (c.V2 : F) (c.V3 : F)
    = (c.Expected : F)

/-- The leaves of an assignment of `lookup2Circuit`, in the order of the fields: the six
secret inputs, then the public `Expected`. -/
def lookup2Circuit.leaves (F : Type) (c : lookup2Circuit) : List (Leaf (Value F)) :=
  [⟨Visibility.Secret, "V0", some (Value.int c.V0)⟩,
   ⟨Visibility.Secret, "V1", some (Value.int c.V1)⟩,
   ⟨Visibility.Secret, "V2", some (Value.int c.V2)⟩,
   ⟨Visibility.Secret, "V3", some (Value.int c.V3)⟩,
   ⟨Visibility.Secret, "Selector0", some (Value.int c.Selector0)⟩,
   ⟨Visibility.Secret, "Selector1", some (Value.int c.Selector1)⟩,
   ⟨Visibility.Public, "Expected", some (Value.int c.Expected)⟩]

/-- The good assignment of the entry `lookup2-10`. -/
def lookup2Good : lookup2Circuit := ⟨0, 1, 2, 3, 1, 0, 1⟩

/-- An assignment of two secret and two public leaves, all with a value. -/
def exampleAssignment : List (Leaf (Value (ZMod 17))) :=
  [⟨Visibility.Secret, "A", some (Value.int 3)⟩,
   ⟨Visibility.Public, "B", some (Value.element 5)⟩,
   ⟨Visibility.Secret, "C", some (Value.pointer 4)⟩,
   ⟨Visibility.Public, "D", some (Value.int (-1))⟩]

/-- The assignment `exampleAssignment` with its secret leaves without a value or with a
value that does not convert. -/
def exampleHidden : List (Leaf (Value (ZMod 17))) :=
  [⟨Visibility.Secret, "A", none⟩,
   ⟨Visibility.Public, "B", some (Value.element 5)⟩,
   ⟨Visibility.Secret, "C", some (Value.other "bool")⟩,
   ⟨Visibility.Public, "D", some (Value.int (-1))⟩]

/-- An assignment of the schema of `exampleAssignment` without any value. -/
def exampleTarget : List (Leaf (Value (ZMod 17))) :=
  [⟨Visibility.Secret, "A", none⟩,
   ⟨Visibility.Public, "B", none⟩,
   ⟨Visibility.Secret, "C", none⟩,
   ⟨Visibility.Public, "D", none⟩]

end Gnark

/-! # Properties -/

namespace Gnark

/-! ## Big-endian buffers -/

theorem length_beBytes (k x : Nat) : (beBytes k x).length = k := by
  induction k generalizing x with
  | zero => rfl
  | succ k ih => simp [beBytes, ih]

theorem beNat_append_singleton (b : List Byte) (d : Byte) :
    beNat (b ++ [d]) = beNat b * 256 + d.val := by
  simp [beNat, List.foldl_append]

theorem beNat_beBytes (k x : Nat) : beNat (beBytes k x) = x % 256 ^ k := by
  induction k generalizing x with
  | zero => simp [beBytes, beNat, Nat.mod_one]
  | succ k ih =>
    rw [beBytes, beNat_append_singleton, ih]
    simp only []
    rw [pow_succ, mul_comm (256 ^ k) 256, Nat.mod_mul]
    omega

theorem fin_mk_eq_of_val {m n : Nat} (x : Fin m) (h : n < m) (e : n = x.val) :
    (⟨n, h⟩ : Fin m) = x := by
  subst e
  rfl

theorem beSetBytes_of_lt (m : Nat) (hm : 0 < m) (b : List Byte) (h : beNat b < m) :
    beSetBytes m hm b = Except.ok ⟨beNat b, h⟩ := by
  unfold beSetBytes
  exact congrArg Except.ok (Fin.ext (Nat.mod_eq_of_lt h))

theorem beCodec_lawful (m k : Nat) (hm0 : 0 < m) (hm : m ≤ 256 ^ k) :
    (beCodec m k hm0).Lawful where
  length_toBytes := fun x => length_beBytes k x.val
  setBytes_toBytes := by
    intro x
    have hx : beNat (beBytes k x.val) = x.val := by
      rw [beNat_beBytes]
      exact Nat.mod_eq_of_lt (Nat.lt_of_lt_of_le x.isLt hm)
    have hlt : beNat (beBytes k x.val) < m := by
      rw [hx]
      exact x.isLt
    show beSetBytes m hm0 (beBytes k x.val) = Except.ok x
    rw [beSetBytes_of_lt m hm0 _ hlt]
    exact congrArg Except.ok (fin_mk_eq_of_val x hlt hx)

theorem frModulus_le : frModulus ≤ 256 ^ 32 := by
  norm_num [frModulus]

theorem frCodec_lawful : frCodec.Lawful := beCodec_lawful frModulus 32 _ frModulus_le

/-- The conversion of the decoder of `fr` accepts every buffer. -/
theorem frCodec_accepts (b : List Byte) : ∃ x, frCodec.setBytes b = Except.ok x :=
  ⟨_, rfl⟩

theorem length_putUint32 (x : Nat) : (putUint32 x).length = 4 := rfl

theorem beUint32_putUint32 (x : Nat) : beUint32 (putUint32 x) = x % 2 ^ 32 := by
  simp only [beUint32, putUint32, List.getD_cons_zero, List.getD_cons_succ]
  omega

/-! ## Writing a witness -/

theorem length_encodeAll {F E : Type} (c : ElementCodec F E) (hc : c.Lawful) (v : List F) :
    (encodeAll c v).length = v.length * c.Bytes := by
  induction v with
  | nil => simp [encodeAll]
  | cons x xs ih =>
    simp only [encodeAll, List.length_append, List.length_cons, ih, hc.length_toBytes]
    ring

theorem write_room_none (w : Writer) (p : List Byte) (hw : w.room = none) :
    w.write p = ({ out := w.out ++ p, room := none }, p.length, none) := by
  cases w with
  | mk out room =>
    simp only at hw
    subst hw
    rfl

theorem writeLoop_room_none {F E : Type} (c : ElementCodec F E) (v : List F) (enc : Encoder)
    (hw : enc.w.room = none) :
    writeLoop c v enc =
      { w := { out := enc.w.out ++ encodeAll c v, room := none },
        n := enc.n + (encodeAll c v).length + 4, err := none } := by
  induction v generalizing enc with
  | nil =>
    cases enc with
    | mk w n =>
      cases w with
      | mk out room =>
        simp only at hw
        subst hw
        simp [writeLoop, encodeAll]
  | cons x xs ih =>
    have hstep : enc.Encode c x =
        ({ w := { out := enc.w.out ++ c.toBytes x, room := none },
           n := enc.n + (c.toBytes x).length }, none) := by
      simp only [Encoder.Encode, write_room_none enc.w (c.toBytes x) hw]
    rw [writeLoop, hstep]
    simp only []
    rw [ih _ rfl]
    simp only [encodeAll, List.append_assoc, List.length_append]
    congr 1
    omega

theorem WriteTo_room_none {F E : Type} (c : ElementCodec F E) (v : Witness F) (w : Writer)
    (hw : w.room = none) :
    WriteTo c v w =
      { w := { out := w.out ++ (putUint32 (uint32 v.length) ++ encodeAll c v), room := none },
        n := (encodeAll c v).length + 4, err := none } := by
  rw [WriteTo, write_room_none w _ hw]
  simp only []
  rw [writeLoop_room_none c v _ rfl]
  simp [List.append_assoc]

/-! ## Reading a witness -/

theorem readFull_append (p r : List Byte) :
    readFull (p ++ r) p.length = (p, r, none) := by
  simp [readFull]

theorem Decode_toBytes {F E : Type} (c : ElementCodec F E) (hc : c.Lawful) (x : F)
    (r : List Byte) (n : Nat) :
    Decoder.Decode c { r := c.toBytes x ++ r, n := n } =
      ({ r := r, n := n + c.Bytes }, Except.ok x) := by
  have h := readFull_append (c.toBytes x) r
  rw [hc.length_toBytes] at h
  simp only [Decoder.Decode, h, hc.setBytes_toBytes, hc.length_toBytes]

theorem readLoop_encodeAll {F E : Type} (c : ElementCodec F E) (hc : c.Lawful) (v : List F) :
    ∀ (front mid back : List F) (rest : List Byte) (n : Nat), mid.length = v.length →
      readLoop c v.length front.length (front ++ mid ++ back)
          { r := encodeAll c v ++ rest, n := n } =
        { witness := front ++ v ++ back, r := rest, n := n + v.length * c.Bytes + 4,
          err := none } := by
  induction v with
  | nil =>
    intro front mid back rest n hmid
    have : mid = [] := List.length_eq_zero.mp hmid
    subst this
    simp [readLoop, encodeAll]
  | cons x xs ih =>
    intro front mid back rest n hmid
    cases mid with
    | nil => simp at hmid
    | cons m ms =>
      simp only [List.length_cons, Nat.add_right_cancel_iff] at hmid
      simp only [List.length_cons, readLoop, encodeAll, List.append_assoc,
        Decode_toBytes c hc]
      have hset : (front ++ (m :: ms ++ back)).set front.length x
          = (front ++ [x]) ++ ms ++ back := by
        rw [List.set_append_right _ _ (Nat.le_refl _)]
        simp
      have hlen : front.length + 1 = (front ++ [x]).length := by simp
      rw [hset, hlen, ih (front ++ [x]) ms back rest (n + c.Bytes) hmid]
      simp only [List.append_assoc, List.singleton_append, ReadResult.mk.injEq, true_and,
        and_true]
      ring

theorem uint32_of_lt (n : Nat) (h : n < 2 ^ 32) : uint32 n = n := Nat.mod_eq_of_lt h

theorem readFull_putUint32 (x : Nat) (r : List Byte) :
    readFull (putUint32 x ++ r) 4 = (putUint32 x, r, none) :=
  readFull_append (putUint32 x) r

theorem ReadFrom_wire {F E : Type} (c : ElementCodec F E) (hc : c.Lawful) (zero : F)
    (v t : Witness F) (rest : List Byte) (hv : v.length < 2 ^ 32) :
    ReadFrom c zero t (putUint32 (uint32 v.length) ++ (encodeAll c v ++ rest)) =
      { witness := v, r := rest, n := v.length * c.Bytes + 4, err := none } := by
  have hlen : beUint32 (putUint32 (uint32 v.length)) = v.length := by
    rw [beUint32_putUint32, uint32_of_lt v.length hv, Nat.mod_eq_of_lt hv]
  rw [ReadFrom, readFull_putUint32]
  simp only [hlen]
  have hmid : (if t.length ≠ v.length then List.replicate v.length zero else t).length
      = v.length := by
    split
    · simp
    · rename_i h
      exact not_not.mp h
  have h := readLoop_encodeAll c hc v [] _ [] rest 0 hmid
  simp only [List.length_nil, List.nil_append, List.append_nil, Nat.zero_add] at h
  exact h

/-! ## Reading an arbitrary stream -/

theorem readFull_fst (r : Reader) (k : Nat) : (readFull r k).1 = r.take k := by
  unfold readFull
  split
  · rfl
  · rename_i h
    split
    · rename_i h0
      have : r = [] := List.length_eq_zero.mp h0
      subst this
      simp
    · show r = List.take k r
      exact (List.take_of_length_le (by omega)).symm

theorem readFull_snd (r : Reader) (k : Nat) : (readFull r k).2.1 = r.drop k := by
  unfold readFull
  split
  · rfl
  · rename_i h
    split
    · rename_i h0
      have : r = [] := List.length_eq_zero.mp h0
      subst this
      simp
    · show [] = List.drop k r
      exact (List.drop_of_length_le (by omega)).symm

theorem readFull_err_of_le (r : Reader) (k : Nat) (h : k ≤ r.length) :
    (readFull r k).2.2 = none := by
  simp [readFull, h]

theorem readFull_err_of_lt (r : Reader) (k : Nat) (h : r.length < k) :
    ∃ e, (readFull r k).2.2 = some e := by
  unfold readFull
  rw [if_neg (by omega)]
  split
  · exact ⟨_, rfl⟩
  · exact ⟨_, rfl⟩

theorem Decode_reader {F E : Type} (c : ElementCodec F E) (dec : Decoder) :
    (dec.Decode c).1 = { r := dec.r.drop c.Bytes, n := dec.n + min c.Bytes dec.r.length } := by
  have h1 := readFull_fst dec.r c.Bytes
  have h2 := readFull_snd dec.r c.Bytes
  unfold Decoder.Decode
  rcases hrf : readFull dec.r c.Bytes with ⟨buf, r1, err⟩
  rw [hrf] at h1 h2
  simp only at h1 h2
  subst h1 h2
  simp only [List.length_take]
  cases err with
  | some e => rfl
  | none =>
    simp only []
    cases c.setBytes (List.take c.Bytes dec.r) <;> rfl

theorem Decode_short {F E : Type} (c : ElementCodec F E) (dec : Decoder)
    (h : dec.r.length < c.Bytes) : ∃ e, (dec.Decode c).2 = Except.error e := by
  obtain ⟨e, he⟩ := readFull_err_of_lt dec.r c.Bytes h
  unfold Decoder.Decode
  rcases hrf : readFull dec.r c.Bytes with ⟨buf, r1, err⟩
  rw [hrf] at he
  simp only at he
  subst he
  exact ⟨_, rfl⟩

theorem Decode_full {F E : Type} (c : ElementCodec F E) (dec : Decoder)
    (h : c.Bytes ≤ dec.r.length) :
    (dec.Decode c).2 = match c.setBytes (dec.r.take c.Bytes) with
      | Except.error e => Except.error (CodecError.element e)
      | Except.ok x => Except.ok x := by
  have h1 := readFull_fst dec.r c.Bytes
  have h3 := readFull_err_of_le dec.r c.Bytes h
  unfold Decoder.Decode
  rcases hrf : readFull dec.r c.Bytes with ⟨buf, r1, err⟩
  rw [hrf] at h1 h3
  simp only at h1 h3
  subst h1 h3
  simp only []
  cases c.setBytes (List.take c.Bytes dec.r) <;> rfl

theorem readLoop_succ_error {F E : Type} (c : ElementCodec F E) (k i : Nat) (t : Witness F)
    (dec : Decoder) (e : CodecError E) (h : (dec.Decode c).2 = Except.error e) :
    readLoop c (k + 1) i t dec =
      { witness := t, r := (dec.Decode c).1.r, n := (dec.Decode c).1.n + 4, err := some e } := by
  rw [readLoop]
  rcases hd : dec.Decode c with ⟨dec1, res⟩
  rw [hd] at h
  simp only at h
  subst h
  rfl

theorem readLoop_succ_ok {F E : Type} (c : ElementCodec F E) (k i : Nat) (t : Witness F)
    (dec : Decoder) (x : F) (h : (dec.Decode c).2 = Except.ok x) :
    readLoop c (k + 1) i t dec = readLoop c k (i + 1) (t.set i x) (dec.Decode c).1 := by
  rw [readLoop]
  rcases hd : dec.Decode c with ⟨dec1, res⟩
  rw [hd] at h
  simp only at h
  subst h
  rfl

/-- The count `readLoop` returns is 4 plus the decoder's count, and the decoder's count grows
by exactly the bytes taken from the reader. -/
theorem readLoop_consumed {F E : Type} (c : ElementCodec F E) (k : Nat) :
    ∀ (i : Nat) (t : Witness F) (dec : Decoder),
      ∃ m, m ≤ dec.r.length ∧ (readLoop c k i t dec).n = dec.n + m + 4 ∧
        (readLoop c k i t dec).r = dec.r.drop m := by
  induction k with
  | zero =>
    intro i t dec
    exact ⟨0, Nat.zero_le _, rfl, rfl⟩
  | succ k ih =>
    intro i t dec
    have hd := Decode_reader c dec
    rcases hres : (dec.Decode c).2 with e | x
    · rw [readLoop_succ_error c k i t dec e hres, hd]
      exact ⟨min c.Bytes dec.r.length, Nat.min_le_right _ _, rfl,
        by simp only []; rcases Nat.le_total c.Bytes dec.r.length with h | h
           · rw [Nat.min_eq_left h]
           · rw [Nat.min_eq_right h, List.drop_of_length_le h, List.drop_length]⟩
    · rw [readLoop_succ_ok c k i t dec x hres, hd]
      obtain ⟨m, hm, hn, hr⟩ := ih (i + 1) (t.set i x)
        { r := dec.r.drop c.Bytes, n := dec.n + min c.Bytes dec.r.length }
      have hfull : c.Bytes ≤ dec.r.length := by
        by_contra hlt
        obtain ⟨e, he⟩ := Decode_short c dec (by omega)
        rw [he] at hres
        cases hres
      rw [Nat.min_eq_left hfull] at hn hr ⊢
      simp only [List.length_drop] at hm hn hr
      refine ⟨c.Bytes + m, by omega, ?_, ?_⟩
      · rw [hn]
        omega
      · rw [hr, List.drop_drop]

/-- A stream too short for the `k` elements still to be read makes `readLoop` fail. -/
theorem readLoop_truncated {F E : Type} (c : ElementCodec F E) (k : Nat) :
    ∀ (i : Nat) (t : Witness F) (dec : Decoder), dec.r.length < k * c.Bytes →
      ∃ e, (readLoop c k i t dec).err = some e := by
  induction k with
  | zero =>
    intro i t dec h
    simp at h
  | succ k ih =>
    intro i t dec h
    have hd := Decode_reader c dec
    rcases hres : (dec.Decode c).2 with e | x
    · rw [readLoop_succ_error c k i t dec e hres]
      exact ⟨e, rfl⟩
    · rw [readLoop_succ_ok c k i t dec x hres, hd]
      have hfull : c.Bytes ≤ dec.r.length := by
        by_contra hlt
        obtain ⟨e, he⟩ := Decode_short c dec (by omega)
        rw [he] at hres
        cases hres
      apply ih
      simp only [List.length_drop]
      rw [Nat.succ_mul] at h
      omega

/-- The first element whose bytes the decoder rejects stops `readLoop` with that error, right
after the bytes of that element. -/
theorem readLoop_rejected {F E : Type} (c : ElementCodec F E) (k : Nat) :
    ∀ (i : Nat) (t : Witness F) (dec : Decoder) (j : Nat) (e : E), j < k →
      (j + 1) * c.Bytes ≤ dec.r.length →
      c.setBytes ((dec.r.drop (j * c.Bytes)).take c.Bytes) = Except.error e →
      (∀ l, l < j → ∃ x, c.setBytes ((dec.r.drop (l * c.Bytes)).take c.Bytes) = Except.ok x) →
      (readLoop c k i t dec).err = some (CodecError.element e) ∧
        (readLoop c k i t dec).n = dec.n + (j + 1) * c.Bytes + 4 := by
  induction k with
  | zero =>
    intro i t dec j e hj
    omega
  | succ k ih =>
    intro i t dec j e hj hlen hrej hacc
    have hfull : c.Bytes ≤ dec.r.length := by
      rw [Nat.succ_mul] at hlen
      omega
    have hd := Decode_reader c dec
    have hres := Decode_full c dec hfull
    cases j with
    | zero =>
      simp only [Nat.zero_mul, List.drop_zero] at hrej
      rw [hrej] at hres
      rw [readLoop_succ_error c k i t dec _ hres, hd, Nat.min_eq_left hfull]
      simp
    | succ j =>
      obtain ⟨x, hx⟩ := hacc 0 (Nat.succ_pos j)
      simp only [Nat.zero_mul, List.drop_zero] at hx
      rw [hx] at hres
      rw [readLoop_succ_ok c k i t dec x hres, hd, Nat.min_eq_left hfull]
      have hshift : ∀ l, (dec.r.drop c.Bytes).drop (l * c.Bytes)
          = dec.r.drop ((l + 1) * c.Bytes) := by
        intro l
        rw [List.drop_drop, Nat.succ_mul, Nat.add_comm]
      have := ih (i + 1) (t.set i x) { r := dec.r.drop c.Bytes, n := dec.n + c.Bytes } j e
        (by omega)
        (by simp only [List.length_drop]
            rw [Nat.succ_mul] at hlen
            omega)
        (by simp only [hshift]; exact hrej)
        (by intro l hl
            simp only [hshift]
            exact hacc (l + 1) (by omega))
      refine ⟨this.1, ?_⟩
      rw [this.2]
      simp only [Nat.succ_mul]
      omega

/-! ## The codec contract -/

/-- C1: for every witness `v` with fewer than `2^32` elements and every target witness `t`,
`ReadFrom` into `t` on the bytes `WriteTo` produced for `v` succeeds and leaves `t` equal
to `v`. -/
theorem ReadFrom_WriteTo_roundtrip {F E : Type} (c : ElementCodec F E) (hc : c.Lawful)
    (zero : F) (v t : Witness F) (hv : v.length < 2 ^ 32) :
    (WriteTo c v emptyBuffer).err = none ∧
    (ReadFrom c zero t (WriteTo c v emptyBuffer).w.out).err = none ∧
    (ReadFrom c zero t (WriteTo c v emptyBuffer).w.out).witness = v := by
  rw [WriteTo_room_none c v emptyBuffer rfl]
  have h := ReadFrom_wire c hc zero v t [] hv
  simp only [List.append_nil] at h
  simp only [emptyBuffer, List.nil_append, h, and_self]

theorem ReadFrom_WriteTo_roundtrip_witness :
    [frElement 7, frElement 0, frElement 11].length < 2 ^ 32 ∧
    (ReadFrom frCodec (frElement 0) [frElement 5]
      (WriteTo frCodec [frElement 7, frElement 0, frElement 11] emptyBuffer).w.out).witness
      = [frElement 7, frElement 0, frElement 11] :=
  ⟨by decide,
   (ReadFrom_WriteTo_roundtrip frCodec frCodec_lawful (frElement 0)
      [frElement 7, frElement 0, frElement 11] [frElement 5] (by decide)).2.2⟩

theorem WriteTo_length_field {F E : Type} (c : ElementCodec F E) (v : Witness F) :
    (WriteTo c v emptyBuffer).w.out.take 4 = putUint32 (uint32 v.length) := by
  rw [WriteTo_room_none c v emptyBuffer rfl]
  simp only [emptyBuffer, List.nil_append]
  exact List.take_left' (length_putUint32 _)

theorem putUint32_wrap (n : Nat) (h : n = 2 ^ 32) : putUint32 (uint32 n) = [0, 0, 0, 0] := by
  subst h
  decide

/-- C2, as stated, fails for a witness of `2^32` elements: the four bytes `WriteTo` emits
first are all zero, so the number they hold in big-endian order is `0`, not `len(v)`. -/
theorem WriteTo_length_field_wraps :
    (WriteTo frCodec (List.replicate (2 ^ 32) (frElement 0)) emptyBuffer).w.out.take 4
      = [0, 0, 0, 0] ∧
    beUint32 ((WriteTo frCodec (List.replicate (2 ^ 32) (frElement 0)) emptyBuffer).w.out.take 4)
      ≠ (List.replicate (2 ^ 32) (frElement 0)).length := by
  have hlen : (List.replicate (2 ^ 32) (frElement 0)).length = 2 ^ 32 :=
    List.length_replicate _ _
  have hout := WriteTo_length_field frCodec (List.replicate (2 ^ 32) (frElement 0))
  rw [putUint32_wrap _ hlen] at hout
  refine ⟨hout, ?_⟩
  rw [hout, hlen]
  decide

/-- C2 (amended): for every witness `v` and a writer that never fails, `WriteTo` emits the
4-byte big-endian encoding of `len(v) mod 2^32` (of `len(v)` itself when `v` has fewer
than `2^32` elements) followed by the fixed-width encodings of `v[0]`, `v[1]`, ... in
order, and returns `4 + len(v)·elementSize`, the number of bytes emitted. -/
theorem WriteTo_emits {F E : Type} (c : ElementCodec F E)
    (hc : ∀ x, (c.toBytes x).length = c.Bytes) (v : Witness F) (w : Writer)
    (hw : w.room = none) :
    (WriteTo c v w).err = none ∧
    (WriteTo c v w).w.out = w.out ++ (putUint32 (v.length % 2 ^ 32) ++ encodeAll c v) ∧
    (putUint32 (v.length % 2 ^ 32)).length = 4 ∧
    beUint32 (putUint32 (v.length % 2 ^ 32)) = v.length % 2 ^ 32 ∧
    (v.length < 2 ^ 32 → beUint32 (putUint32 (v.length % 2 ^ 32)) = v.length) ∧
    (WriteTo c v w).n = 4 + v.length * c.Bytes ∧
    (WriteTo c v w).w.out.length = w.out.length + (WriteTo c v w).n := by
  have hlen : (encodeAll c v).length = v.length * c.Bytes := by
    induction v with
    | nil => simp [encodeAll]
    | cons x xs ih =>
      simp only [encodeAll, List.length_append, List.length_cons, ih, hc]
      ring
  rw [WriteTo_room_none c v w hw]
  simp only [uint32, List.length_append, length_putUint32, hlen, beUint32_putUint32,
    Nat.mod_mod, true_and]
  refine ⟨fun h => Nat.mod_eq_of_lt h, by omega, by omega⟩

theorem WriteTo_emits_witness :
    emptyBuffer.room = none ∧
    (WriteTo frCodec [frElement 1, frElement 2] emptyBuffer).n = 4 + 2 * 32 :=
  ⟨rfl, (WriteTo_emits frCodec frCodec_lawful.length_toBytes [frElement 1, frElement 2]
      emptyBuffer rfl).2.2.2.2.2.1⟩

theorem ReadFrom_short {F E : Type} (c : ElementCodec F E) (zero : F) (t : Witness F)
    (s : List Byte) (h : s.length < 4) :
    ∃ e, ReadFrom c zero t s =
      { witness := t, r := s.drop 4, n := s.length, err := some (CodecError.stream e) } := by
  obtain ⟨e, he⟩ := readFull_err_of_lt s 4 h
  have h1 := readFull_fst s 4
  have h2 := readFull_snd s 4
  unfold ReadFrom
  rcases hrf : readFull s 4 with ⟨buf, r1, err⟩
  rw [hrf] at he h1 h2
  simp only at he h1 h2
  subst he h1 h2
  refine ⟨e, ?_⟩
  simp only [List.length_take, ReadResult.mk.injEq, true_and, and_true]
  omega

theorem ReadFrom_long {F E : Type} (c : ElementCodec F E) (zero : F) (t : Witness F)
    (s : List Byte) (h : 4 ≤ s.length) :
    ReadFrom c zero t s =
      readLoop c (beUint32 (s.take 4)) 0
        (if t.length ≠ beUint32 (s.take 4) then List.replicate (beUint32 (s.take 4)) zero else t)
        { r := s.drop 4, n := 0 } := by
  have he := readFull_err_of_le s 4 h
  have h1 := readFull_fst s 4
  have h2 := readFull_snd s 4
  unfold ReadFrom
  rcases hrf : readFull s 4 with ⟨buf, r1, err⟩
  rw [hrf] at he h1 h2
  simp only at he h1 h2
  subst he h1 h2
  rfl

/-- The least rejected element at or before a rejected element. -/
theorem exists_first_rejected {F E : Type} (c : ElementCodec F E) (s : List Byte) (k : Nat) :
    ∀ e, c.setBytes (elementBytes c s k) = Except.error e →
      ∃ j e0, j ≤ k ∧ c.setBytes (elementBytes c s j) = Except.error e0 ∧
        ∀ l, l < j → ∃ x, c.setBytes (elementBytes c s l) = Except.ok x := by
  induction k using Nat.strong_induction_on with
  | _ k ih =>
    intro e he
    by_cases hall : ∀ l, l < k → ∃ x, c.setBytes (elementBytes c s l) = Except.ok x
    · exact ⟨k, e, Nat.le_refl k, he, hall⟩
    · push_neg at hall
      obtain ⟨l, hl, hno⟩ := hall
      rcases hsl : c.setBytes (elementBytes c s l) with e1 | x
      · obtain ⟨j, e0, hj, hj0, hjall⟩ := ih l hl e1 hsl
        exact ⟨j, e0, by omega, hj0, hjall⟩
      · exact absurd hsl (hno x)

/-- The first element at which the decoder returns an error stops `readLoop`, which returns
that error as it is and 4 plus the count of the decoder. -/
theorem readLoop_decode_error {F E : Type} (c : ElementCodec F E) (n : Nat) :
    ∀ (i : Nat) (t : Witness F) (dec : Decoder) (k : Nat) (e : CodecError E), k < n →
      (∀ l, l < k → ∃ x,
        (Decoder.Decode c { r := dec.r.drop (l * c.Bytes), n := dec.n + l * c.Bytes }).2
          = Except.ok x) →
      (Decoder.Decode c { r := dec.r.drop (k * c.Bytes), n := dec.n + k * c.Bytes }).2
        = Except.error e →
      (readLoop c n i t dec).err = some e ∧
        (readLoop c n i t dec).n =
          (Decoder.Decode c { r := dec.r.drop (k * c.Bytes), n := dec.n + k * c.Bytes }).1.n
            + 4 := by
  induction n with
  | zero =>
    intro i t dec k e hk
    omega
  | succ n ih =>
    intro i t dec k e hk hacc hrej
    have hself : ({ r := dec.r.drop (0 * c.Bytes), n := dec.n + 0 * c.Bytes } : Decoder)
        = dec := by
      cases dec
      simp
    cases k with
    | zero =>
      rw [hself] at hrej ⊢
      rw [readLoop_succ_error c n i t dec e hrej]
      exact ⟨rfl, rfl⟩
    | succ k =>
      obtain ⟨x, hx⟩ := hacc 0 (Nat.succ_pos k)
      rw [hself] at hx
      have hfull : c.Bytes ≤ dec.r.length := by
        by_contra hlt
        obtain ⟨e1, he1⟩ := Decode_short c dec (by omega)
        rw [he1] at hx
        cases hx
      have hd := Decode_reader c dec
      rw [Nat.min_eq_left hfull] at hd
      have hshift : ∀ l,
          Decoder.mk ((dec.r.drop c.Bytes).drop (l * c.Bytes)) (dec.n + c.Bytes + l * c.Bytes)
            = Decoder.mk (dec.r.drop ((l + 1) * c.Bytes)) (dec.n + (l + 1) * c.Bytes) := by
        intro l
        rw [List.drop_drop, Nat.succ_mul]
        congr 1
        · rw [Nat.add_comm]
        · omega
      have := ih (i + 1) (t.set i x) { r := dec.r.drop c.Bytes, n := dec.n + c.Bytes } k e
        (by omega)
        (by intro l hl
            simp only [hshift]
            exact hacc (l + 1) (by omega))
        (by simp only [hshift]; exact hrej)
      simp only [hshift] at this
      rw [readLoop_succ_ok c n i t dec x hx, hd]
      exact this

/-- C10: `ReadFrom` returns an error when the stream holds fewer than 4 bytes and when it
holds fewer bytes than the length field declares.  When the decoder returns an error for an
element, the elements before it decoded, `ReadFrom` returns that error as it is: the error of
the read if the bytes of the element are cut short, the error of the conversion if the
conversion of the decoder rejects them.  The count returned is the number of bytes taken from
the stream: 4 plus the count of the decoder, and the reader stands right after them. -/
theorem ReadFrom_errors {F E : Type} (c : ElementCodec F E) (zero : F) (t : Witness F)
    (s : List Byte) :
    ((ReadFrom c zero t s).n ≤ s.length ∧
      (ReadFrom c zero t s).r = s.drop (ReadFrom c zero t s).n) ∧
    (s.length < 4 → ∃ e, (ReadFrom c zero t s).err = some (CodecError.stream e)) ∧
    (4 ≤ s.length → s.length < 4 + beUint32 (s.take 4) * c.Bytes →
      ∃ e, (ReadFrom c zero t s).err = some e) ∧
    (∀ k e, 4 ≤ s.length → k < beUint32 (s.take 4) → 4 + (k + 1) * c.Bytes ≤ s.length →
      c.setBytes (elementBytes c s k) = Except.error e →
      (∃ e0, (ReadFrom c zero t s).err = some (CodecError.element e0)) ∧
      ((∀ l, l < k → ∃ x, c.setBytes (elementBytes c s l) = Except.ok x) →
        (ReadFrom c zero t s).err = some (CodecError.element e) ∧
        (ReadFrom c zero t s).n = 4 + (k + 1) * c.Bytes)) ∧
    (∀ k e, 4 ≤ s.length → k < beUint32 (s.take 4) →
      (∀ l, l < k → ∃ x, (Decoder.Decode c (decoderAt c s l)).2 = Except.ok x) →
      (Decoder.Decode c (decoderAt c s k)).2 = Except.error e →
      (ReadFrom c zero t s).err = some e ∧
      (ReadFrom c zero t s).n = 4 + (Decoder.Decode c (decoderAt c s k)).1.n ∧
      (ReadFrom c zero t s).n = min s.length (4 + (k + 1) * c.Bytes)) := by
  have hchunk : ∀ l, ((s.drop 4).drop (l * c.Bytes)).take c.Bytes = elementBytes c s l := by
    intro l
    rw [List.drop_drop, elementBytes]
  have hfirst : ∀ k e, 4 ≤ s.length → k < beUint32 (s.take 4) →
      4 + (k + 1) * c.Bytes ≤ s.length →
      c.setBytes (elementBytes c s k) = Except.error e →
      (∀ l, l < k → ∃ x, c.setBytes (elementBytes c s l) = Except.ok x) →
      (ReadFrom c zero t s).err = some (CodecError.element e) ∧
        (ReadFrom c zero t s).n = 4 + (k + 1) * c.Bytes := by
    intro k e h4 hk hlen hrej hacc
    rw [ReadFrom_long c zero t s h4]
    have := readLoop_rejected c (beUint32 (s.take 4)) 0
      (if t.length ≠ beUint32 (s.take 4) then List.replicate (beUint32 (s.take 4)) zero else t)
      { r := s.drop 4, n := 0 } k e hk
      (by simp only [List.length_drop]; omega)
      (by simp only [hchunk]; exact hrej)
      (by intro l hl; simp only [hchunk]; exact hacc l hl)
    refine ⟨this.1, ?_⟩
    rw [this.2]
    simp only []
    omega
  have hat : ∀ l, ({ r := (s.drop 4).drop (l * c.Bytes), n := 0 + l * c.Bytes } : Decoder)
      = decoderAt c s l := by
    intro l
    rw [List.drop_drop, Nat.zero_add, decoderAt]
  refine ⟨?_, ?_, ?_, ?_, ?_⟩
  · rcases Nat.lt_or_ge s.length 4 with h | h
    · obtain ⟨e, he⟩ := ReadFrom_short c zero t s h
      rw [he]
      simp only [Nat.le_refl, true_and]
      rw [List.drop_of_length_le (by omega), List.drop_length]
    · rw [ReadFrom_long c zero t s h]
      obtain ⟨m, hm, hn, hr⟩ := readLoop_consumed c (beUint32 (s.take 4)) 0
        (if t.length ≠ beUint32 (s.take 4) then List.replicate (beUint32 (s.take 4)) zero else t)
        { r := s.drop 4, n := 0 }
      simp only [List.length_drop] at hm hn hr
      rw [hn, hr, List.drop_drop]
      refine ⟨by omega, ?_⟩
      congr 1
      omega
  · intro h
    obtain ⟨e, he⟩ := ReadFrom_short c zero t s h
    exact ⟨e, by rw [he]⟩
  · intro h4 hlen
    rw [ReadFrom_long c zero t s h4]
    apply readLoop_truncated
    simp only [List.length_drop]
    omega
  · intro k e h4 hk hlen hrej
    refine ⟨?_, hfirst k e h4 hk hlen hrej⟩
    obtain ⟨j, e0, hj, hj0, hjall⟩ := exists_first_rejected c s k e hrej
    exact ⟨e0, (hfirst j e0 h4 (by omega)
      (by have := Nat.mul_le_mul_right c.Bytes (show j + 1 ≤ k + 1 by omega); omega) hj0 hjall).1⟩
  · intro k e h4 hk hacc hrej
    have hloop := readLoop_decode_error c (beUint32 (s.take 4)) 0
      (if t.length ≠ beUint32 (s.take 4) then List.replicate (beUint32 (s.take 4)) zero else t)
      { r := s.drop 4, n := 0 } k e hk
      (by intro l hl; simp only [hat]; exact hacc l hl)
      (by simp only [hat]; exact hrej)
    simp only [hat] at hloop
    have hn : (ReadFrom c zero t s).n = 4 + (Decoder.Decode c (decoderAt c s k)).1.n := by
      rw [ReadFrom_long c zero t s h4, hloop.2, Nat.add_comm]
    refine ⟨by rw [ReadFrom_long c zero t s h4]; exact hloop.1, hn, ?_⟩
    have hreach : 4 + k * c.Bytes ≤ s.length := by
      cases k with
      | zero => omega
      | succ j =>
        obtain ⟨x, hx⟩ := hacc j (Nat.lt_succ_self j)
        have hfull : c.Bytes ≤ (decoderAt c s j).r.length := by
          by_contra hlt
          obtain ⟨e1, he1⟩ := Decode_short c (decoderAt c s j) (by omega)
          rw [he1] at hx
          cases hx
        simp only [decoderAt, List.length_drop] at hfull
        rw [Nat.succ_mul]
        rcases Nat.eq_zero_or_pos c.Bytes with h0 | hpos
        · rw [h0]
          simp only [Nat.mul_zero, Nat.add_zero]
          exact h4
        · omega
    rw [hn, Decode_reader c (decoderAt c s k)]
    simp only [decoderAt, List.length_drop]
    rw [Nat.succ_mul]
    omega

theorem ReadFrom_errors_witness :
    (ReadFrom frCodec (frElement 0) []
        ([0, 0, 0, 2] ++ frCodec.toBytes (frElement 9) ++ [1, 2, 3, 4, 5])).err
      = some (CodecError.stream StreamError.ErrUnexpectedEOF) ∧
    (ReadFrom frCodec (frElement 0) []
        ([0, 0, 0, 2] ++ frCodec.toBytes (frElement 9) ++ [1, 2, 3, 4, 5])).n = 41 ∧
    (ReadFrom frCodec (frElement 0) []
        ([0, 0, 0, 2] ++ frCodec.toBytes (frElement 9) ++ List.replicate 32 255)).err = none :=
  have h := (ReadFrom_errors frCodec (frElement 0) []
      ([0, 0, 0, 2] ++ frCodec.toBytes (frElement 9) ++ [1, 2, 3, 4, 5])).2.2.2.2
      1 (CodecError.stream StreamError.ErrUnexpectedEOF) (by decide) (by decide)
      (by
        intro l hl
        have : l = 0 := by omega
        subst this
        exact ⟨frElement 9, by rfl⟩)
      (by rfl)
  ⟨h.1, h.2.2.trans (by decide), by rfl⟩

/-! ## Building `lro` -/

theorem store_of_lt {α : Type} (a : List α) (i : Nat) (v : α) (h : i < a.length) :
    store a i v = some (a.set i v) := by
  simp [store, h]

theorem store_of_le {α : Type} (a : List α) (i : Nat) (v : α) (h : a.length ≤ i) :
    store a i v = none := by
  simp [store, Nat.not_lt.mpr h]

theorem store_eq_some {α : Type} {a b : List α} {i : Nat} {v : α} (h : store a i v = some b) :
    i < a.length ∧ b = a.set i v := by
  unfold store at h
  split at h
  · rename_i hi
    exact ⟨hi, (Option.some.inj h).symm⟩
  · cases h

theorem rowOf_lt (N pos : Nat) (h : pos < 3 * N) : rowOf N pos < N := by
  unfold rowOf
  split
  · assumption
  · split <;> omega

theorem rowOf_eq_iff (N pos row : Nat) (hrow : row < N) (hpos : pos < 3 * N) :
    rowOf N pos = row ↔ pos = row ∨ pos = N + row ∨ pos = 2 * N + row := by
  unfold rowOf
  split
  · omega
  · split <;> omega

theorem wiringAt_snoc (front : List SparseR1C) (c : SparseR1C) (N pos : Nat) :
    wiringAt (front ++ [c]) N pos =
      if rowOf N pos = front.length then wireOf N pos c else wiringAt front N pos := by
  unfold wiringAt
  by_cases h : rowOf N pos = front.length
  · rw [if_pos h, h, List.getElem?_append_right (Nat.le_refl _)]
    simp
  · rw [if_neg h]
    rcases Nat.lt_or_gt_of_ne h with hlt | hgt
    · rw [List.getElem?_append_left hlt]
    · rw [List.getElem?_eq_none (l := front ++ [c]) (by simp; omega),
        List.getElem?_eq_none (l := front) (by omega)]

/-- One gate written by the loop body into `lro`. -/
theorem lro_step (front : List SparseR1C) (c : SparseR1C) (N : Nat) (lro : List Nat)
    (hlen : lro.length = 3 * N) (hrow : front.length < N)
    (hinv : ∀ pos, pos < 3 * N → lro[pos]? = some (wiringAt front N pos)) :
    ∀ pos, pos < 3 * N →
      (((lro.set front.length c.L.VariableID).set (N + front.length) c.R.VariableID).set
        (2 * N + front.length) c.O.VariableID)[pos]? = some (wiringAt (front ++ [c]) N pos) := by
  intro pos hpos
  rw [wiringAt_snoc, List.getElem?_set, List.getElem?_set, List.getElem?_set]
  simp only [List.length_set, hlen]
  have hiff := rowOf_eq_iff N pos front.length hrow hpos
  by_cases h2 : 2 * N + front.length = pos
  · rw [if_pos h2, if_pos (by omega), if_pos (hiff.mpr (by omega))]
    simp only [wireOf]
    rw [if_neg (by omega), if_neg (by omega)]
  · rw [if_neg h2]
    by_cases h1 : N + front.length = pos
    · rw [if_pos h1, if_pos (by omega), if_pos (hiff.mpr (by omega))]
      simp only [wireOf]
      rw [if_neg (by omega), if_pos (by omega)]
    · rw [if_neg h1]
      by_cases h0 : front.length = pos
      · rw [if_pos h0, if_pos (by omega), if_pos (hiff.mpr (by omega))]
        simp only [wireOf]
        rw [if_pos (by omega)]
      · rw [if_neg h0, if_neg (by omega)]
        exact hinv pos hpos

/-- One row marked by the loop body in `Permutation`. -/
theorem perm_step (N row : Nat) (perm : List Int) (hlen : perm.length = 3 * N) (hrow : row < N)
    (hinv : ∀ pos, pos < 3 * N → perm[pos]? = some (if rowOf N pos < row then -1 else 0)) :
    ∀ pos, pos < 3 * N →
      (((perm.set row (-1)).set (N + row) (-1)).set (2 * N + row) (-1))[pos]?
        = some (if rowOf N pos < row + 1 then -1 else 0) := by
  intro pos hpos
  rw [List.getElem?_set, List.getElem?_set, List.getElem?_set]
  simp only [List.length_set, hlen]
  have hiff := rowOf_eq_iff N pos row hrow hpos
  by_cases h2 : 2 * N + row = pos
  · rw [if_pos h2, if_pos (by omega), if_pos (by have := hiff.mpr (by omega); omega)]
  · rw [if_neg h2]
    by_cases h1 : N + row = pos
    · rw [if_pos h1, if_pos (by omega), if_pos (by have := hiff.mpr (by omega); omega)]
    · rw [if_neg h1]
      by_cases h0 : row = pos
      · rw [if_pos h0, if_pos (by omega), if_pos (by have := hiff.mpr (by omega); omega)]
      · rw [if_neg h0, hinv pos hpos]
        have hne : rowOf N pos ≠ row := fun h => by
          rcases hiff.mp h with h | h | h <;> omega
        by_cases hlt : rowOf N pos < row
        · rw [if_pos hlt, if_pos (by omega)]
        · rw [if_neg hlt, if_neg (by omega)]

theorem fillRows_cons_of_lt (N : Nat) (c : SparseR1C) (rest : List SparseR1C) (row : Nat)
    (lro : List Nat) (perm : List Int) (hl : lro.length = 3 * N) (hp : perm.length = 3 * N)
    (hrow : row < N) :
    fillRows N (c :: rest) row lro perm =
      fillRows N rest (row + 1)
        (((lro.set row c.L.VariableID).set (N + row) c.R.VariableID).set (2 * N + row)
          c.O.VariableID)
        (((perm.set row (-1)).set (N + row) (-1)).set (2 * N + row) (-1)) := by
  have h1 := store_of_lt lro row c.L.VariableID (by omega)
  have h2 := store_of_lt (lro.set row c.L.VariableID) (N + row) c.R.VariableID
    (by simp only [List.length_set]; omega)
  have h3 := store_of_lt ((lro.set row c.L.VariableID).set (N + row) c.R.VariableID)
    (2 * N + row) c.O.VariableID (by simp only [List.length_set]; omega)
  have h4 := store_of_lt perm row (-1) (by omega)
  have h5 := store_of_lt (perm.set row (-1)) (N + row) (-1)
    (by simp only [List.length_set]; omega)
  have h6 := store_of_lt ((perm.set row (-1)).set (N + row) (-1)) (2 * N + row) (-1)
    (by simp only [List.length_set]; omega)
  rw [fillRows]
  simp only [h1, h2, h3, h4, h5, h6, Option.bind_eq_bind, Option.some_bind]

theorem fillRows_spec (N : Nat) (cs : List SparseR1C) :
    ∀ (front : List SparseR1C) (lro : List Nat) (perm : List Int),
      lro.length = 3 * N → perm.length = 3 * N → front.length + cs.length ≤ N →
      (∀ pos, pos < 3 * N → lro[pos]? = some (wiringAt front N pos)) →
      (∀ pos, pos < 3 * N → perm[pos]? = some (if rowOf N pos < front.length then -1 else 0)) →
      ∃ lro1 perm1, fillRows N cs front.length lro perm = some (lro1, perm1) ∧
        lro1.length = 3 * N ∧ perm1.length = 3 * N ∧
        (∀ pos, pos < 3 * N → lro1[pos]? = some (wiringAt (front ++ cs) N pos)) ∧
        (∀ pos, pos < 3 * N →
          perm1[pos]? = some (if rowOf N pos < front.length + cs.length then -1 else 0)) := by
  induction cs with
  | nil =>
    intro front lro perm hl hp _ hlro hperm
    exact ⟨lro, perm, rfl, hl, hp, by simpa using hlro, by simpa using hperm⟩
  | cons c rest ih =>
    intro front lro perm hl hp hrows hlro hperm
    simp only [List.length_cons] at hrows
    rw [fillRows_cons_of_lt N c rest front.length lro perm hl hp (by omega)]
    have hstep := ih (front ++ [c])
      (((lro.set front.length c.L.VariableID).set (N + front.length) c.R.VariableID).set
        (2 * N + front.length) c.O.VariableID)
      (((perm.set front.length (-1)).set (N + front.length) (-1)).set (2 * N + front.length) (-1))
      (by simp only [List.length_set]; exact hl) (by simp only [List.length_set]; exact hp)
      (by rw [List.length_append, List.length_singleton]; omega)
      (lro_step front c N lro hl (by omega) hlro)
      (by simp only [List.length_append, List.length_singleton]
          exact perm_step N front.length perm hp (by omega) hperm)
    simp only [List.length_append, List.length_singleton, List.append_assoc,
      List.singleton_append] at hstep
    obtain ⟨lro1, perm1, h, hl1, hp1, hlro1, hperm1⟩ := hstep
    refine ⟨lro1, perm1, h, hl1, hp1, hlro1, ?_⟩
    intro pos hpos
    have hsum : front.length + 1 + rest.length = front.length + (rest.length + 1) := by omega
    rw [hperm1 pos hpos, List.length_cons, hsum]

theorem fillRows_none (N : Nat) (cs : List SparseR1C) :
    ∀ (row : Nat) (lro : List Nat) (perm : List Int),
      lro.length = 3 * N → perm.length = 3 * N → row ≤ N → N < row + cs.length →
      fillRows N cs row lro perm = none := by
  induction cs with
  | nil =>
    intro row lro perm _ _ h1 h2
    simp only [List.length_nil] at h2
    omega
  | cons c rest ih =>
    intro row lro perm hl hp hrow hlast
    simp only [List.length_cons] at hlast
    rcases Nat.lt_or_ge row N with hlt | hge
    · rw [fillRows_cons_of_lt N c rest row lro perm hl hp hlt]
      exact ih (row + 1) _ _ (by simp only [List.length_set]; exact hl)
        (by simp only [List.length_set]; exact hp) (by omega) (by omega)
    · rw [fillRows]
      cases h1 : store lro row c.L.VariableID with
      | none => rfl
      | some l1 =>
        have e1 := (store_eq_some h1).2
        cases h2 : store l1 (N + row) c.R.VariableID with
        | none => simp only [h2, Option.bind_eq_bind, Option.some_bind, Option.none_bind]
        | some l2 =>
          have e2 := (store_eq_some h2).2
          have h3 := store_of_le l2 (2 * N + row) c.O.VariableID
            (by rw [e2, e1]; simp only [List.length_set]; omega)
          simp only [h2, h3, Option.bind_eq_bind, Option.some_bind, Option.none_bind]

theorem fillPadding_spec (N k : Nat) :
    ∀ (row : Nat) (perm : List Int), perm.length = 3 * N → row + k ≤ N →
      (∀ pos, pos < 3 * N → perm[pos]? = some (if rowOf N pos < row then -1 else 0)) →
      ∃ perm1, fillPadding N k row perm = some perm1 ∧ perm1.length = 3 * N ∧
        (∀ pos, pos < 3 * N → perm1[pos]? = some (if rowOf N pos < row + k then -1 else 0)) := by
  induction k with
  | zero =>
    intro row perm hp _ hperm
    exact ⟨perm, rfl, hp, hperm⟩
  | succ k ih =>
    intro row perm hp hrows hperm
    have h4 := store_of_lt perm row (-1) (by omega)
    have h5 := store_of_lt (perm.set row (-1)) (N + row) (-1)
      (by simp only [List.length_set]; omega)
    have h6 := store_of_lt ((perm.set row (-1)).set (N + row) (-1)) (2 * N + row) (-1)
      (by simp only [List.length_set]; omega)
    rw [fillPadding]
    simp only [h4, h5, h6, Option.bind_eq_bind, Option.some_bind]
    obtain ⟨perm1, h, hp1, hperm1⟩ := ih (row + 1) _
      (by simp only [List.length_set]; exact hp) (by omega)
      (perm_step N row perm hp (by omega) hperm)
    refine ⟨perm1, h, hp1, ?_⟩
    intro pos hpos
    have hsum : row + 1 + k = row + (k + 1) := by omega
    rw [hperm1 pos hpos, hsum]

theorem length_lroOf {F : Type} (spr : SparseR1CS F) (N : Nat) : (lroOf spr N).length = 3 * N := by
  simp [lroOf]

theorem lroOf_getElem? {F : Type} (spr : SparseR1CS F) (N pos : Nat) (h : pos < 3 * N) :
    (lroOf spr N)[pos]? = some (lroAt spr N pos) := by
  simp [lroOf, List.getElem?_range h]

/-- With a domain of at least as many rows as the system has gates, the first loops of
`buildPermutation` run through: they build the wiring `lroOf` and mark every entry of
`Permutation` with `-1`. -/
theorem initLoops_spec {F : Type} (spr : SparseR1CS F) (N : Nat)
    (hrows : spr.Constraints.length + spr.Assertions.length ≤ N) :
    initLoops spr N = some (lroOf spr N, List.replicate (3 * N) (-1)) := by
  obtain ⟨lro1, perm1, h1, hl1, hp1, hlro1, hperm1⟩ :=
    fillRows_spec N spr.Constraints [] (List.replicate (3 * N) 0) (List.replicate (3 * N) 0)
      (by simp) (by simp) (by simp only [List.length_nil]; omega)
      (by intro pos hpos; simp [List.getElem?_replicate, hpos, wiringAt])
      (by intro pos hpos; simp [List.getElem?_replicate, hpos])
  obtain ⟨lro2, perm2, h2, hl2, hp2, hlro2, hperm2⟩ :=
    fillRows_spec N spr.Assertions spr.Constraints lro1 perm1 hl1 hp1 hrows
      (by simpa using hlro1) (by simpa using hperm1)
  obtain ⟨perm3, h3, hp3, hperm3⟩ :=
    fillPadding_spec N (N - (spr.Constraints.length + spr.Assertions.length))
      (spr.Constraints.length + spr.Assertions.length) perm2 hp2 (by omega) hperm2
  simp only [List.length_nil] at h1
  rw [initLoops]
  simp only [h1, h2, h3, Option.bind_eq_bind, Option.some_bind]
  congr 2
  · apply List.ext_getElem?
    intro pos
    rcases Nat.lt_or_ge pos (3 * N) with hpos | hpos
    · rw [hlro2 pos hpos, lroOf_getElem? spr N pos hpos]
      rfl
    · rw [List.getElem?_eq_none (by omega), List.getElem?_eq_none (by rw [length_lroOf]; omega)]
  · apply List.ext_getElem?
    intro pos
    rcases Nat.lt_or_ge pos (3 * N) with hpos | hpos
    · rw [hperm3 pos hpos, List.getElem?_replicate, if_pos hpos, if_pos]
      have := rowOf_lt N pos hpos
      omega
    · rw [List.getElem?_eq_none (by omega), List.getElem?_eq_none (by simp; omega)]

/-- With a domain of fewer rows than the system has gates, `buildPermutation` panics in its
first loops. -/
theorem initLoops_none {F : Type} (spr : SparseR1CS F) (N : Nat)
    (hrows : N < spr.Constraints.length + spr.Assertions.length) :
    initLoops spr N = none := by
  rw [initLoops]
  rcases Nat.lt_or_ge N spr.Constraints.length with hc | hc
  · have h1 := fillRows_none N spr.Constraints 0 (List.replicate (3 * N) 0)
      (List.replicate (3 * N) 0) (by simp) (by simp) (Nat.zero_le _) (by omega)
    simp only [h1, Option.bind_eq_bind, Option.none_bind]
  · obtain ⟨lro1, perm1, h1, hl1, hp1, _, _⟩ :=
      fillRows_spec N spr.Constraints [] (List.replicate (3 * N) 0) (List.replicate (3 * N) 0)
        (by simp) (by simp) (by simp only [List.length_nil]; omega)
        (by intro pos hpos; simp [List.getElem?_replicate, hpos, wiringAt])
        (by intro pos hpos; simp [List.getElem?_replicate, hpos])
    simp only [List.length_nil] at h1
    have h2 := fillRows_none N spr.Assertions spr.Constraints.length lro1 perm1 hl1 hp1 hc hrows
    simp only [h1, h2, Option.bind_eq_bind, Option.some_bind, Option.none_bind]

/-! ## Occurrences of a variable -/

theorem lastBelow_some {lro : List Nat} {x k j : Nat} (h : lastBelow lro x k = some j) :
    j < k ∧ lro[j]? = some x ∧ ∀ m, j < m → m < k → lro[m]? ≠ some x := by
  induction k with
  | zero => cases h
  | succ k ih =>
    rw [lastBelow] at h
    split at h
    · rename_i hk
      cases h
      exact ⟨Nat.lt_succ_self _, hk, fun m h1 h2 => by omega⟩
    · rename_i hk
      obtain ⟨h1, h2, h3⟩ := ih h
      refine ⟨by omega, h2, fun m hm1 hm2 => ?_⟩
      rcases Nat.lt_or_ge m k with hlt | hge
      · exact h3 m hm1 hlt
      · have : m = k := by omega
        subst this
        exact hk

theorem lastBelow_none {lro : List Nat} {x k : Nat} :
    lastBelow lro x k = none ↔ ∀ m, m < k → lro[m]? ≠ some x := by
  induction k with
  | zero => simp [lastBelow]
  | succ k ih =>
    rw [lastBelow]
    split
    · rename_i hk
      constructor
      · intro h
        cases h
      · intro h
        exact absurd hk (h k (Nat.lt_succ_self _))
    · rename_i hk
      rw [ih]
      constructor
      · intro h m hm
        rcases Nat.lt_or_ge m k with hlt | hge
        · exact h m hlt
        · have : m = k := by omega
          subst this
          exact hk
      · intro h m hm
        exact h m (by omega)

theorem lastBelow_eq_some {lro : List Nat} {x k j : Nat} (hj : j < k) (hx : lro[j]? = some x)
    (hno : ∀ m, j < m → m < k → lro[m]? ≠ some x) : lastBelow lro x k = some j := by
  cases h : lastBelow lro x k with
  | none => exact absurd hx (lastBelow_none.mp h j hj)
  | some j1 =>
    obtain ⟨h1, h2, h3⟩ := lastBelow_some h
    rcases Nat.lt_trichotomy j j1 with hlt | heq | hgt
    · exact absurd h2 (hno j1 hlt h1)
    · rw [heq]
    · exact absurd hx (h3 j hgt hj)

theorem optPos_eq_neg_one {o : Option Nat} : optPos o = -1 ↔ o = none := by
  cases o with
  | none => simp [optPos]
  | some j =>
    simp only [optPos, reduceCtorEq, iff_false]

theorem getElem?_of_lt_getD (lro : List Nat) (i : Nat) (h : i < lro.length) :
    lro[i]? = some (lro.getD i 0) := by
  rw [List.getD_eq_getElem?_getD, List.getElem?_eq_getElem h]
  rfl

/-! ## The scan of `l||r||o` -/

theorem ScanInv_zero (lro : List Nat) (nb : Nat) :
    ScanInv lro nb 0 (List.replicate lro.length (-1)) (List.replicate nb (-1)) := by
  refine ⟨by simp, by simp, ?_, ?_⟩
  · intro i hi
    simp [List.getElem?_replicate, hi]
  · intro x hx
    simp [List.getElem?_replicate, hx, lastBelow, optPos]

/-- One iteration of the scan at a position whose variable ID is in range. -/
theorem scanLoop_step (lro : List Nat) (nb m k : Nat) (perm cycle : List Int)
    (hinv : ScanInv lro nb k perm cycle) (hk : k < lro.length) (hx : lro.getD k 0 < nb) :
    ∃ perm1 cycle1, scanLoop lro (m + 1) k perm cycle = scanLoop lro m (k + 1) perm1 cycle1 ∧
      ScanInv lro nb (k + 1) perm1 cycle1 := by
  obtain ⟨hpl, hcl, hperm, hcycle⟩ := hinv
  have hid := getElem?_of_lt_getD lro k hk
  have hlast := hcycle _ hx
  have hstore := store_of_lt cycle (lro.getD k 0) (k : Int) (by omega)
  have hcyc1 : ∀ x, x < nb →
      (cycle.set (lro.getD k 0) (k : Int))[x]? = some (optPos (lastBelow lro x (k + 1))) := by
    intro x hxb
    rw [List.getElem?_set, lastBelow, hid]
    by_cases hxe : lro.getD k 0 = x
    · rw [if_pos hxe, if_pos (by omega), if_pos (by rw [hxe])]
      rfl
    · rw [if_neg hxe, if_neg (fun h => hxe (Option.some.inj h))]
      exact hcycle x hxb
  by_cases hne : optPos (lastBelow lro (lro.getD k 0) k) = -1
  · refine ⟨perm, cycle.set (lro.getD k 0) (k : Int), ?_, hpl, ?_, ?_, hcyc1⟩
    · rw [scanLoop]
      simp only [hid, hlast, hne, hstore, Option.bind_eq_bind, Option.some_bind, ne_eq,
        not_true_eq_false, if_false]
    · simp only [List.length_set]
      exact hcl
    · intro i hi
      rw [hperm i hi]
      by_cases hik : i = k
      · subst hik
        rw [if_neg (Nat.lt_irrefl _), if_pos (Nat.lt_succ_self _), hne]
      · by_cases hlt : i < k
        · rw [if_pos hlt, if_pos (by omega)]
        · rw [if_neg hlt, if_neg (by omega)]
  · have hst := store_of_lt perm k (optPos (lastBelow lro (lro.getD k 0) k)) (by omega)
    refine ⟨perm.set k (optPos (lastBelow lro (lro.getD k 0) k)),
      cycle.set (lro.getD k 0) (k : Int), ?_, ?_, ?_, ?_, hcyc1⟩
    · rw [scanLoop]
      simp only [hid, hlast, hne, hstore, hst, Option.bind_eq_bind, Option.some_bind, ne_eq,
        not_false_eq_true, if_true]
    · simp only [List.length_set]
      exact hpl
    · simp only [List.length_set]
      exact hcl
    · intro i hi
      rw [List.getElem?_set]
      by_cases hik : k = i
      · subst hik
        rw [if_pos rfl, if_pos (by omega), if_pos (Nat.lt_succ_self _)]
      · rw [if_neg hik, hperm i hi]
        by_cases hlt : i < k
        · rw [if_pos hlt, if_pos (by omega)]
        · rw [if_neg hlt, if_neg (by omega)]

/-- One iteration of the scan at a position whose variable ID is out of range: the index
`cycle[lro[i]]` panics. -/
theorem scanLoop_step_none (lro : List Nat) (nb m k : Nat) (perm cycle : List Int)
    (hcl : cycle.length = nb) (hk : k < lro.length) (hx : nb ≤ lro.getD k 0) :
    scanLoop lro (m + 1) k perm cycle = none := by
  have hid := getElem?_of_lt_getD lro k hk
  have hlast : cycle[lro.getD k 0]? = none := List.getElem?_eq_none (by omega)
  rw [scanLoop]
  simp only [hid, hlast, Option.bind_eq_bind, Option.some_bind, Option.none_bind]

theorem scanLoop_spec (lro : List Nat) (nb m : Nat) :
    ∀ (k : Nat) (perm cycle : List Int), k + m = lro.length → ScanInv lro nb k perm cycle →
      (∀ i, k ≤ i → i < lro.length → lro.getD i 0 < nb) →
      ∃ perm1 cycle1, scanLoop lro m k perm cycle = some (perm1, cycle1) ∧
        ScanInv lro nb lro.length perm1 cycle1 := by
  induction m with
  | zero =>
    intro k perm cycle hk hinv _
    simp only [Nat.add_zero] at hk
    subst hk
    exact ⟨perm, cycle, rfl, hinv⟩
  | succ m ih =>
    intro k perm cycle hk hinv hrange
    obtain ⟨perm1, cycle1, hstep, hinv1⟩ :=
      scanLoop_step lro nb m k perm cycle hinv (by omega) (hrange k (Nat.le_refl _) (by omega))
    rw [hstep]
    exact ih (k + 1) perm1 cycle1 (by omega) hinv1 (fun i h1 h2 => hrange i (by omega) h2)

theorem scanLoop_none (lro : List Nat) (nb m : Nat) :
    ∀ (k : Nat) (perm cycle : List Int), k + m = lro.length → ScanInv lro nb k perm cycle →
      (∃ i, k ≤ i ∧ i < lro.length ∧ nb ≤ lro.getD i 0) →
      scanLoop lro m k perm cycle = none := by
  induction m with
  | zero =>
    intro k perm cycle hk _ hbad
    obtain ⟨i, h1, h2, _⟩ := hbad
    omega
  | succ m ih =>
    intro k perm cycle hk hinv hbad
    rcases Nat.lt_or_ge (lro.getD k 0) nb with hx | hx
    · obtain ⟨perm1, cycle1, hstep, hinv1⟩ :=
        scanLoop_step lro nb m k perm cycle hinv (by omega) hx
      rw [hstep]
      obtain ⟨i, h1, h2, h3⟩ := hbad
      refine ih (k + 1) perm1 cycle1 (by omega) hinv1 ⟨i, ?_, h2, h3⟩
      rcases Nat.eq_or_lt_of_le h1 with heq | hlt
      · subst heq
        omega
      · exact hlt
    · exact scanLoop_step_none lro nb m k perm cycle hinv.2.1 (by omega) hx

/-! ## Counting the variables of `l||r||o` -/

theorem firsts_succ_le (lro : List Nat) (k : Nat) :
    firsts lro k ≤ firsts lro (k + 1) ∧ firsts lro (k + 1) ≤ firsts lro k + 1 := by
  rw [firsts]
  split <;> omega

theorem firsts_mono (lro : List Nat) {a b : Nat} (h : a ≤ b) : firsts lro a ≤ firsts lro b := by
  induction b with
  | zero =>
    have : a = 0 := by omega
    subst this
    exact Nat.le_refl _
  | succ b ih =>
    rcases Nat.eq_or_lt_of_le h with heq | hlt
    · subst heq
      exact Nat.le_refl _
    · exact Nat.le_trans (ih (by omega)) (firsts_succ_le lro b).1

theorem firsts_eq_card (lro : List Nat) (k : Nat) (hk : k ≤ lro.length) :
    firsts lro k = ((Finset.range k).image (fun i => lro.getD i 0)).card := by
  induction k with
  | zero => simp [firsts]
  | succ k ih =>
    have hmem : lro.getD k 0 ∈ (Finset.range k).image (fun i => lro.getD i 0) ↔
        lastBelow lro (lro.getD k 0) k ≠ none := by
      rw [Ne, lastBelow_none]
      simp only [Finset.mem_image, Finset.mem_range, not_forall, not_not]
      constructor
      · rintro ⟨m, hm, he⟩
        exact ⟨m, hm, by rw [getElem?_of_lt_getD lro m (by omega), he]⟩
      · rintro ⟨m, hm, he⟩
        refine ⟨m, hm, ?_⟩
        rw [getElem?_of_lt_getD lro m (by omega)] at he
        exact Option.some.inj he
    rw [firsts, ih (by omega), Finset.range_succ, Finset.image_insert]
    by_cases hnone : lastBelow lro (lro.getD k 0) k = none
    · rw [if_pos hnone, Finset.card_insert_of_not_mem (fun h => hmem.mp h hnone)]
    · rw [if_neg hnone, Finset.insert_eq_of_mem (hmem.mpr hnone)]
      rfl

/-- With variable IDs in range, `l||r||o` holds at most `nb` variables. -/
theorem firsts_le (lro : List Nat) (nb : Nat) (hrange : ∀ i, i < lro.length → lro.getD i 0 < nb) :
    firsts lro lro.length ≤ nb := by
  rw [firsts_eq_card lro lro.length (Nat.le_refl _)]
  have hsub : (Finset.range lro.length).image (fun i => lro.getD i 0) ⊆ Finset.range nb := by
    intro x hx
    simp only [Finset.mem_image, Finset.mem_range] at hx
    obtain ⟨i, hi, he⟩ := hx
    simp only [Finset.mem_range]
    rw [← he]
    exact hrange i hi
  simpa using Finset.card_le_card hsub

/-- With variable IDs in range, `l||r||o` holds `nb` variables exactly when every variable ID
below `nb` is at some position. -/
theorem firsts_eq_iff (lro : List Nat) (nb : Nat)
    (hrange : ∀ i, i < lro.length → lro.getD i 0 < nb) :
    firsts lro lro.length = nb ↔ ∀ x, x < nb → ∃ i, i < lro.length ∧ lro.getD i 0 = x := by
  rw [firsts_eq_card lro lro.length (Nat.le_refl _)]
  have hsub : (Finset.range lro.length).image (fun i => lro.getD i 0) ⊆ Finset.range nb := by
    intro x hx
    simp only [Finset.mem_image, Finset.mem_range] at hx
    obtain ⟨i, hi, he⟩ := hx
    simp only [Finset.mem_range]
    rw [← he]
    exact hrange i hi
  constructor
  · intro hcard x hx
    have heq := Finset.eq_of_subset_of_card_le hsub (by rw [hcard]; simp)
    have hmem : x ∈ (Finset.range lro.length).image (fun i => lro.getD i 0) := by
      rw [heq]
      exact Finset.mem_range.mpr hx
    simp only [Finset.mem_image, Finset.mem_range] at hmem
    exact hmem
  · intro hcover
    have hsup : Finset.range nb ⊆ (Finset.range lro.length).image (fun i => lro.getD i 0) := by
      intro x hx
      simp only [Finset.mem_image, Finset.mem_range]
      exact hcover x (Finset.mem_range.mp hx)
    rw [Finset.Subset.antisymm hsub hsup]
    simp

/-! ## Closing the cycles -/

theorem sigma_of_some {lro : List Nat} {i j : Nat}
    (h : lastBelow lro (lro.getD i 0) i = some j) : sigma lro i = j := by
  rw [sigma, h]

theorem sigma_of_none {lro : List Nat} {i : Nat} (hi : i < lro.length)
    (h : lastBelow lro (lro.getD i 0) i = none) :
    lastBelow lro (lro.getD i 0) lro.length = some (sigma lro i) := by
  rw [sigma, h]
  cases hl : lastBelow lro (lro.getD i 0) lro.length with
  | none => exact absurd (getElem?_of_lt_getD lro i hi) (lastBelow_none.mp hl i hi)
  | some j => rfl

theorem firsts_succ_of_none {lro : List Nat} {k : Nat}
    (h : lastBelow lro (lro.getD k 0) k = none) : firsts lro (k + 1) = firsts lro k + 1 := by
  rw [firsts, if_pos h]

theorem firsts_succ_of_some {lro : List Nat} {k j : Nat}
    (h : lastBelow lro (lro.getD k 0) k = some j) : firsts lro (k + 1) = firsts lro k := by
  rw [firsts, h]
  rfl

/-- One iteration of the completion loop at a position in range, while `counter > 0`. -/
theorem completeLoop_step (lro : List Nat) (nb : Nat) (cycle : List Int) (fuel iter counter : Nat)
    (perm : List Int) (hrange : ∀ i, i < lro.length → lro.getD i 0 < nb)
    (hcycle : ∀ x, x < nb → cycle[x]? = some (optPos (lastBelow lro x lro.length)))
    (hiter : iter < lro.length) (hcounter : counter ≠ 0) (hpl : perm.length = lro.length)
    (hperm : ∀ i, i < lro.length → perm[i]? =
      some (if i < iter then (sigma lro i : Int)
        else optPos (lastBelow lro (lro.getD i 0) i))) :
    ∃ perm1, completeLoop lro cycle (fuel + 1) iter counter perm =
        completeLoop lro cycle fuel (iter + 1) (counter + firsts lro iter - firsts lro (iter + 1))
          perm1 ∧
      perm1.length = lro.length ∧
      ∀ i, i < lro.length → perm1[i]? =
        some (if i < iter + 1 then (sigma lro i : Int)
          else optPos (lastBelow lro (lro.getD i 0) i)) := by
  have hp := hperm iter hiter
  rw [if_neg (Nat.lt_irrefl _)] at hp
  have hid := getElem?_of_lt_getD lro iter hiter
  cases hlb : lastBelow lro (lro.getD iter 0) iter with
  | none =>
    have hlast : cycle[lro.getD iter 0]? = some (sigma lro iter : Int) := by
      rw [hcycle _ (hrange iter hiter), sigma_of_none hiter hlb]
      rfl
    have hst := store_of_lt perm iter (sigma lro iter : Int) (by omega)
    have hp1 : perm[iter]? = some (-1) := by
      rw [hp, hlb]
      rfl
    refine ⟨perm.set iter (sigma lro iter : Int), ?_, ?_, ?_⟩
    · rw [completeLoop, if_neg hcounter]
      simp only [hp1, hid, hlast, hst, Option.bind_eq_bind, Option.some_bind, if_true]
      rw [firsts_succ_of_none hlb,
        show counter + firsts lro iter - (firsts lro iter + 1) = counter - 1 by omega]
    · simp only [List.length_set]
      exact hpl
    · intro i hi
      rw [List.getElem?_set]
      by_cases hik : iter = i
      · subst hik
        rw [if_pos rfl, if_pos (by omega), if_pos (Nat.lt_succ_self _)]
      · rw [if_neg hik, hperm i hi]
        by_cases hlt : i < iter
        · rw [if_pos hlt, if_pos (by omega)]
        · rw [if_neg hlt, if_neg (by omega)]
  | some j =>
    refine ⟨perm, ?_, hpl, ?_⟩
    · rw [completeLoop, if_neg hcounter]
      have hp1 : perm[iter]? = some (j : Int) := by
        rw [hp, hlb]
        rfl
      have hj : ¬ ((j : Int) = -1) := by omega
      simp only [hp1, hj, Option.bind_eq_bind, Option.some_bind, if_false]
      rw [firsts_succ_of_some hlb,
        show counter + firsts lro iter - firsts lro iter = counter by omega]
    · intro i hi
      rw [hperm i hi]
      by_cases hik : i = iter
      · subst hik
        rw [if_neg (Nat.lt_irrefl _), if_pos (Nat.lt_succ_self _), hlb, sigma_of_some hlb]
        rfl
      · by_cases hlt : i < iter
        · rw [if_pos hlt, if_pos (by omega)]
        · rw [if_neg hlt, if_neg (by omega)]

/-- When `l||r||o` holds all `nb` variables, the completion loop stops with every entry of
`Permutation` set to the image under `sigma`. -/
theorem completeLoop_some (lro : List Nat) (nb : Nat) (cycle : List Int)
    (hrange : ∀ i, i < lro.length → lro.getD i 0 < nb)
    (hcycle : ∀ x, x < nb → cycle[x]? = some (optPos (lastBelow lro x lro.length)))
    (hall : firsts lro lro.length = nb) (fuel : Nat) :
    ∀ (iter counter : Nat) (perm : List Int), lro.length - iter < fuel → iter ≤ lro.length →
      counter + firsts lro iter = nb → perm.length = lro.length →
      (∀ i, i < lro.length → perm[i]? =
        some (if i < iter then (sigma lro i : Int)
          else optPos (lastBelow lro (lro.getD i 0) i))) →
      ∃ s, completeLoop lro cycle fuel iter counter perm = some s ∧ s.length = lro.length ∧
        ∀ i, i < lro.length → s[i]? = some (sigma lro i : Int) := by
  induction fuel with
  | zero =>
    intro iter counter perm hfuel
    omega
  | succ fuel ih =>
    intro iter counter perm hfuel hiter hcount hpl hperm
    by_cases hc : counter = 0
    · refine ⟨perm, by rw [completeLoop, if_pos hc], hpl, ?_⟩
      intro i hi
      rw [hperm i hi]
      by_cases hlt : i < iter
      · rw [if_pos hlt]
      · rw [if_neg hlt]
        cases hlb : lastBelow lro (lro.getD i 0) i with
        | none =>
          have h1 := firsts_succ_of_none hlb
          have h2 := firsts_mono lro (show iter ≤ i by omega)
          have h3 := firsts_mono lro (show i + 1 ≤ lro.length by omega)
          omega
        | some j =>
          rw [sigma_of_some hlb]
          rfl
    · have hlt : iter < lro.length := by
        rcases Nat.eq_or_lt_of_le hiter with heq | hlt
        · rw [heq] at hcount
          omega
        · exact hlt
      obtain ⟨perm1, hstep, hpl1, hperm1⟩ :=
        completeLoop_step lro nb cycle fuel iter counter perm hrange hcycle hlt hc hpl hperm
      rw [hstep]
      have hle := firsts_succ_le lro iter
      exact ih (iter + 1) _ perm1 (by omega) (by omega) (by omega) hpl1 hperm1

/-- When `l||r||o` holds fewer than `nb` variables, the completion loop runs off the end of
`Permutation`. -/
theorem completeLoop_none (lro : List Nat) (nb : Nat) (cycle : List Int)
    (hrange : ∀ i, i < lro.length → lro.getD i 0 < nb)
    (hcycle : ∀ x, x < nb → cycle[x]? = some (optPos (lastBelow lro x lro.length)))
    (hfew : firsts lro lro.length < nb) (fuel : Nat) :
    ∀ (iter counter : Nat) (perm : List Int), iter ≤ lro.length →
      counter + firsts lro iter = nb → perm.length = lro.length →
      (∀ i, i < lro.length → perm[i]? =
        some (if i < iter then (sigma lro i : Int)
          else optPos (lastBelow lro (lro.getD i 0) i))) →
      completeLoop lro cycle fuel iter counter perm = none := by
  induction fuel with
  | zero =>
    intro iter counter perm _ _ _ _
    rfl
  | succ fuel ih =>
    intro iter counter perm hiter hcount hpl hperm
    have hmono := firsts_mono lro hiter
    have hc : counter ≠ 0 := by omega
    rcases Nat.eq_or_lt_of_le hiter with heq | hlt
    · have hnone : perm[iter]? = none := List.getElem?_eq_none (by omega)
      rw [completeLoop, if_neg hc]
      simp only [hnone, Option.bind_eq_bind, Option.none_bind]
    · obtain ⟨perm1, hstep, hpl1, hperm1⟩ :=
        completeLoop_step lro nb cycle fuel iter counter perm hrange hcycle hlt hc hpl hperm
      rw [hstep]
      have hle := firsts_succ_le lro iter
      exact ih (iter + 1) _ perm1 (by omega) (by omega) hpl1 hperm1

theorem completeLoop_succ (lro : List Nat) (cycle : List Int) (fuel iter counter : Nat)
    (perm : List Int) :
    completeLoop lro cycle (fuel + 1) iter counter perm =
      if counter = 0 then some perm
      else (perm[iter]?).bind (fun p =>
        if p = -1 then
          (lro[iter]?).bind (fun id => (cycle[id]?).bind (fun last =>
            (store perm iter last).bind (fun perm1 =>
              completeLoop lro cycle fuel (iter + 1) (counter - 1) perm1)))
        else completeLoop lro cycle fuel (iter + 1) counter perm) := rfl

/-- The fuel of the completion loop is never what stops it: once the fuel exceeds the number
of entries of `Permutation` still ahead, more fuel gives the same result. -/
theorem completeLoop_fuel (lro : List Nat) (cycle : List Int) (fuel : Nat) :
    ∀ (iter counter : Nat) (perm : List Int), perm.length + 1 ≤ iter + fuel → 1 ≤ fuel →
      completeLoop lro cycle (fuel + 1) iter counter perm
        = completeLoop lro cycle fuel iter counter perm := by
  induction fuel with
  | zero =>
    intro iter counter perm _ h
    omega
  | succ fuel ih =>
    intro iter counter perm hlen _
    rw [completeLoop_succ lro cycle (fuel + 1) iter counter perm,
      completeLoop_succ lro cycle fuel iter counter perm]
    by_cases hc : counter = 0
    · rw [if_pos hc, if_pos hc]
    · rw [if_neg hc, if_neg hc]
      cases hp : perm[iter]? with
      | none => rfl
      | some p =>
        have hiter : iter < perm.length := (List.getElem?_eq_some.mp hp).1
        simp only [Option.some_bind]
        by_cases hm : p = -1
        · rw [if_pos hm, if_pos hm]
          cases hid : lro[iter]? with
          | none => rfl
          | some id =>
            simp only [Option.some_bind]
            cases hl : cycle[id]? with
            | none => rfl
            | some last =>
              simp only [Option.some_bind]
              rw [store_of_lt perm iter last hiter]
              simp only [Option.some_bind]
              exact ih (iter + 1) (counter - 1) _
                (by simp only [List.length_set]; omega) (by omega)
        · rw [if_neg hm, if_neg hm]
          exact ih (iter + 1) counter perm (by omega) (by omega)

/-! ## `buildPermutation` as a whole -/

theorem lroOf_getD {F : Type} (spr : SparseR1CS F) (N i : Nat) (h : i < 3 * N) :
    (lroOf spr N).getD i 0 = lroAt spr N i := by
  rw [List.getD_eq_getElem?_getD, lroOf_getElem? spr N i h]
  rfl

/-- With enough rows and variable IDs in range, `buildPermutation` reaches its last loop in
the state the scan leaves. -/
theorem buildPermutation_scan {F : Type} (spr : SparseR1CS F) (N : Nat)
    (hrows : spr.Constraints.length + spr.Assertions.length ≤ N)
    (hrange : ∀ pos, pos < 3 * N → lroAt spr N pos < spr.nbVariables) :
    ∃ perm cycle, ScanInv (lroOf spr N) spr.nbVariables (3 * N) perm cycle ∧
      buildPermutation spr N =
        completeLoop (lroOf spr N) cycle (3 * N + 1) 0 spr.nbVariables perm := by
  have hlen := length_lroOf spr N
  have hr : ∀ i, 0 ≤ i → i < (lroOf spr N).length → (lroOf spr N).getD i 0 < spr.nbVariables := by
    intro i _ hi
    rw [hlen] at hi
    rw [lroOf_getD spr N i hi]
    exact hrange i hi
  have h0 := ScanInv_zero (lroOf spr N) spr.nbVariables
  rw [hlen] at h0
  obtain ⟨perm, cycle, hscan, hinv⟩ :=
    scanLoop_spec (lroOf spr N) spr.nbVariables (3 * N) 0 _ _ (by omega) h0 hr
  rw [hlen] at hinv
  refine ⟨perm, cycle, hinv, ?_⟩
  rw [buildPermutation, initLoops_spec spr N hrows]
  simp only [hscan, Option.bind_eq_bind, Option.some_bind]
  rw [hinv.1, hlen]

/-- The permutation `buildPermutation` returns, entry by entry. -/
theorem buildPermutation_spec {F : Type} (spr : SparseR1CS F) (N : Nat)
    (hrows : spr.Constraints.length + spr.Assertions.length ≤ N)
    (hrange : ∀ pos, pos < 3 * N → lroAt spr N pos < spr.nbVariables)
    (hall : firsts (lroOf spr N) (3 * N) = spr.nbVariables) :
    ∃ s, buildPermutation spr N = some s ∧ s.length = 3 * N ∧
      ∀ i, i < 3 * N → s[i]? = some (sigma (lroOf spr N) i : Int) := by
  have hlen := length_lroOf spr N
  obtain ⟨perm, cycle, ⟨hpl, _, hperm, hcycle⟩, hbuild⟩ := buildPermutation_scan spr N hrows hrange
  have hr : ∀ i, i < (lroOf spr N).length → (lroOf spr N).getD i 0 < spr.nbVariables := by
    intro i hi
    rw [hlen] at hi
    rw [lroOf_getD spr N i hi]
    exact hrange i hi
  have := completeLoop_some (lroOf spr N) spr.nbVariables cycle hr
    (by rw [hlen]; exact hcycle) (by rw [hlen]; exact hall) (3 * N + 1) 0 spr.nbVariables perm
    (by omega) (Nat.zero_le _) (by simp [firsts]) hpl
    (by intro i hi
        rw [hperm i hi, if_neg (Nat.not_lt_zero _), if_pos (by omega)])
  rw [hlen] at this
  rw [hbuild]
  exact this

/-- What a run of `buildPermutation` that returns tells about the circuit: the domain has
a row for every gate, every variable ID of `l||r||o` is in range, and `l||r||o` holds all
`nbVariables` variables. -/
theorem buildPermutation_some {F : Type} (spr : SparseR1CS F) (N : Nat) (s : List Int)
    (h : buildPermutation spr N = some s) :
    spr.Constraints.length + spr.Assertions.length ≤ N ∧
    (∀ pos, pos < 3 * N → lroAt spr N pos < spr.nbVariables) ∧
    firsts (lroOf spr N) (3 * N) = spr.nbVariables := by
  have hlen := length_lroOf spr N
  have hrows : spr.Constraints.length + spr.Assertions.length ≤ N := by
    by_contra hlt
    have hn := initLoops_none spr N (by omega)
    rw [buildPermutation, hn] at h
    cases h
  have hrange : ∀ pos, pos < 3 * N → lroAt spr N pos < spr.nbVariables := by
    by_contra hbad
    push_neg at hbad
    obtain ⟨pos, hpos, hge⟩ := hbad
    have h0 := ScanInv_zero (lroOf spr N) spr.nbVariables
    rw [hlen] at h0
    have hn := scanLoop_none (lroOf spr N) spr.nbVariables (3 * N) 0 _ _ (by omega) h0
      ⟨pos, Nat.zero_le _, by omega, by rw [lroOf_getD spr N pos hpos]; exact hge⟩
    rw [buildPermutation, initLoops_spec spr N hrows] at h
    simp only [hn, Option.bind_eq_bind, Option.some_bind, Option.none_bind] at h
    cases h
  refine ⟨hrows, hrange, ?_⟩
  have hr : ∀ i, i < (lroOf spr N).length → (lroOf spr N).getD i 0 < spr.nbVariables := by
    intro i hi
    rw [hlen] at hi
    rw [lroOf_getD spr N i hi]
    exact hrange i hi
  have hle := firsts_le (lroOf spr N) spr.nbVariables hr
  rw [hlen] at hle
  rcases Nat.eq_or_lt_of_le hle with heq | hlt
  · exact heq
  · obtain ⟨perm, cycle, ⟨hpl, _, hperm, hcycle⟩, hbuild⟩ :=
      buildPermutation_scan spr N hrows hrange
    have hn := completeLoop_none (lroOf spr N) spr.nbVariables cycle hr
      (by rw [hlen]; exact hcycle) (by rw [hlen]; exact hlt) (3 * N + 1) 0 spr.nbVariables perm
      (Nat.zero_le _) (by simp [firsts]) hpl
      (by intro i hi
          rw [hperm i hi, if_neg (Nat.not_lt_zero _), if_pos (by omega)])
    rw [hbuild, hn] at h
    cases h

/-! ## The cycles of `sigma` -/

theorem getD_of_getElem? {lro : List Nat} {j x : Nat} (h : lro[j]? = some x) :
    j < lro.length ∧ lro.getD j 0 = x := by
  obtain ⟨hj, _⟩ := List.getElem?_eq_some.mp h
  refine ⟨hj, ?_⟩
  rw [List.getD_eq_getElem?_getD, h]
  rfl

/-- The image of a position is a position of the same variable. -/
theorem sigma_same (lro : List Nat) (i : Nat) (hi : i < lro.length) :
    sigma lro i < lro.length ∧ lro.getD (sigma lro i) 0 = lro.getD i 0 := by
  cases hlb : lastBelow lro (lro.getD i 0) i with
  | some j =>
    rw [sigma_of_some hlb]
    obtain ⟨_, h2, _⟩ := lastBelow_some hlb
    exact getD_of_getElem? h2
  | none =>
    obtain ⟨_, h2, _⟩ := lastBelow_some (sigma_of_none hi hlb)
    exact getD_of_getElem? h2

theorem iterate_sigma_same (lro : List Nat) (k : Nat) :
    ∀ i, i < lro.length →
      (sigma lro)^[k] i < lro.length ∧ lro.getD ((sigma lro)^[k] i) 0 = lro.getD i 0 := by
  induction k with
  | zero =>
    intro i hi
    exact ⟨hi, rfl⟩
  | succ k ih =>
    intro i hi
    rw [Function.iterate_succ_apply]
    obtain ⟨h1, h2⟩ := sigma_same lro i hi
    obtain ⟨h3, h4⟩ := ih (sigma lro i) h1
    exact ⟨h3, h4.trans h2⟩

/-- The permutation `sigma` is injective on the positions. -/
theorem sigma_injective (lro : List Nat) (a b : Nat) (ha : a < lro.length) (hb : b < lro.length)
    (h : sigma lro a = sigma lro b) : a = b := by
  have hv : lro.getD a 0 = lro.getD b 0 := by
    rw [← (sigma_same lro a ha).2, ← (sigma_same lro b hb).2, h]
  have hoa := getElem?_of_lt_getD lro a ha
  have hob := getElem?_of_lt_getD lro b hb
  cases hla : lastBelow lro (lro.getD a 0) a with
  | some ja =>
    obtain ⟨a1, a2, a3⟩ := lastBelow_some hla
    cases hlbb : lastBelow lro (lro.getD b 0) b with
    | some jb =>
      obtain ⟨b1, b2, b3⟩ := lastBelow_some hlbb
      rw [sigma_of_some hla, sigma_of_some hlbb] at h
      subst h
      rcases Nat.lt_trichotomy a b with hlt | heq | hgt
      · exact absurd (hv ▸ hoa) (b3 a a1 hlt)
      · exact heq
      · exact absurd (hv ▸ hob) (a3 b b1 hgt)
    | none =>
      have hL := sigma_of_none hb hlbb
      obtain ⟨_, _, c3⟩ := lastBelow_some hL
      rw [← h, sigma_of_some hla] at c3
      exact absurd (hv ▸ hoa) (c3 a a1 ha)
  | none =>
    have hL := sigma_of_none ha hla
    obtain ⟨_, _, c3⟩ := lastBelow_some hL
    cases hlbb : lastBelow lro (lro.getD b 0) b with
    | some jb =>
      obtain ⟨b1, b2, b3⟩ := lastBelow_some hlbb
      rw [h, sigma_of_some hlbb] at c3
      exact absurd (hv ▸ hob) (c3 b b1 hb)
    | none =>
      rcases Nat.lt_trichotomy a b with hlt | heq | hgt
      · exact absurd (hv ▸ hoa) (lastBelow_none.mp hlbb a hlt)
      · exact heq
      · exact absurd (hv ▸ hob) (lastBelow_none.mp hla b hgt)

/-- From a position, `sigma` reaches every earlier position of the same variable. -/
theorem sigma_reaches_down (lro : List Nat) (p : Nat) :
    ∀ q, p < lro.length → q ≤ p → lro.getD q 0 = lro.getD p 0 →
      ∃ k, (sigma lro)^[k] p = q := by
  induction p using Nat.strong_induction_on with
  | _ p ih =>
    intro q hp hq hv
    rcases Nat.eq_or_lt_of_le hq with heq | hlt
    · exact ⟨0, heq.symm⟩
    · have hoq : lro[q]? = some (lro.getD p 0) := by
        rw [← hv]
        exact getElem?_of_lt_getD lro q (by omega)
      cases hlb : lastBelow lro (lro.getD p 0) p with
      | none => exact absurd hoq (lastBelow_none.mp hlb q hlt)
      | some j =>
        obtain ⟨h1, h2, h3⟩ := lastBelow_some hlb
        have hqj : q ≤ j := by
          by_contra hgt
          exact absurd hoq (h3 q (by omega) hlt)
        obtain ⟨hj, hvj⟩ := getD_of_getElem? h2
        obtain ⟨k, hk⟩ := ih j h1 q hj hqj (hv.trans hvj.symm)
        refine ⟨k + 1, ?_⟩
        rw [Function.iterate_succ_apply, sigma_of_some hlb]
        exact hk

/-- From a position, `sigma` reaches the last position of the same variable. -/
theorem sigma_reaches_last (lro : List Nat) (p : Nat) :
    ∀ l, p < lro.length → lastBelow lro (lro.getD p 0) lro.length = some l →
      ∃ k, (sigma lro)^[k] p = l := by
  induction p using Nat.strong_induction_on with
  | _ p ih =>
    intro l hp hl
    cases hlb : lastBelow lro (lro.getD p 0) p with
    | none =>
      refine ⟨1, ?_⟩
      have := sigma_of_none hp hlb
      rw [hl] at this
      exact (Option.some.inj this).symm
    | some j =>
      obtain ⟨h1, h2, _⟩ := lastBelow_some hlb
      obtain ⟨hj, hvj⟩ := getD_of_getElem? h2
      obtain ⟨k, hk⟩ := ih j h1 l hj (by rw [hvj]; exact hl)
      refine ⟨k + 1, ?_⟩
      rw [Function.iterate_succ_apply, sigma_of_some hlb]
      exact hk

/-- Two positions of the same variable lie on one cycle of `sigma`. -/
theorem sigma_reaches (lro : List Nat) (p q : Nat) (hp : p < lro.length) (hq : q < lro.length)
    (hv : lro.getD q 0 = lro.getD p 0) : ∃ k, (sigma lro)^[k] p = q := by
  cases hl : lastBelow lro (lro.getD p 0) lro.length with
  | none => exact absurd (getElem?_of_lt_getD lro p hp) (lastBelow_none.mp hl p hp)
  | some l =>
    obtain ⟨h1, h2, h3⟩ := lastBelow_some hl
    obtain ⟨k1, hk1⟩ := sigma_reaches_last lro p l hp hl
    have hql : q ≤ l := by
      by_contra hgt
      exact absurd (hv ▸ getElem?_of_lt_getD lro q hq) (h3 q (by omega) hq)
    obtain ⟨_, hvl⟩ := getD_of_getElem? h2
    obtain ⟨k2, hk2⟩ := sigma_reaches_down lro l q h1 hql (hv.trans hvl.symm)
    refine ⟨k2 + k1, ?_⟩
    rw [Function.iterate_add_apply, hk1, hk2]

/-- Iterating `sigma` from a position comes back to it. -/
theorem sigma_returns (lro : List Nat) (p : Nat) (hp : p < lro.length) :
    ∃ k, 0 < k ∧ (sigma lro)^[k] p = p := by
  obtain ⟨h1, h2⟩ := sigma_same lro p hp
  obtain ⟨k, hk⟩ := sigma_reaches lro (sigma lro p) p h1 hp h2.symm
  exact ⟨k + 1, Nat.succ_pos k, by rw [Function.iterate_succ_apply]; exact hk⟩

/-- Every position is the image of a position. -/
theorem sigma_surjective (lro : List Nat) (q : Nat) (hq : q < lro.length) :
    ∃ p, p < lro.length ∧ sigma lro p = q := by
  obtain ⟨k, hk, hret⟩ := sigma_returns lro q hq
  obtain ⟨m, rfl⟩ : ∃ m, k = m + 1 := ⟨k - 1, by omega⟩
  rw [Function.iterate_succ_apply'] at hret
  exact ⟨(sigma lro)^[m] q, (iterate_sigma_same lro m q hq).1, hret⟩

/-- Walking through the slice `Permutation` is iterating `sigma`. -/
theorem iterPerm_eq (lro : List Nat) (s : List Int)
    (hs : ∀ i, i < lro.length → s[i]? = some (sigma lro i : Int)) (k : Nat) :
    ∀ i, i < lro.length → iterPerm s k i = some ((sigma lro)^[k] i) := by
  induction k with
  | zero =>
    intro i _
    rfl
  | succ k ih =>
    intro i hi
    rw [iterPerm, hs i hi, Function.iterate_succ_apply]
    exact ih (sigma lro i) (sigma_same lro i hi).1

/-! ## The permutation contract -/

theorem firsts_lroOf_of_cover {F : Type} (spr : SparseR1CS F) (N : Nat)
    (hrange : ∀ pos, pos < 3 * N → lroAt spr N pos < spr.nbVariables)
    (hcover : ∀ x, x < spr.nbVariables → ∃ pos, pos < 3 * N ∧ lroAt spr N pos = x) :
    firsts (lroOf spr N) (3 * N) = spr.nbVariables := by
  have hlen := length_lroOf spr N
  have h := (firsts_eq_iff (lroOf spr N) spr.nbVariables (by
    intro i hi
    rw [hlen] at hi
    rw [lroOf_getD spr N i hi]
    exact hrange i hi)).mpr (by
    intro x hx
    obtain ⟨pos, hpos, he⟩ := hcover x hx
    exact ⟨pos, by omega, by rw [lroOf_getD spr N pos hpos]; exact he⟩)
  rw [hlen] at h
  exact h

/-- The entries of the permutation `buildPermutation` returned, in terms of `sigma`. -/
theorem buildPermutation_entries {F : Type} (spr : SparseR1CS F) (N : Nat) (s : List Int)
    (h : buildPermutation spr N = some s) :
    s.length = 3 * N ∧ ∀ i, i < 3 * N → s[i]? = some (sigma (lroOf spr N) i : Int) := by
  obtain ⟨hrows, hrange, hall⟩ := buildPermutation_some spr N s h
  obtain ⟨s1, h1, hl, hs⟩ := buildPermutation_spec spr N hrows hrange hall
  rw [h] at h1
  cases h1
  exact ⟨hl, hs⟩

/-- C3: for a circuit in which every variable ID below `nbVariables` is at some position of
`l||r||o` (and, the circuit being well formed, every ID of `l||r||o` is below `nbVariables`
and the domain has a row per gate), `buildPermutation` returns a slice of length `3N` whose
entries lie in `[0, 3N)`, that is injective and onto `[0, 3N)`, and iterating it from any
position comes back to that position. -/
theorem buildPermutation_bijection {F : Type} (spr : SparseR1CS F) (N : Nat)
    (hrows : spr.Constraints.length + spr.Assertions.length ≤ N)
    (hrange : ∀ pos, pos < 3 * N → lroAt spr N pos < spr.nbVariables)
    (hcover : ∀ x, x < spr.nbVariables → ∃ pos, pos < 3 * N ∧ lroAt spr N pos = x) :
    ∃ s, buildPermutation spr N = some s ∧ s.length = 3 * N ∧
      (∀ i, i < 3 * N → ∃ j : Nat, j < 3 * N ∧ s[i]? = some (j : Int)) ∧
      (∀ i j, i < 3 * N → j < 3 * N → s[i]? = s[j]? → i = j) ∧
      (∀ j : Nat, j < 3 * N → ∃ i, i < 3 * N ∧ s[i]? = some (j : Int)) ∧
      (∀ i, i < 3 * N → ∃ k, 0 < k ∧ iterPerm s k i = some i) := by
  have hlen := length_lroOf spr N
  obtain ⟨s, hb, hl, hs⟩ := buildPermutation_spec spr N hrows hrange
    (firsts_lroOf_of_cover spr N hrange hcover)
  refine ⟨s, hb, hl, ?_, ?_, ?_, ?_⟩
  · intro i hi
    have := (sigma_same (lroOf spr N) i (by omega)).1
    exact ⟨sigma (lroOf spr N) i, by omega, hs i hi⟩
  · intro i j hi hj he
    rw [hs i hi, hs j hj] at he
    exact sigma_injective (lroOf spr N) i j (by omega) (by omega)
      (Int.ofNat.inj (Option.some.inj he))
  · intro j hj
    obtain ⟨i, hi, he⟩ := sigma_surjective (lroOf spr N) j (by omega)
    exact ⟨i, by omega, by rw [hs i (by omega), he]⟩
  · intro i hi
    obtain ⟨k, hk, he⟩ := sigma_returns (lroOf spr N) i (by omega)
    exact ⟨k, hk, by rw [iterPerm_eq (lroOf spr N) s (by rw [hlen]; exact hs) k i (by omega), he]⟩

theorem buildPermutation_bijection_witness :
    (∀ x, x < exampleCircuit.nbVariables → ∃ pos, pos < 3 * 4 ∧ lroAt exampleCircuit 4 pos = x) ∧
    ∃ s, buildPermutation exampleCircuit 4 = some s ∧ s.length = 3 * 4 ∧
      (∀ i, i < 3 * 4 → ∃ j : Nat, j < 3 * 4 ∧ s[i]? = some (j : Int)) ∧
      (∀ i j, i < 3 * 4 → j < 3 * 4 → s[i]? = s[j]? → i = j) ∧
      (∀ j : Nat, j < 3 * 4 → ∃ i, i < 3 * 4 ∧ s[i]? = some (j : Int)) ∧
      (∀ i, i < 3 * 4 → ∃ k, 0 < k ∧ iterPerm s k i = some i) :=
  ⟨by decide, buildPermutation_bijection exampleCircuit 4 (by decide) (by decide) (by decide)⟩

/-- C4: for a circuit in which every variable ID is at some position of `l||r||o`, the
positions of a variable `x` form one cycle of the permutation `buildPermutation` returns:
from a position of `x`, iterating the permutation reaches every position of `x`, stays on
positions of `x`, and comes back to the start. -/
theorem buildPermutation_cycles {F : Type} (spr : SparseR1CS F) (N : Nat)
    (hrows : spr.Constraints.length + spr.Assertions.length ≤ N)
    (hrange : ∀ pos, pos < 3 * N → lroAt spr N pos < spr.nbVariables)
    (hcover : ∀ x, x < spr.nbVariables → ∃ pos, pos < 3 * N ∧ lroAt spr N pos = x) :
    ∃ s, buildPermutation spr N = some s ∧
      ∀ x p, p < 3 * N → lroAt spr N p = x →
        (∀ q, q < 3 * N → lroAt spr N q = x → ∃ k, iterPerm s k p = some q) ∧
        (∀ k, ∃ q, q < 3 * N ∧ iterPerm s k p = some q ∧ lroAt spr N q = x) ∧
        (∃ k, 0 < k ∧ iterPerm s k p = some p) := by
  have hlen := length_lroOf spr N
  obtain ⟨s, hb, hl, hs⟩ := buildPermutation_spec spr N hrows hrange
    (firsts_lroOf_of_cover spr N hrange hcover)
  have hiter := iterPerm_eq (lroOf spr N) s (by rw [hlen]; exact hs)
  refine ⟨s, hb, ?_⟩
  intro x p hp hx
  refine ⟨?_, ?_, ?_⟩
  · intro q hq hqx
    obtain ⟨k, hk⟩ := sigma_reaches (lroOf spr N) p q (by omega) (by omega)
      (by rw [lroOf_getD spr N q hq, lroOf_getD spr N p hp, hqx, hx])
    exact ⟨k, by rw [hiter k p (by omega), hk]⟩
  · intro k
    obtain ⟨h1, h2⟩ := iterate_sigma_same (lroOf spr N) k p (by omega)
    rw [hlen] at h1
    rw [lroOf_getD spr N _ h1, lroOf_getD spr N p hp, hx] at h2
    exact ⟨_, h1, hiter k p (by omega), h2⟩
  · obtain ⟨k, hk, he⟩ := sigma_returns (lroOf spr N) p (by omega)
    exact ⟨k, hk, by rw [hiter k p (by omega), he]⟩

theorem buildPermutation_cycles_witness :
    (∀ x, x < exampleCircuit.nbVariables → ∃ pos, pos < 3 * 4 ∧ lroAt exampleCircuit 4 pos = x) ∧
    ∃ s, buildPermutation exampleCircuit 4 = some s ∧
      ∀ x p, p < 3 * 4 → lroAt exampleCircuit 4 p = x →
        (∀ q, q < 3 * 4 → lroAt exampleCircuit 4 q = x → ∃ k, iterPerm s k p = some q) ∧
        (∀ k, ∃ q, q < 3 * 4 ∧ iterPerm s k p = some q ∧ lroAt exampleCircuit 4 q = x) ∧
        (∃ k, 0 < k ∧ iterPerm s k p = some p) :=
  ⟨by decide, buildPermutation_cycles exampleCircuit 4 (by decide) (by decide) (by decide)⟩

/-- C5: when `buildPermutation` returns, the variable at position `Permutation[i]` is the
variable at position `i`, for every position `i`; hence, under any assignment of values
to the variables, a position reached from `p` by iterating the permutation reads the same
value as `p`. -/
theorem buildPermutation_same_variable {F : Type} (spr : SparseR1CS F) (N : Nat) (s : List Int)
    (h : buildPermutation spr N = some s) :
    (∀ i, i < 3 * N →
      ∃ j : Nat, j < 3 * N ∧ s[i]? = some (j : Int) ∧ lroAt spr N j = lroAt spr N i) ∧
    (∀ (V : Type) (value : Nat → V) (p q k : Nat), p < 3 * N → iterPerm s k p = some q →
      value (lroAt spr N q) = value (lroAt spr N p)) := by
  have hlen := length_lroOf spr N
  obtain ⟨_, hs⟩ := buildPermutation_entries spr N s h
  refine ⟨?_, ?_⟩
  · intro i hi
    obtain ⟨h1, h2⟩ := sigma_same (lroOf spr N) i (by omega)
    rw [hlen] at h1
    rw [lroOf_getD spr N _ h1, lroOf_getD spr N i hi] at h2
    exact ⟨_, h1, hs i hi, h2⟩
  · intro V value p q k hp hq
    rw [iterPerm_eq (lroOf spr N) s (by rw [hlen]; exact hs) k p (by omega)] at hq
    obtain ⟨h1, h2⟩ := iterate_sigma_same (lroOf spr N) k p (by omega)
    rw [hlen] at h1
    rw [lroOf_getD spr N _ h1, lroOf_getD spr N p hp, Option.some.inj hq] at h2
    rw [h2]

theorem buildPermutation_same_variable_witness :
    buildPermutation exampleCircuit 4 = some [5, 10, 9, 11, 4, 0, 3, 6, 1, 2, 8, 7] ∧
    ∀ i, i < 3 * 4 → ∃ j : Nat, j < 3 * 4 ∧
      [5, 10, 9, 11, 4, 0, 3, 6, 1, 2, 8, 7][i]? = some (j : Int) ∧
      lroAt exampleCircuit 4 j = lroAt exampleCircuit 4 i :=
  ⟨by decide,
   (buildPermutation_same_variable exampleCircuit 4 [5, 10, 9, 11, 4, 0, 3, 6, 1, 2, 8, 7]
      (by decide)).1⟩

/-- C6, as stated, fails: with three gates in a domain of four rows, position 3 (row 3 of
the `L` wires) is a position of a padding row, and `Permutation[3]` is `11`, not `3`. -/
theorem padding_not_singleton :
    exampleCircuit.Constraints.length + exampleCircuit.Assertions.length < 4 ∧
    exampleCircuit.Constraints.length + exampleCircuit.Assertions.length ≤ rowOf 4 3 ∧
    buildPermutation exampleCircuit 4 = some [5, 10, 9, 11, 4, 0, 3, 6, 1, 2, 8, 7] ∧
    ([5, 10, 9, 11, 4, 0, 3, 6, 1, 2, 8, 7] : List Int)[3]? ≠ some 3 := by
  decide

theorem rows_length {F : Type} (spr : SparseR1CS F) :
    spr.rows.length = spr.Constraints.length + spr.Assertions.length := by
  simp [SparseR1CS.rows]

/-- A position of a padding row holds the variable ID 0. -/
theorem lroAt_padding {F : Type} (spr : SparseR1CS F) (N pos : Nat)
    (hpad : spr.Constraints.length + spr.Assertions.length ≤ rowOf N pos) :
    lroAt spr N pos = 0 := by
  rw [lroAt, wiringAt, List.getElem?_eq_none (by rw [rows_length]; exact hpad)]

/-- C6 (amended): when `buildPermutation` returns for a domain with more rows than the
system has gates, every position of a padding row holds the variable ID 0, and
`Permutation[pos]` is another position, which holds the variable ID 0 too: no position of
a padding row is a cycle of its own. -/
theorem buildPermutation_padding {F : Type} (spr : SparseR1CS F) (N : Nat) (s : List Int)
    (h : buildPermutation spr N = some s) (pos : Nat) (hpos : pos < 3 * N)
    (hpad : spr.Constraints.length + spr.Assertions.length ≤ rowOf N pos) :
    lroAt spr N pos = 0 ∧
    ∃ j : Nat, j < 3 * N ∧ s[pos]? = some (j : Int) ∧ j ≠ pos ∧ lroAt spr N j = 0 := by
  have hlen := length_lroOf spr N
  have hrow := rowOf_lt N pos hpos
  have hzero := lroAt_padding spr N pos hpad
  obtain ⟨_, hs⟩ := buildPermutation_entries spr N s h
  obtain ⟨h1, h2⟩ := sigma_same (lroOf spr N) pos (by omega)
  rw [hlen] at h1
  rw [lroOf_getD spr N _ h1, lroOf_getD spr N pos hpos, hzero] at h2
  refine ⟨hzero, _, h1, hs pos hpos, ?_, h2⟩
  have hlast : rowOf N (3 * N - 1) = N - 1 := by
    unfold rowOf
    rw [if_neg (by omega), if_neg (by omega)]
    omega
  have hfirst : rowOf N (N - 1) = N - 1 := by
    unfold rowOf
    rw [if_pos (by omega)]
  have hz0 : (lroOf spr N)[N - 1]? = some ((lroOf spr N).getD pos 0) := by
    rw [lroOf_getElem? spr N _ (by omega), lroOf_getD spr N pos hpos, hzero,
      lroAt_padding spr N _ (by rw [hfirst]; omega)]
  have hz1 : (lroOf spr N)[3 * N - 1]? = some ((lroOf spr N).getD pos 0) := by
    rw [lroOf_getElem? spr N _ (by omega), lroOf_getD spr N pos hpos, hzero,
      lroAt_padding spr N _ (by rw [hlast]; omega)]
  cases hlb : lastBelow (lroOf spr N) ((lroOf spr N).getD pos 0) pos with
  | some j =>
    rw [sigma_of_some hlb]
    have := (lastBelow_some hlb).1
    omega
  | none =>
    have hL := sigma_of_none (by omega : pos < (lroOf spr N).length) hlb
    obtain ⟨_, _, c3⟩ := lastBelow_some hL
    intro heq
    rw [heq, hlen] at c3
    rcases Nat.lt_or_ge pos (3 * N - 1) with hlt | hge
    · exact c3 (3 * N - 1) hlt (by omega) hz1
    · have hp : pos = 3 * N - 1 := by omega
      exact lastBelow_none.mp hlb (N - 1) (by omega) hz0

theorem buildPermutation_padding_witness :
    buildPermutation exampleCircuit 4 = some [5, 10, 9, 11, 4, 0, 3, 6, 1, 2, 8, 7] ∧
    exampleCircuit.Constraints.length + exampleCircuit.Assertions.length ≤ rowOf 4 7 ∧
    ∃ j : Nat, j < 3 * 4 ∧ ([5, 10, 9, 11, 4, 0, 3, 6, 1, 2, 8, 7] : List Int)[7]? = some (j : Int) ∧
      j ≠ 7 ∧ lroAt exampleCircuit 4 j = 0 :=
  ⟨by decide, by decide,
   (buildPermutation_padding exampleCircuit 4 [5, 10, 9, 11, 4, 0, 3, 6, 1, 2, 8, 7]
      (by decide) 7 (by decide) (by decide)).2⟩

/-- C7: when `buildPermutation` returns and a variable is at exactly one position `pos` of
`l||r||o`, then `Permutation[pos] = pos`. -/
theorem buildPermutation_single {F : Type} (spr : SparseR1CS F) (N : Nat) (s : List Int)
    (h : buildPermutation spr N = some s) (pos : Nat) (hpos : pos < 3 * N)
    (honly : ∀ q, q < 3 * N → lroAt spr N q = lroAt spr N pos → q = pos) :
    s[pos]? = some (pos : Int) := by
  have hlen := length_lroOf spr N
  obtain ⟨_, hs⟩ := buildPermutation_entries spr N s h
  obtain ⟨h1, h2⟩ := sigma_same (lroOf spr N) pos (by omega)
  rw [hlen] at h1
  rw [lroOf_getD spr N _ h1, lroOf_getD spr N pos hpos] at h2
  rw [hs pos hpos, honly _ h1 h2]

theorem buildPermutation_single_witness :
    buildPermutation exampleCircuit 4 = some [5, 10, 9, 11, 4, 0, 3, 6, 1, 2, 8, 7] ∧
    (∀ q, q < 3 * 4 → lroAt exampleCircuit 4 q = lroAt exampleCircuit 4 4 → q = 4) ∧
    ([5, 10, 9, 11, 4, 0, 3, 6, 1, 2, 8, 7] : List Int)[4]? = some ((4 : Nat) : Int) :=
  ⟨by decide, by decide,
   buildPermutation_single exampleCircuit 4 [5, 10, 9, 11, 4, 0, 3, 6, 1, 2, 8, 7]
      (by decide) 4 (by decide) (by decide)⟩

/-! ## The domain -/

theorem nextPowerOfTwoFrom_spec (n fuel : Nat) :
    ∀ a, n ≤ 2 ^ (a + fuel) → (∀ j, j < a → 2 ^ j < n) →
      ∃ k, nextPowerOfTwoFrom n fuel (2 ^ a) = 2 ^ k ∧ n ≤ 2 ^ k ∧ ∀ j, j < k → 2 ^ j < n := by
  induction fuel with
  | zero =>
    intro a ha hmin
    exact ⟨a, rfl, by simpa using ha, hmin⟩
  | succ fuel ih =>
    intro a ha hmin
    rw [nextPowerOfTwoFrom]
    by_cases hle : n ≤ 2 ^ a
    · rw [if_pos hle]
      exact ⟨a, rfl, hle, hmin⟩
    · rw [if_neg hle, ← pow_succ']
      refine ih (a + 1) (by rw [show a + 1 + fuel = a + (fuel + 1) by omega]; exact ha) ?_
      intro j hj
      rcases Nat.lt_or_ge j a with hlt | hge
      · exact hmin j hlt
      · have : j = a := by omega
        subst this
        omega

/-- The cardinality of a domain for `n` rows is the least power of two that is at least
`n`. -/
theorem nextPowerOfTwo_spec (n : Nat) :
    ∃ k, nextPowerOfTwo n = 2 ^ k ∧ n ≤ 2 ^ k ∧ ∀ j, j < k → 2 ^ j < n := by
  have h := nextPowerOfTwoFrom_spec n n 0
    (by rw [Nat.zero_add]; exact Nat.le_of_lt (Nat.lt_two_pow n))
    (fun j hj => absurd hj (Nat.not_lt_zero j))
  simpa [nextPowerOfTwo] using h

/-! ## Bit reversal -/

theorem bitReverseIndex_lt (k : Nat) : ∀ i, bitReverseIndex k i < 2 ^ k := by
  induction k with
  | zero =>
    intro i
    simp [bitReverseIndex]
  | succ k ih =>
    intro i
    rw [bitReverseIndex, pow_succ]
    have h1 := ih (i / 2)
    have h2 : i % 2 < 2 := Nat.mod_lt _ (by decide)
    have h3 : i % 2 * 2 ^ k ≤ 1 * 2 ^ k := Nat.mul_le_mul_right _ (by omega)
    omega

/-- Reversing a number whose top bit is `b` puts `b` at the bottom. -/
theorem bitReverseIndex_top (k : Nat) :
    ∀ b r, b < 2 → r < 2 ^ k →
      bitReverseIndex (k + 1) (b * 2 ^ k + r) = 2 * bitReverseIndex k r + b := by
  induction k with
  | zero =>
    intro b r hb hr
    have : r = 0 := by simpa using hr
    subst this
    simp only [bitReverseIndex, pow_zero, Nat.mul_one, Nat.add_zero, Nat.mul_zero, Nat.zero_add]
    omega
  | succ k ih =>
    intro b r hb hr
    have hdouble : b * 2 ^ (k + 1) = 2 * (b * 2 ^ k) := by
      rw [pow_succ]
      ring
    have hhalf : (b * 2 ^ (k + 1) + r) / 2 = b * 2 ^ k + r / 2 := by
      rw [hdouble]
      omega
    have hmod : (b * 2 ^ (k + 1) + r) % 2 = r % 2 := by
      rw [hdouble]
      omega
    have hr2 : r / 2 < 2 ^ k := by
      rw [pow_succ] at hr
      omega
    rw [bitReverseIndex, hhalf, hmod, ih b (r / 2) hb hr2]
    conv_rhs => rw [bitReverseIndex]
    rw [pow_succ]
    ring

/-- Reversing the bits twice gives the index back. -/
theorem bitReverseIndex_involutive (k : Nat) :
    ∀ i, i < 2 ^ k → bitReverseIndex k (bitReverseIndex k i) = i := by
  induction k with
  | zero =>
    intro i hi
    have : i = 0 := by simpa using hi
    subst this
    rfl
  | succ k ih =>
    intro i hi
    have hi2 : i / 2 < 2 ^ k := by
      rw [pow_succ] at hi
      omega
    have hinner : bitReverseIndex (k + 1) i = i % 2 * 2 ^ k + bitReverseIndex k (i / 2) := by
      rw [bitReverseIndex]
    rw [hinner,
      bitReverseIndex_top k (i % 2) _ (Nat.mod_lt _ (by decide)) (bitReverseIndex_lt k _),
      ih (i / 2) hi2]
    omega

theorem length_BitReverse {F : Type} [Zero F] (v : List F) : (BitReverse v).length = v.length := by
  simp [BitReverse]

theorem BitReverse_getElem? {F : Type} [Zero F] (v : List F) (k : Nat) (hv : v.length = 2 ^ k)
    (i : Nat) (hi : i < 2 ^ k) :
    (BitReverse v)[i]? = some (v.getD (bitReverseIndex k i) 0) := by
  have hlog : Nat.log 2 v.length = k := by
    rw [hv]
    exact Nat.log_pow (by decide) k
  unfold BitReverse
  rw [List.getElem?_map, List.getElem?_range (by rw [hv]; exact hi), hlog]
  rfl

/-- On a vector whose length is a power of two, `BitReverse` undoes itself. -/
theorem BitReverse_BitReverse {F : Type} [Zero F] (v : List F) (k : Nat) (hv : v.length = 2 ^ k) :
    BitReverse (BitReverse v) = v := by
  have hlen : (BitReverse v).length = 2 ^ k := by rw [length_BitReverse, hv]
  apply List.ext_getElem?
  intro i
  rcases Nat.lt_or_ge i (2 ^ k) with hi | hi
  · rw [BitReverse_getElem? (BitReverse v) k hlen i hi, List.getD_eq_getElem?_getD,
      BitReverse_getElem? v k hv _ (bitReverseIndex_lt k i),
      bitReverseIndex_involutive k i hi, List.getD_eq_getElem?_getD,
      List.getElem?_eq_getElem (by rw [hv]; exact hi)]
    rfl
  · rw [List.getElem?_eq_none (by rw [length_BitReverse, length_BitReverse, hv]; exact hi),
      List.getElem?_eq_none (by rw [hv]; exact hi)]

/-! ## Filling the selector vectors -/

theorem columnAt_snoc {F : Type} [Field F] (f : SparseR1C → F) (front : List SparseR1C)
    (c : SparseR1C) (i : Nat) :
    columnAt f (front ++ [c]) i = if i = front.length then f c else columnAt f front i := by
  unfold columnAt
  by_cases h : i = front.length
  · rw [if_pos h, h, List.getElem?_append_right (Nat.le_refl _)]
    simp
  · rw [if_neg h]
    rcases Nat.lt_or_gt_of_ne h with hlt | hgt
    · rw [List.getElem?_append_left hlt]
    · rw [List.getElem?_eq_none (l := front ++ [c]) (by simp; omega),
        List.getElem?_eq_none (l := front) (by omega)]

theorem column_step {F : Type} [Field F] (f : SparseR1C → F) (front : List SparseR1C)
    (c : SparseR1C) (N : Nat) (v : List F) (hlen : v.length = N) (hrow : front.length < N)
    (hinv : ∀ i, i < N → v[i]? = some (columnAt f front i)) :
    ∀ i, i < N → (v.set front.length (f c))[i]? = some (columnAt f (front ++ [c]) i) := by
  intro i hi
  rw [columnAt_snoc, List.getElem?_set]
  by_cases h : front.length = i
  · rw [if_pos h, if_pos (by omega), if_pos h.symm]
  · rw [if_neg h, if_neg (fun e => h e.symm)]
    exact hinv i hi

theorem getElem?_coeff {F : Type} [Field F] (coeffs : List F) (id : Nat)
    (h : id < coeffs.length) : coeffs[id]? = some (coeffs.getD id 0) := by
  rw [List.getD_eq_getElem?_getD, List.getElem?_eq_getElem h]
  rfl

theorem fillSelectors_cons {F : Type} [Field F] (coeffs : List F) (c : SparseR1C)
    (rest : List SparseR1C) (index N : Nat) (q : Selectors F)
    (hl : q.Ql.length = N ∧ q.Qr.length = N ∧ q.Qm.length = N ∧ q.Qo.length = N ∧
      q.Qk.length = N)
    (hindex : index < N) (hc : c.coeffsBelow coeffs.length) :
    fillSelectors coeffs (c :: rest) index q =
      fillSelectors coeffs rest (index + 1)
        { Ql := q.Ql.set index (c.qL coeffs), Qr := q.Qr.set index (c.qR coeffs),
          Qm := q.Qm.set index (c.qM coeffs), Qo := q.Qo.set index (c.qO coeffs),
          Qk := q.Qk.set index (c.qK coeffs) } := by
  obtain ⟨h1, h2, h3, h4, h5⟩ := hl
  obtain ⟨c1, c2, c3, c4, c5, c6⟩ := hc
  have s1 := store_of_lt q.Ql index (coeffs.getD c.L.CoeffID 0) (by omega)
  have s2 := store_of_lt q.Qr index (coeffs.getD c.R.CoeffID 0) (by omega)
  have s3 := store_of_lt q.Qm index (coeffs.getD c.M0.CoeffID 0) (by omega)
  have s4 := store_of_lt (q.Qm.set index (coeffs.getD c.M0.CoeffID 0)) index
    (coeffs.getD c.M0.CoeffID 0 * coeffs.getD c.M1.CoeffID 0)
    (by simp only [List.length_set]; omega)
  have s5 := store_of_lt q.Qo index (coeffs.getD c.O.CoeffID 0) (by omega)
  have s6 := store_of_lt q.Qk index (coeffs.getD c.K 0) (by omega)
  rw [fillSelectors]
  simp only [getElem?_coeff coeffs _ c1, getElem?_coeff coeffs _ c2, getElem?_coeff coeffs _ c3,
    getElem?_coeff coeffs _ c4, getElem?_coeff coeffs _ c5, getElem?_coeff coeffs _ c6,
    s1, s2, s3, s4, s5, s6, Option.bind_eq_bind, Option.some_bind, List.set_set]
  rfl

theorem fillSelectors_spec {F : Type} [Field F] (coeffs : List F) (N : Nat)
    (cs : List SparseR1C) :
    ∀ (front : List SparseR1C) (q : Selectors F), front.length + cs.length ≤ N →
      (∀ c, c ∈ cs → c.coeffsBelow coeffs.length) → SelectorsOf coeffs front N q →
      ∃ q1, fillSelectors coeffs cs front.length q = some q1 ∧
        SelectorsOf coeffs (front ++ cs) N q1 := by
  induction cs with
  | nil =>
    intro front q _ _ hq
    exact ⟨q, rfl, by simpa using hq⟩
  | cons c rest ih =>
    intro front q hrows hcs hq
    simp only [List.length_cons] at hrows
    obtain ⟨hl, hcol⟩ := hq
    rw [fillSelectors_cons coeffs c rest front.length N q hl (by omega)
      (hcs c (List.mem_cons_self c rest))]
    have hstep := ih (front ++ [c])
      { Ql := q.Ql.set front.length (c.qL coeffs), Qr := q.Qr.set front.length (c.qR coeffs),
        Qm := q.Qm.set front.length (c.qM coeffs), Qo := q.Qo.set front.length (c.qO coeffs),
        Qk := q.Qk.set front.length (c.qK coeffs) }
      (by rw [List.length_append, List.length_singleton]; omega)
      (fun d hd => hcs d (List.mem_cons_of_mem c hd))
      ⟨by simp only [List.length_set]; exact hl, fun i hi =>
        ⟨column_step _ front c N q.Ql hl.1 (by omega) (fun j hj => (hcol j hj).1) i hi,
         column_step _ front c N q.Qr hl.2.1 (by omega) (fun j hj => (hcol j hj).2.1) i hi,
         column_step _ front c N q.Qm hl.2.2.1 (by omega) (fun j hj => (hcol j hj).2.2.1) i hi,
         column_step _ front c N q.Qo hl.2.2.2.1 (by omega)
           (fun j hj => (hcol j hj).2.2.2.1) i hi,
         column_step _ front c N q.Qk hl.2.2.2.2 (by omega)
           (fun j hj => (hcol j hj).2.2.2.2) i hi⟩⟩
    simpa [List.length_append, List.append_assoc] using hstep

/-- With a row for every gate and coefficient IDs in range, `Setup` fills the five vectors
with the selectors of the gates, row by row, and leaves zero in the padding rows. -/
theorem selectorRows_spec {F : Type} [Field F] (spr : SparseR1CS F) (N : Nat)
    (hrows : spr.Constraints.length + spr.Assertions.length ≤ N)
    (hcoeff : ∀ c, c ∈ spr.rows → c.coeffsBelow spr.Coefficients.length) :
    ∃ q, selectorRows spr N = some q ∧ SelectorsOf spr.Coefficients spr.rows N q := by
  have hz : ∀ i, i < N → (List.replicate N (0 : F))[i]? = some 0 := by
    intro i hi
    rw [List.getElem?_replicate, if_pos hi]
  obtain ⟨q1, h1, hq1⟩ := fillSelectors_spec spr.Coefficients N spr.Constraints []
    { Ql := List.replicate N 0, Qr := List.replicate N 0, Qm := List.replicate N 0,
      Qo := List.replicate N 0, Qk := List.replicate N 0 }
    (by simp only [List.length_nil]; omega)
    (fun c hc => hcoeff c (List.mem_append_left _ hc))
    ⟨by simp, fun i hi => by simp [columnAt, hz i hi]⟩
  obtain ⟨q2, h2, hq2⟩ := fillSelectors_spec spr.Coefficients N spr.Assertions spr.Constraints
    q1 hrows (fun c hc => hcoeff c (List.mem_append_right _ hc)) (by simpa using hq1)
  simp only [List.length_nil] at h1
  refine ⟨q2, ?_, hq2⟩
  rw [selectorRows]
  simp only [h1, h2, Option.bind_eq_bind, Option.some_bind]

/-! ## The inverse transform -/

theorem length_inverseDFT {F : Type} [Field F] (d : Domain F) (v : List F) :
    (inverseDFT d v).length = d.Cardinality := by
  simp [inverseDFT]

theorem inverseDFT_getD {F : Type} [Field F] (d : Domain F) (v : List F) (j : Nat)
    (hj : j < d.Cardinality) :
    (inverseDFT d v).getD j 0 = d.CardinalityInv *
      Finset.sum (Finset.range d.Cardinality) (fun l => v.getD l 0 * d.GeneratorInv ^ (l * j)) := by
  rw [List.getD_eq_getElem?_getD]
  unfold inverseDFT
  rw [List.getElem?_map, List.getElem?_range hj]
  rfl

/-- The powers of a primitive root of unity are orthogonal. -/
theorem root_orthogonal {F : Type} [Field F] (w : F) (N : Nat) (hw : IsPrimitiveRoot w N)
    (i l : Nat) (hi : i < N) (hl : l < N) :
    Finset.sum (Finset.range N) (fun j => w⁻¹ ^ (l * j) * (w ^ i) ^ j)
      = if l = i then (N : F) else 0 := by
  have hw0 : w ≠ 0 := hw.ne_zero (by omega)
  have hterm : ∀ j, w⁻¹ ^ (l * j) * (w ^ i) ^ j = (w⁻¹ ^ l * w ^ i) ^ j := by
    intro j
    rw [pow_mul, mul_pow]
  simp only [hterm]
  by_cases hli : l = i
  · subst hli
    rw [if_pos rfl, inv_pow, inv_mul_cancel₀ (pow_ne_zero l hw0)]
    simp
  · rw [if_neg hli]
    have hne : w⁻¹ ^ l * w ^ i ≠ 1 := by
      intro h
      apply hli
      apply hw.pow_inj hl hi
      rw [inv_pow] at h
      have h2 := congrArg (fun x => w ^ l * x) h
      simp only [mul_one] at h2
      rw [← mul_assoc, mul_inv_cancel₀ (pow_ne_zero l hw0), one_mul] at h2
      exact h2.symm
    have hone : (w⁻¹ ^ l * w ^ i) ^ N = 1 := by
      rw [mul_pow, ← pow_mul, ← pow_mul, Nat.mul_comm l N, Nat.mul_comm i N, pow_mul, pow_mul,
        inv_pow, hw.pow_eq_one]
      simp
    rw [geom_sum_eq hne N, hone, sub_self, zero_div]

/-- The polynomial with the coefficients `inverseDFT d v` takes the value `v[i]` at the
`i`-th power of the generator. -/
theorem evalPoly_inverseDFT {F : Type} [Field F] (d : Domain F) (v : List F)
    (hw : IsPrimitiveRoot d.Generator d.Cardinality)
    (hinv : d.GeneratorInv = d.Generator⁻¹)
    (hcinv : d.CardinalityInv = ((d.Cardinality : Nat) : F)⁻¹)
    (hN : ((d.Cardinality : Nat) : F) ≠ 0) (i : Nat) (hi : i < d.Cardinality) :
    evalPoly (inverseDFT d v) (d.Generator ^ i) = v.getD i 0 := by
  unfold evalPoly
  rw [length_inverseDFT]
  have hstep : ∀ j, j ∈ Finset.range d.Cardinality →
      (inverseDFT d v).getD j 0 * (d.Generator ^ i) ^ j =
        d.CardinalityInv * Finset.sum (Finset.range d.Cardinality)
          (fun l => v.getD l 0 * (d.GeneratorInv ^ (l * j) * (d.Generator ^ i) ^ j)) := by
    intro j hj
    rw [inverseDFT_getD d v j (Finset.mem_range.mp hj), mul_assoc, Finset.sum_mul]
    congr 1
    apply Finset.sum_congr rfl
    intro l _
    rw [mul_assoc]
  rw [Finset.sum_congr rfl hstep, ← Finset.mul_sum, Finset.sum_comm]
  have hinner : ∀ l, l ∈ Finset.range d.Cardinality →
      Finset.sum (Finset.range d.Cardinality)
          (fun j => v.getD l 0 * (d.GeneratorInv ^ (l * j) * (d.Generator ^ i) ^ j))
        = v.getD l 0 * (if l = i then ((d.Cardinality : Nat) : F) else 0) := by
    intro l hl
    rw [← Finset.mul_sum, hinv,
      root_orthogonal d.Generator d.Cardinality hw i l hi (Finset.mem_range.mp hl)]
  rw [Finset.sum_congr rfl hinner]
  simp only [mul_ite, mul_zero]
  rw [Finset.sum_ite_eq' (Finset.range d.Cardinality) i, if_pos (Finset.mem_range.mpr hi), hcinv,
    mul_comm (v.getD i 0), ← mul_assoc, inv_mul_cancel₀ hN, one_mul]

/-! ## `Setup` as a whole -/

theorem getD_of_SelectorsOf {F : Type} [Field F] {coeffs : List F} {rows : List SparseR1C}
    {N : Nat} {q : Selectors F} (hq : SelectorsOf coeffs rows N q) (i : Nat) (hi : i < N) :
    q.Ql.getD i 0 = columnAt (SparseR1C.qL coeffs) rows i ∧
    q.Qr.getD i 0 = columnAt (SparseR1C.qR coeffs) rows i ∧
    q.Qm.getD i 0 = columnAt (SparseR1C.qM coeffs) rows i ∧
    q.Qo.getD i 0 = columnAt (SparseR1C.qO coeffs) rows i ∧
    q.Qk.getD i 0 = columnAt (SparseR1C.qK coeffs) rows i := by
  obtain ⟨h1, h2, h3, h4, h5⟩ := hq.2 i hi
  simp only [List.getD_eq_getElem?_getD, h1, h2, h3, h4, h5, Option.getD_some, and_self]

/-- The vector `Setup` makes of an evaluation vector is the coefficient vector of the
polynomial with these evaluations. -/
theorem evalPoly_BitReverse_FFTInverse {F : Type} [Field F] (root : Nat → F) (m depth : Nat)
    (hroot : IsPrimitiveRoot (root (nextPowerOfTwo m)) (nextPowerOfTwo m)) (v : List F)
    (i : Nat) (hi : i < nextPowerOfTwo m) :
    (BitReverse (FFTInverse (NewDomain root m depth) v)).length = nextPowerOfTwo m ∧
    evalPoly (BitReverse (FFTInverse (NewDomain root m depth) v))
      ((NewDomain root m depth).Generator ^ i) = v.getD i 0 := by
  obtain ⟨k, hk, _, _⟩ := nextPowerOfTwo_spec m
  have hlen : (inverseDFT (NewDomain root m depth) v).length = 2 ^ k := by
    rw [length_inverseDFT, ← hk]
    rfl
  have hN : ((nextPowerOfTwo m : Nat) : F) ≠ 0 := by
    haveI : NeZero (nextPowerOfTwo m) := ⟨by rw [hk]; exact pow_ne_zero k (by decide)⟩
    exact (hroot.neZero').out
  rw [FFTInverse, BitReverse_BitReverse _ k hlen]
  exact ⟨by rw [hlen, hk], evalPoly_inverseDFT (NewDomain root m depth) v hroot rfl rfl hN i hi⟩

/-- C8: for a circuit with coefficient IDs in range (on which `buildPermutation` runs
through, and over a field whose `root` is a primitive root of unity of the order of the
domain), `Setup` returns; each of `Ql, Qr, Qm, Qo, Qk` is the bit-reversed inverse transform
of its evaluation vector and has `N = DomainNum.Cardinality` coefficients; and its
polynomial takes, at the `i`-th power of the generator, the selector of constraint `i` for
`i < nbConstraints` (for `Qm` the product of the coefficients of `M[0]` and `M[1]`), the
selector of assertion `i - nbConstraints` after that, and zero in every padding row. -/
theorem Setup_selectors {F C : Type} [Field F] (root : Nat → F) (spr : SparseR1CS F)
    (polynomialCommitment : C)
    (hroot : IsPrimitiveRoot
      (root (nextPowerOfTwo (spr.Constraints.length + spr.Assertions.length)))
      (nextPowerOfTwo (spr.Constraints.length + spr.Assertions.length)))
    (hcoeff : ∀ c, c ∈ spr.rows → c.coeffsBelow spr.Coefficients.length)
    (s : List Int)
    (hperm : buildPermutation spr
      (nextPowerOfTwo (spr.Constraints.length + spr.Assertions.length)) = some s) :
    ∃ res q, Setup root spr polynomialCommitment = some res ∧
      res.DomainNum.Cardinality
        = nextPowerOfTwo (spr.Constraints.length + spr.Assertions.length) ∧
      selectorRows spr res.DomainNum.Cardinality = some q ∧
      (res.Ql = BitReverse (FFTInverse res.DomainNum q.Ql) ∧
        res.Qr = BitReverse (FFTInverse res.DomainNum q.Qr) ∧
        res.Qm = BitReverse (FFTInverse res.DomainNum q.Qm) ∧
        res.Qo = BitReverse (FFTInverse res.DomainNum q.Qo) ∧
        res.Qk = BitReverse (FFTInverse res.DomainNum q.Qk)) ∧
      (res.Ql.length = res.DomainNum.Cardinality ∧ res.Qr.length = res.DomainNum.Cardinality ∧
        res.Qm.length = res.DomainNum.Cardinality ∧ res.Qo.length = res.DomainNum.Cardinality ∧
        res.Qk.length = res.DomainNum.Cardinality) ∧
      (∀ i c, spr.Constraints[i]? = some c →
        evalPoly res.Ql (res.DomainNum.Generator ^ i) = spr.Coefficients.getD c.L.CoeffID 0 ∧
        evalPoly res.Qr (res.DomainNum.Generator ^ i) = spr.Coefficients.getD c.R.CoeffID 0 ∧
        evalPoly res.Qm (res.DomainNum.Generator ^ i) =
          spr.Coefficients.getD c.M0.CoeffID 0 * spr.Coefficients.getD c.M1.CoeffID 0 ∧
        evalPoly res.Qo (res.DomainNum.Generator ^ i) = spr.Coefficients.getD c.O.CoeffID 0 ∧
        evalPoly res.Qk (res.DomainNum.Generator ^ i) = spr.Coefficients.getD c.K 0) ∧
      (∀ i c, spr.Assertions[i]? = some c →
        evalPoly res.Ql (res.DomainNum.Generator ^ (spr.Constraints.length + i))
          = spr.Coefficients.getD c.L.CoeffID 0 ∧
        evalPoly res.Qr (res.DomainNum.Generator ^ (spr.Constraints.length + i))
          = spr.Coefficients.getD c.R.CoeffID 0 ∧
        evalPoly res.Qm (res.DomainNum.Generator ^ (spr.Constraints.length + i)) =
          spr.Coefficients.getD c.M0.CoeffID 0 * spr.Coefficients.getD c.M1.CoeffID 0 ∧
        evalPoly res.Qo (res.DomainNum.Generator ^ (spr.Constraints.length + i))
          = spr.Coefficients.getD c.O.CoeffID 0 ∧
        evalPoly res.Qk (res.DomainNum.Generator ^ (spr.Constraints.length + i))
          = spr.Coefficients.getD c.K 0) ∧
      (∀ i, spr.Constraints.length + spr.Assertions.length ≤ i → i < res.DomainNum.Cardinality →
        evalPoly res.Ql (res.DomainNum.Generator ^ i) = 0 ∧
        evalPoly res.Qr (res.DomainNum.Generator ^ i) = 0 ∧
        evalPoly res.Qm (res.DomainNum.Generator ^ i) = 0 ∧
        evalPoly res.Qo (res.DomainNum.Generator ^ i) = 0 ∧
        evalPoly res.Qk (res.DomainNum.Generator ^ i) = 0) := by
  obtain ⟨k, hk, hle, _⟩ := nextPowerOfTwo_spec (spr.Constraints.length + spr.Assertions.length)
  rw [← hk] at hle
  obtain ⟨q, hq, hsel⟩ := selectorRows_spec spr
    (nextPowerOfTwo (spr.Constraints.length + spr.Assertions.length)) hle hcoeff
  have hev := evalPoly_BitReverse_FFTInverse root
    (spr.Constraints.length + spr.Assertions.length) 2 hroot
  have hsetup : Setup root spr polynomialCommitment = some
      { CommitmentScheme := polynomialCommitment
        Ql := BitReverse (FFTInverse
          (NewDomain root (spr.Constraints.length + spr.Assertions.length) 2) q.Ql)
        Qr := BitReverse (FFTInverse
          (NewDomain root (spr.Constraints.length + spr.Assertions.length) 2) q.Qr)
        Qm := BitReverse (FFTInverse
          (NewDomain root (spr.Constraints.length + spr.Assertions.length) 2) q.Qm)
        Qo := BitReverse (FFTInverse
          (NewDomain root (spr.Constraints.length + spr.Assertions.length) 2) q.Qo)
        Qk := BitReverse (FFTInverse
          (NewDomain root (spr.Constraints.length + spr.Assertions.length) 2) q.Qk)
        DomainNum := NewDomain root (spr.Constraints.length + spr.Assertions.length) 2
        DomainH := NewDomain root (2 * (spr.Constraints.length + spr.Assertions.length)) 1
        Permutation := s } := by
    have hq1 : selectorRows spr
        (NewDomain root (spr.Constraints.length + spr.Assertions.length) 2).Cardinality
        = some q := hq
    have hp1 : buildPermutation spr
        (NewDomain root (spr.Constraints.length + spr.Assertions.length) 2).Cardinality
        = some s := hperm
    rw [Setup]
    simp only [hq1, hp1, Option.bind_eq_bind, Option.some_bind]
  have hall : ∀ i, i < nextPowerOfTwo (spr.Constraints.length + spr.Assertions.length) →
      evalPoly (BitReverse (FFTInverse
          (NewDomain root (spr.Constraints.length + spr.Assertions.length) 2) q.Ql))
        ((NewDomain root (spr.Constraints.length + spr.Assertions.length) 2).Generator ^ i)
        = columnAt (SparseR1C.qL spr.Coefficients) spr.rows i ∧
      evalPoly (BitReverse (FFTInverse
          (NewDomain root (spr.Constraints.length + spr.Assertions.length) 2) q.Qr))
        ((NewDomain root (spr.Constraints.length + spr.Assertions.length) 2).Generator ^ i)
        = columnAt (SparseR1C.qR spr.Coefficients) spr.rows i ∧
      evalPoly (BitReverse (FFTInverse
          (NewDomain root (spr.Constraints.length + spr.Assertions.length) 2) q.Qm))
        ((NewDomain root (spr.Constraints.length + spr.Assertions.length) 2).Generator ^ i)
        = columnAt (SparseR1C.qM spr.Coefficients) spr.rows i ∧
      evalPoly (BitReverse (FFTInverse
          (NewDomain root (spr.Constraints.length + spr.Assertions.length) 2) q.Qo))
        ((NewDomain root (spr.Constraints.length + spr.Assertions.length) 2).Generator ^ i)
        = columnAt (SparseR1C.qO spr.Coefficients) spr.rows i ∧
      evalPoly (BitReverse (FFTInverse
          (NewDomain root (spr.Constraints.length + spr.Assertions.length) 2) q.Qk))
        ((NewDomain root (spr.Constraints.length + spr.Assertions.length) 2).Generator ^ i)
        = columnAt (SparseR1C.qK spr.Coefficients) spr.rows i := by
    intro i hi
    obtain ⟨g1, g2, g3, g4, g5⟩ := getD_of_SelectorsOf hsel i hi
    exact ⟨((hev q.Ql i hi).2).trans g1, ((hev q.Qr i hi).2).trans g2,
      ((hev q.Qm i hi).2).trans g3, ((hev q.Qo i hi).2).trans g4,
      ((hev q.Qk i hi).2).trans g5⟩
  have hrowlen := rows_length spr
  refine ⟨_, q, hsetup, rfl, hq, ⟨rfl, rfl, rfl, rfl, rfl⟩, ?_, ?_, ?_, ?_⟩
  · have h0 : 0 < nextPowerOfTwo (spr.Constraints.length + spr.Assertions.length) := by
      rw [hk]
      exact Nat.pos_pow_of_pos k (by decide)
    exact ⟨(hev q.Ql 0 h0).1, (hev q.Qr 0 h0).1, (hev q.Qm 0 h0).1, (hev q.Qo 0 h0).1,
      (hev q.Qk 0 h0).1⟩
  · intro i c hc
    have hi : i < spr.Constraints.length := (List.getElem?_eq_some.mp hc).1
    have hrow : spr.rows[i]? = some c := by
      rw [SparseR1CS.rows, List.getElem?_append_left hi]
      exact hc
    have := hall i (by omega)
    simp only [columnAt, hrow] at this
    exact this
  · intro i c hc
    have hi : i < spr.Assertions.length := (List.getElem?_eq_some.mp hc).1
    have hrow : spr.rows[spr.Constraints.length + i]? = some c := by
      rw [SparseR1CS.rows, List.getElem?_append_right (by omega)]
      simpa using hc
    have := hall (spr.Constraints.length + i) (by omega)
    simp only [columnAt, hrow] at this
    exact this
  · intro i hge hlt
    have hrow : spr.rows[i]? = none := List.getElem?_eq_none (by omega)
    have := hall i hlt
    simp only [columnAt, hrow] at this
    exact this

theorem exampleRoot_primitive : IsPrimitiveRoot (exampleRoot (nextPowerOfTwo (2 + 1)))
    (nextPowerOfTwo (2 + 1)) := by
  have hN : nextPowerOfTwo (2 + 1) = 4 := by decide
  rw [hN]
  refine IsPrimitiveRoot.mk_of_lt _ (by decide) (by decide) ?_
  intro l h0 h4
  interval_cases l <;> decide

theorem Setup_selectors_witness :
    (∀ c, c ∈ exampleCircuit.rows → c.coeffsBelow exampleCircuit.Coefficients.length) ∧
    buildPermutation exampleCircuit
      (nextPowerOfTwo (exampleCircuit.Constraints.length + exampleCircuit.Assertions.length))
      = some [5, 10, 9, 11, 4, 0, 3, 6, 1, 2, 8, 7] ∧
    ∃ res, Setup exampleRoot exampleCircuit () = some res ∧
      evalPoly res.Qo (res.DomainNum.Generator ^ 2) = -1 ∧
      evalPoly res.Qo (res.DomainNum.Generator ^ 3) = 0 := by
  have hcoeff : ∀ c, c ∈ exampleCircuit.rows →
      c.coeffsBelow exampleCircuit.Coefficients.length := by decide
  have hperm : buildPermutation exampleCircuit
      (nextPowerOfTwo (exampleCircuit.Constraints.length + exampleCircuit.Assertions.length))
      = some [5, 10, 9, 11, 4, 0, 3, 6, 1, 2, 8, 7] := by decide
  obtain ⟨res, q, h1, h2, _, _, _, _, h3, h4⟩ :=
    Setup_selectors exampleRoot exampleCircuit () exampleRoot_primitive hcoeff _ hperm
  refine ⟨hcoeff, hperm, res, h1, ?_, ?_⟩
  · have := (h3 0 { L := ⟨1, 4⟩, R := ⟨0, 0⟩, O := ⟨2, 3⟩, M0 := ⟨0, 4⟩, M1 := ⟨0, 0⟩, K := 0 }
      rfl).2.2.2.1
    exact this
  · exact (h4 3 (by decide) (by rw [h2]; decide)).2.2.2.1

/-! ## Reading a well-formed stream -/

/-- On a stream that holds `k` more elements the decoder accepts, `readLoop` stores them in
the slots from `i` on and stops right after them. -/
theorem readLoop_valid {F E : Type} (c : ElementCodec F E) (xs : List F) :
    ∀ (front mid back : List F) (dec : Decoder), mid.length = xs.length →
      xs.length * c.Bytes ≤ dec.r.length →
      (∀ j x, xs[j]? = some x →
        c.setBytes ((dec.r.drop (j * c.Bytes)).take c.Bytes) = Except.ok x) →
      readLoop c xs.length front.length (front ++ mid ++ back) dec =
        { witness := front ++ xs ++ back, r := dec.r.drop (xs.length * c.Bytes),
          n := dec.n + xs.length * c.Bytes + 4, err := none } := by
  induction xs with
  | nil =>
    intro front mid back dec hmid _ _
    have : mid = [] := List.length_eq_zero.mp hmid
    subst this
    simp [readLoop]
  | cons x xs ih =>
    intro front mid back dec hmid hlen hvalid
    cases mid with
    | nil => simp at hmid
    | cons m ms =>
      simp only [List.length_cons, Nat.add_right_cancel_iff] at hmid
      simp only [List.length_cons, Nat.succ_mul] at hlen
      have hfull : c.Bytes ≤ dec.r.length := by omega
      have hd := Decode_reader c dec
      have hres := Decode_full c dec hfull
      have h0 := hvalid 0 x (by simp)
      simp only [Nat.zero_mul, List.drop_zero] at h0
      rw [h0] at hres
      have hset : (front ++ (m :: ms) ++ back).set front.length x
          = (front ++ [x]) ++ ms ++ back := by
        rw [List.append_assoc, List.set_append_right _ _ (Nat.le_refl _)]
        simp
      have hfl : front.length + 1 = (front ++ [x]).length := by simp
      have hshift : ∀ l, (dec.r.drop c.Bytes).drop (l * c.Bytes)
          = dec.r.drop ((l + 1) * c.Bytes) := by
        intro l
        rw [List.drop_drop, Nat.succ_mul, Nat.add_comm]
      rw [List.length_cons, readLoop_succ_ok c xs.length front.length _ dec x hres, hd,
        Nat.min_eq_left hfull, hset, hfl,
        ih (front ++ [x]) ms back { r := dec.r.drop c.Bytes, n := dec.n + c.Bytes } hmid
          (by simp only [List.length_drop]; omega)
          (by intro j y hj
              simp only [hshift]
              exact hvalid (j + 1) y (by simpa using hj))]
      simp only [List.append_assoc, List.singleton_append, List.cons_append, hshift,
        ReadResult.mk.injEq, true_and, and_true]
      refine ⟨by simp, ?_⟩
      rw [Nat.succ_mul]
      omega

/-- C11: on a stream that starts with the 4-byte big-endian length `n` followed by `n`
element encodings the decoder accepts (and any further bytes), `ReadFrom` succeeds
whatever the target held, leaves the target with exactly these `n` elements in order,
and returns `4 + n·elementSize`, the reader standing right after the last element. -/
theorem ReadFrom_valid {F E : Type} (c : ElementCodec F E) (zero : F) (t : Witness F)
    (s : List Byte) (xs : List F) (h4 : 4 ≤ s.length) (hn : beUint32 (s.take 4) = xs.length)
    (hlen : 4 + xs.length * c.Bytes ≤ s.length)
    (hvalid : ∀ k x, xs[k]? = some x → c.setBytes (elementBytes c s k) = Except.ok x) :
    (ReadFrom c zero t s).err = none ∧
    (ReadFrom c zero t s).witness = xs ∧
    (ReadFrom c zero t s).witness.length = beUint32 (s.take 4) ∧
    (ReadFrom c zero t s).n = 4 + beUint32 (s.take 4) * c.Bytes ∧
    (ReadFrom c zero t s).r = s.drop (4 + beUint32 (s.take 4) * c.Bytes) := by
  have hmid : (if t.length ≠ xs.length then List.replicate xs.length zero else t).length
      = xs.length := by
    split
    · simp
    · rename_i h
      exact not_not.mp h
  have h := readLoop_valid c xs [] _ [] { r := s.drop 4, n := 0 } hmid
    (by simp only [List.length_drop]; omega)
    (by intro j x hj
        rw [List.drop_drop]
        exact hvalid j x hj)
  simp only [List.length_nil, List.nil_append, List.append_nil, Nat.zero_add] at h
  rw [ReadFrom_long c zero t s h4, hn, h]
  simp only [List.drop_drop, true_and]
  exact ⟨by omega, trivial⟩

theorem ReadFrom_valid_witness :
    (ReadFrom frCodec (frElement 0) [frElement 7]
      ([0, 0, 0, 2] ++ frCodec.toBytes (frElement 9) ++ frCodec.toBytes (frElement 5)
        ++ [1, 2, 3])).witness = [frElement 9, frElement 5] ∧
    (ReadFrom frCodec (frElement 0) [frElement 7]
      ([0, 0, 0, 2] ++ frCodec.toBytes (frElement 9) ++ frCodec.toBytes (frElement 5)
        ++ [1, 2, 3])).n = 4 + 2 * 32 :=
  have h := ReadFrom_valid frCodec (frElement 0) [frElement 7]
    ([0, 0, 0, 2] ++ frCodec.toBytes (frElement 9) ++ frCodec.toBytes (frElement 5)
      ++ [1, 2, 3]) [frElement 9, frElement 5] (by decide) (by decide) (by decide)
    (by intro k x hk
        match k, hk with
        | 0, hk =>
          cases hk
          rfl
        | 1, hk =>
          cases hk
          rfl
        | k + 2, hk => simp at hk)
  ⟨h.2.1, h.2.2.2.1⟩

/-! ## The entries of the permutation -/

theorem lroOf_getElem?_ne {F : Type} (spr : SparseR1CS F) (N m x : Nat) (hm : m < 3 * N)
    (h : (lroOf spr N)[m]? ≠ some x) : lroAt spr N m ≠ x := by
  intro he
  apply h
  rw [lroOf_getElem? spr N m hm, he]

/-- C16: when `buildPermutation` returns, then for every position `pos` of `l||r||o`: if an
earlier position holds the same variable, `Permutation[pos]` is the greatest position
below `pos` that holds it; otherwise `Permutation[pos]` is the greatest position of
`l||r||o` that holds it. -/
theorem buildPermutation_entry {F : Type} (spr : SparseR1CS F) (N : Nat) (s : List Int)
    (h : buildPermutation spr N = some s) (pos : Nat) (hpos : pos < 3 * N) :
    ((∃ q, q < pos ∧ lroAt spr N q = lroAt spr N pos) →
      ∃ j : Nat, s[pos]? = some (j : Int) ∧ j < pos ∧ lroAt spr N j = lroAt spr N pos ∧
        ∀ m, j < m → m < pos → lroAt spr N m ≠ lroAt spr N pos) ∧
    ((∀ q, q < pos → lroAt spr N q ≠ lroAt spr N pos) →
      ∃ j : Nat, s[pos]? = some (j : Int) ∧ j < 3 * N ∧ lroAt spr N j = lroAt spr N pos ∧
        ∀ m, j < m → m < 3 * N → lroAt spr N m ≠ lroAt spr N pos) := by
  have hlen := length_lroOf spr N
  obtain ⟨_, hs⟩ := buildPermutation_entries spr N s h
  have hv := lroOf_getD spr N pos hpos
  have hval : ∀ j, (lroOf spr N)[j]? = some ((lroOf spr N).getD pos 0) →
      j < 3 * N ∧ lroAt spr N j = lroAt spr N pos := by
    intro j hj
    obtain ⟨h1, h2⟩ := getD_of_getElem? hj
    rw [hlen] at h1
    rw [lroOf_getD spr N j h1, hv] at h2
    exact ⟨h1, h2⟩
  cases hlb : lastBelow (lroOf spr N) ((lroOf spr N).getD pos 0) pos with
  | some j =>
    obtain ⟨h1, h2, h3⟩ := lastBelow_some hlb
    constructor
    · intro _
      refine ⟨j, by rw [hs pos hpos, sigma_of_some hlb], h1, (hval j h2).2, ?_⟩
      intro m hm1 hm2
      have := lroOf_getElem?_ne spr N m _ (by omega) (h3 m hm1 hm2)
      rw [hv] at this
      exact this
    · intro hno
      exact absurd (hval j h2).2 (hno j h1)
  | none =>
    constructor
    · rintro ⟨q, hq, he⟩
      have := lastBelow_none.mp hlb q hq
      rw [lroOf_getElem? spr N q (by omega), he, hv] at this
      exact absurd rfl this
    · intro _
      have hL := sigma_of_none (by omega : pos < (lroOf spr N).length) hlb
      obtain ⟨_, h2, h3⟩ := lastBelow_some hL
      refine ⟨sigma (lroOf spr N) pos, hs pos hpos, (hval _ h2).1, (hval _ h2).2, ?_⟩
      intro m hm1 hm2
      have := lroOf_getElem?_ne spr N m _ hm2 (h3 m hm1 (by omega))
      rw [hv] at this
      exact this

theorem buildPermutation_entry_witness :
    buildPermutation exampleCircuit 4 = some [5, 10, 9, 11, 4, 0, 3, 6, 1, 2, 8, 7] ∧
    (∃ q, q < 8 ∧ lroAt exampleCircuit 4 q = lroAt exampleCircuit 4 8) ∧
    ∃ j : Nat, ([5, 10, 9, 11, 4, 0, 3, 6, 1, 2, 8, 7] : List Int)[8]? = some (j : Int) ∧ j < 8 ∧
      lroAt exampleCircuit 4 j = lroAt exampleCircuit 4 8 ∧
      ∀ m, j < m → m < 8 → lroAt exampleCircuit 4 m ≠ lroAt exampleCircuit 4 8 :=
  ⟨by decide, by decide,
   (buildPermutation_entry exampleCircuit 4 [5, 10, 9, 11, 4, 0, 3, 6, 1, 2, 8, 7] (by decide) 8
      (by decide)).1 (by decide)⟩

/-! ## When `buildPermutation` returns -/

theorem cover_of_firsts_lroOf {F : Type} (spr : SparseR1CS F) (N : Nat)
    (hrange : ∀ pos, pos < 3 * N → lroAt spr N pos < spr.nbVariables)
    (hall : firsts (lroOf spr N) (3 * N) = spr.nbVariables) :
    ∀ x, x < spr.nbVariables → ∃ pos, pos < 3 * N ∧ lroAt spr N pos = x := by
  have hlen := length_lroOf spr N
  have h := (firsts_eq_iff (lroOf spr N) spr.nbVariables (by
    intro i hi
    rw [hlen] at hi
    rw [lroOf_getD spr N i hi]
    exact hrange i hi)).mp (by rw [hlen]; exact hall)
  intro x hx
  obtain ⟨i, hi, he⟩ := h x hx
  rw [hlen] at hi
  exact ⟨i, hi, by rw [← lroOf_getD spr N i hi]; exact he⟩

/-- C17: `buildPermutation` (a total function of the circuit and the domain size, here a
domain with a row for every gate) returns a permutation if and only if every variable ID
of `l||r||o` is below `nbVariables` and every variable ID below `nbVariables` is at some
position of `l||r||o`; the permutation it returns has no `-1` left; and otherwise it
stops with an index out of range and returns nothing. -/
theorem buildPermutation_completes_iff {F : Type} (spr : SparseR1CS F) (N : Nat)
    (hrows : spr.Constraints.length + spr.Assertions.length ≤ N) :
    ((∃ s, buildPermutation spr N = some s) ↔
      ((∀ pos, pos < 3 * N → lroAt spr N pos < spr.nbVariables) ∧
        (∀ x, x < spr.nbVariables → ∃ pos, pos < 3 * N ∧ lroAt spr N pos = x))) ∧
    (∀ s, buildPermutation spr N = some s →
      s.length = 3 * N ∧ ∀ i, i < 3 * N → ∃ j : Nat, j < 3 * N ∧ s[i]? = some (j : Int)) ∧
    (¬ ((∀ pos, pos < 3 * N → lroAt spr N pos < spr.nbVariables) ∧
        (∀ x, x < spr.nbVariables → ∃ pos, pos < 3 * N ∧ lroAt spr N pos = x)) →
      buildPermutation spr N = none) := by
  have hiff : (∃ s, buildPermutation spr N = some s) ↔
      ((∀ pos, pos < 3 * N → lroAt spr N pos < spr.nbVariables) ∧
        (∀ x, x < spr.nbVariables → ∃ pos, pos < 3 * N ∧ lroAt spr N pos = x)) := by
    constructor
    · rintro ⟨s, hs⟩
      obtain ⟨_, hrange, hall⟩ := buildPermutation_some spr N s hs
      exact ⟨hrange, cover_of_firsts_lroOf spr N hrange hall⟩
    · rintro ⟨hrange, hcover⟩
      obtain ⟨s, hs, _⟩ := buildPermutation_spec spr N hrows hrange
        (firsts_lroOf_of_cover spr N hrange hcover)
      exact ⟨s, hs⟩
  refine ⟨hiff, ?_, ?_⟩
  · intro s hs
    have hlen := length_lroOf spr N
    obtain ⟨hl, he⟩ := buildPermutation_entries spr N s hs
    refine ⟨hl, fun i hi => ?_⟩
    have := (sigma_same (lroOf spr N) i (by omega)).1
    exact ⟨sigma (lroOf spr N) i, by omega, he i hi⟩
  · intro hnot
    cases hb : buildPermutation spr N with
    | none => rfl
    | some s => exact absurd (hiff.mp ⟨s, hb⟩) hnot

theorem buildPermutation_completes_iff_witness :
    exampleCircuit.Constraints.length + exampleCircuit.Assertions.length ≤ 4 ∧
    ((∃ s, buildPermutation exampleCircuit 4 = some s) ↔
      ((∀ pos, pos < 3 * 4 → lroAt exampleCircuit 4 pos < exampleCircuit.nbVariables) ∧
        (∀ x, x < exampleCircuit.nbVariables →
          ∃ pos, pos < 3 * 4 ∧ lroAt exampleCircuit 4 pos = x))) :=
  ⟨by decide, (buildPermutation_completes_iff exampleCircuit 4 (by decide)).1⟩

/-! ## The padding rows -/

/-- C20: when `buildPermutation` returns for a domain with more rows than the system has
gates, a position of a padding row counts as a position of variable ID 0: iterating the
permutation from it reaches every position of a padding row and every position that
holds variable ID 0, and only positions that hold variable ID 0. -/
theorem buildPermutation_padding_cycle {F : Type} (spr : SparseR1CS F) (N : Nat) (s : List Int)
    (h : buildPermutation spr N = some s) (pos : Nat) (hpos : pos < 3 * N)
    (hpad : spr.Constraints.length + spr.Assertions.length ≤ rowOf N pos) :
    (∀ q, q < 3 * N → spr.Constraints.length + spr.Assertions.length ≤ rowOf N q →
      ∃ k, iterPerm s k pos = some q) ∧
    (∀ q, q < 3 * N → lroAt spr N q = 0 → ∃ k, iterPerm s k pos = some q) ∧
    (∀ k q, iterPerm s k pos = some q → q < 3 * N ∧ lroAt spr N q = 0) := by
  have hlen := length_lroOf spr N
  have hzero := lroAt_padding spr N pos hpad
  obtain ⟨_, hs⟩ := buildPermutation_entries spr N s h
  have hiter := iterPerm_eq (lroOf spr N) s (by rw [hlen]; exact hs)
  have hreach : ∀ q, q < 3 * N → lroAt spr N q = 0 → ∃ k, iterPerm s k pos = some q := by
    intro q hq hq0
    obtain ⟨k, hk⟩ := sigma_reaches (lroOf spr N) pos q (by omega) (by omega)
      (by rw [lroOf_getD spr N q hq, lroOf_getD spr N pos hpos, hq0, hzero])
    exact ⟨k, by rw [hiter k pos (by omega), hk]⟩
  refine ⟨fun q hq hqpad => hreach q hq (lroAt_padding spr N q hqpad), hreach, ?_⟩
  intro k q hk
  rw [hiter k pos (by omega)] at hk
  obtain ⟨h1, h2⟩ := iterate_sigma_same (lroOf spr N) k pos (by omega)
  rw [hlen] at h1
  rw [lroOf_getD spr N _ h1, lroOf_getD spr N pos hpos, hzero, Option.some.inj hk] at h2
  exact ⟨Option.some.inj hk ▸ h1, h2⟩

theorem buildPermutation_padding_cycle_witness :
    buildPermutation exampleCircuit 4 = some [5, 10, 9, 11, 4, 0, 3, 6, 1, 2, 8, 7] ∧
    exampleCircuit.Constraints.length + exampleCircuit.Assertions.length ≤ rowOf 4 3 ∧
    ∀ q, q < 3 * 4 → lroAt exampleCircuit 4 q = 0 →
      ∃ k, iterPerm [5, 10, 9, 11, 4, 0, 3, 6, 1, 2, 8, 7] k 3 = some q :=
  ⟨by decide, by decide,
   (buildPermutation_padding_cycle exampleCircuit 4 [5, 10, 9, 11, 4, 0, 3, 6, 1, 2, 8, 7]
      (by decide) 3 (by decide) (by decide)).2.1⟩

/-! ## The two domains -/

/-- What `Setup` returns when its two fallible steps succeed. -/
theorem Setup_of_some {F C : Type} [Field F] (root : Nat → F) (spr : SparseR1CS F)
    (polynomialCommitment : C) (q : Selectors F) (s : List Int)
    (hq : selectorRows spr
      (nextPowerOfTwo (spr.Constraints.length + spr.Assertions.length)) = some q)
    (hs : buildPermutation spr
      (nextPowerOfTwo (spr.Constraints.length + spr.Assertions.length)) = some s) :
    Setup root spr polynomialCommitment = some
      { CommitmentScheme := polynomialCommitment
        Ql := BitReverse (FFTInverse
          (NewDomain root (spr.Constraints.length + spr.Assertions.length) 2) q.Ql)
        Qr := BitReverse (FFTInverse
          (NewDomain root (spr.Constraints.length + spr.Assertions.length) 2) q.Qr)
        Qm := BitReverse (FFTInverse
          (NewDomain root (spr.Constraints.length + spr.Assertions.length) 2) q.Qm)
        Qo := BitReverse (FFTInverse
          (NewDomain root (spr.Constraints.length + spr.Assertions.length) 2) q.Qo)
        Qk := BitReverse (FFTInverse
          (NewDomain root (spr.Constraints.length + spr.Assertions.length) 2) q.Qk)
        DomainNum := NewDomain root (spr.Constraints.length + spr.Assertions.length) 2
        DomainH := NewDomain root (2 * (spr.Constraints.length + spr.Assertions.length)) 1
        Permutation := s } := by
  have hq1 : selectorRows spr
      (NewDomain root (spr.Constraints.length + spr.Assertions.length) 2).Cardinality
      = some q := hq
  have hs1 : buildPermutation spr
      (NewDomain root (spr.Constraints.length + spr.Assertions.length) 2).Cardinality
      = some s := hs
  rw [Setup]
  simp only [hq1, hs1, Option.bind_eq_bind, Option.some_bind]

/-- Every gate of a list that `fillSelectors` gets through has its coefficient IDs in the
coefficient table. -/
theorem fillSelectors_some {F : Type} [Field F] (coeffs : List F) (cs : List SparseR1C) :
    ∀ (index : Nat) (q q1 : Selectors F), fillSelectors coeffs cs index q = some q1 →
      ∀ c, c ∈ cs → c.coeffsBelow coeffs.length := by
  induction cs with
  | nil => intro index q q1 _ c hc; simp at hc
  | cons d rest ih =>
    intro index q q1 h c hc
    rw [fillSelectors] at h
    simp only [Option.bind_eq_bind, Option.bind_eq_some] at h
    obtain ⟨cl, hcl, Ql, _, cr, hcr, Qr, _, m0, hm0, Qm, _, m1, hm1, Qm1, _, co, hco, Qo, _, ck,
      hck, Qk, _, hrest⟩ := h
    rcases List.mem_cons.mp hc with h1 | h1
    · subst h1
      exact ⟨(List.getElem?_eq_some.mp hcl).1, (List.getElem?_eq_some.mp hcr).1,
        (List.getElem?_eq_some.mp hm0).1, (List.getElem?_eq_some.mp hm1).1,
        (List.getElem?_eq_some.mp hco).1, (List.getElem?_eq_some.mp hck).1⟩
    · exact ih _ _ _ hrest c h1

/-- When `Setup` fills the five vectors without a panic, every gate has its coefficient IDs
in the coefficient table. -/
theorem selectorRows_some {F : Type} [Field F] (spr : SparseR1CS F) (N : Nat)
    (q : Selectors F) (h : selectorRows spr N = some q) :
    ∀ c, c ∈ spr.rows → c.coeffsBelow spr.Coefficients.length := by
  rw [selectorRows] at h
  simp only [Option.bind_eq_bind, Option.bind_eq_some] at h
  obtain ⟨q1, h1, h2⟩ := h
  intro c hc
  rcases List.mem_append.mp hc with hc1 | hc1
  · exact fillSelectors_some _ _ _ _ _ h1 c hc1
  · exact fillSelectors_some _ _ _ _ _ h2 c hc1

/-- The artifact `Setup` returns, in terms of the five vectors `q` it filled: each polynomial
is the bit-reversed inverse transform of its vector, and takes at the `i`-th power of the
generator the entry of row `i` of its vector, which is the selector of the gate of that
row. -/
theorem Setup_evals {F C : Type} [Field F] (root : Nat → F) (spr : SparseR1CS F)
    (polynomialCommitment : C)
    (hroot : IsPrimitiveRoot
      (root (nextPowerOfTwo (spr.Constraints.length + spr.Assertions.length)))
      (nextPowerOfTwo (spr.Constraints.length + spr.Assertions.length)))
    (res : PublicRaw F C) (h : Setup root spr polynomialCommitment = some res) :
    ∃ q, selectorRows spr res.DomainNum.Cardinality = some q ∧
      (res.Ql = BitReverse (FFTInverse res.DomainNum q.Ql) ∧
        res.Qr = BitReverse (FFTInverse res.DomainNum q.Qr) ∧
        res.Qm = BitReverse (FFTInverse res.DomainNum q.Qm) ∧
        res.Qo = BitReverse (FFTInverse res.DomainNum q.Qo) ∧
        res.Qk = BitReverse (FFTInverse res.DomainNum q.Qk)) ∧
      ∀ i, i < nextPowerOfTwo (spr.Constraints.length + spr.Assertions.length) →
        (evalPoly res.Ql (res.DomainNum.Generator ^ i) = q.Ql.getD i 0 ∧
          evalPoly res.Qr (res.DomainNum.Generator ^ i) = q.Qr.getD i 0 ∧
          evalPoly res.Qm (res.DomainNum.Generator ^ i) = q.Qm.getD i 0 ∧
          evalPoly res.Qo (res.DomainNum.Generator ^ i) = q.Qo.getD i 0 ∧
          evalPoly res.Qk (res.DomainNum.Generator ^ i) = q.Qk.getD i 0) ∧
        (q.Ql.getD i 0 = columnAt (SparseR1C.qL spr.Coefficients) spr.rows i ∧
          q.Qr.getD i 0 = columnAt (SparseR1C.qR spr.Coefficients) spr.rows i ∧
          q.Qm.getD i 0 = columnAt (SparseR1C.qM spr.Coefficients) spr.rows i ∧
          q.Qo.getD i 0 = columnAt (SparseR1C.qO spr.Coefficients) spr.rows i ∧
          q.Qk.getD i 0 = columnAt (SparseR1C.qK spr.Coefficients) spr.rows i) := by
  obtain ⟨k, hk, hle, _⟩ := nextPowerOfTwo_spec (spr.Constraints.length + spr.Assertions.length)
  rw [← hk] at hle
  cases hq : selectorRows spr
      (nextPowerOfTwo (spr.Constraints.length + spr.Assertions.length)) with
  | none =>
    have hq1 : selectorRows spr
        (NewDomain root (spr.Constraints.length + spr.Assertions.length) 2).Cardinality
        = none := hq
    rw [Setup] at h
    simp only [hq1, Option.bind_eq_bind, Option.none_bind] at h
    cases h
  | some q =>
    cases hs : buildPermutation spr
        (nextPowerOfTwo (spr.Constraints.length + spr.Assertions.length)) with
    | none =>
      have hq1 : selectorRows spr
          (NewDomain root (spr.Constraints.length + spr.Assertions.length) 2).Cardinality
          = some q := hq
      have hs1 : buildPermutation spr
          (NewDomain root (spr.Constraints.length + spr.Assertions.length) 2).Cardinality
          = none := hs
      rw [Setup] at h
      simp only [hq1, hs1, Option.bind_eq_bind, Option.some_bind, Option.none_bind] at h
      cases h
    | some s =>
      rw [Setup_of_some root spr polynomialCommitment q s hq hs] at h
      cases h
      obtain ⟨q1, hq1, hsel⟩ := selectorRows_spec spr
        (nextPowerOfTwo (spr.Constraints.length + spr.Assertions.length)) hle
        (selectorRows_some spr _ q hq)
      rw [hq] at hq1
      cases hq1
      have hev := evalPoly_BitReverse_FFTInverse root
        (spr.Constraints.length + spr.Assertions.length) 2 hroot
      refine ⟨q, hq, ⟨rfl, rfl, rfl, rfl, rfl⟩, ?_⟩
      intro i hi
      exact ⟨⟨(hev q.Ql i hi).2, (hev q.Qr i hi).2, (hev q.Qm i hi).2, (hev q.Qo i hi).2,
        (hev q.Qk i hi).2⟩, getD_of_SelectorsOf hsel i hi⟩

/-- C9: in the artifact `Setup` returns (over a field whose `root` is a primitive root of
unity of the order of the domain), the selectors of row `i` are the values of the
polynomials `Ql, Qr, Qm, Qo, Qk` at the `i`-th power of the generator of `DomainNum`; they
are the entries of row `i` of the five vectors that `Setup` filled and transformed.  For
every gate row `i` and all `l, r, o`, the gate expression `Ql·l + Qr·r + Qm·l·r + Qo·o + Qk`
formed from them is zero exactly when the gate of row `i` holds of `l, r, o`.  On the circuit
of the single constraint `qL = 1, qR = 1, qM = 0, qO = -1, qK = 0`, `Setup` returns, the
selectors of row 0 are these five values, and with `l = 2, r = 3, o = 5` the expression is
zero. -/
theorem Setup_gate_expression {F C : Type} [Field F] (root : Nat → F) (spr : SparseR1CS F)
    (polynomialCommitment : C)
    (hroot : IsPrimitiveRoot
      (root (nextPowerOfTwo (spr.Constraints.length + spr.Assertions.length)))
      (nextPowerOfTwo (spr.Constraints.length + spr.Assertions.length)))
    (res : PublicRaw F C) (h : Setup root spr polynomialCommitment = some res) :
    (∀ i c, spr.rows[i]? = some c → ∀ l r o : F,
      (gateExpression (evalPoly res.Ql (res.DomainNum.Generator ^ i))
          (evalPoly res.Qr (res.DomainNum.Generator ^ i))
          (evalPoly res.Qm (res.DomainNum.Generator ^ i))
          (evalPoly res.Qo (res.DomainNum.Generator ^ i))
          (evalPoly res.Qk (res.DomainNum.Generator ^ i)) l r o = 0 ↔
        c.holds spr.Coefficients l r o)) ∧
    (∃ q, selectorRows spr res.DomainNum.Cardinality = some q ∧
      (res.Ql = BitReverse (FFTInverse res.DomainNum q.Ql) ∧
        res.Qr = BitReverse (FFTInverse res.DomainNum q.Qr) ∧
        res.Qm = BitReverse (FFTInverse res.DomainNum q.Qm) ∧
        res.Qo = BitReverse (FFTInverse res.DomainNum q.Qo) ∧
        res.Qk = BitReverse (FFTInverse res.DomainNum q.Qk)) ∧
      ∀ i c, spr.rows[i]? = some c →
        q.Ql.getD i 0 = evalPoly res.Ql (res.DomainNum.Generator ^ i) ∧
        q.Qr.getD i 0 = evalPoly res.Qr (res.DomainNum.Generator ^ i) ∧
        q.Qm.getD i 0 = evalPoly res.Qm (res.DomainNum.Generator ^ i) ∧
        q.Qo.getD i 0 = evalPoly res.Qo (res.DomainNum.Generator ^ i) ∧
        q.Qk.getD i 0 = evalPoly res.Qk (res.DomainNum.Generator ^ i)) ∧
    (∃ res1, Setup (fun _ => (1 : F)) (additionCircuit F) () = some res1 ∧
      evalPoly res1.Ql (res1.DomainNum.Generator ^ 0) = 1 ∧
      evalPoly res1.Qr (res1.DomainNum.Generator ^ 0) = 1 ∧
      evalPoly res1.Qm (res1.DomainNum.Generator ^ 0) = 0 ∧
      evalPoly res1.Qo (res1.DomainNum.Generator ^ 0) = -1 ∧
      evalPoly res1.Qk (res1.DomainNum.Generator ^ 0) = 0 ∧
      gateExpression (evalPoly res1.Ql (res1.DomainNum.Generator ^ 0))
        (evalPoly res1.Qr (res1.DomainNum.Generator ^ 0))
        (evalPoly res1.Qm (res1.DomainNum.Generator ^ 0))
        (evalPoly res1.Qo (res1.DomainNum.Generator ^ 0))
        (evalPoly res1.Qk (res1.DomainNum.Generator ^ 0)) 2 3 5 = 0) := by
  have hrow : ∀ i c, spr.rows[i]? = some c →
      i < nextPowerOfTwo (spr.Constraints.length + spr.Assertions.length) := by
    intro i c hc
    obtain ⟨k, hk, hle, _⟩ :=
      nextPowerOfTwo_spec (spr.Constraints.length + spr.Assertions.length)
    have := (List.getElem?_eq_some.mp hc).1
    rw [rows_length] at this
    omega
  obtain ⟨q, hq, htr, hall⟩ := Setup_evals root spr polynomialCommitment hroot res h
  refine ⟨?_, ⟨q, hq, htr, ?_⟩, ?_⟩
  · intro i c hc l r o
    obtain ⟨⟨e1, e2, e3, e4, e5⟩, g1, g2, g3, g4, g5⟩ := hall i (hrow i c hc)
    rw [e1, e2, e3, e4, e5, g1, g2, g3, g4, g5]
    simp only [columnAt, hc, gateExpression, SparseR1C.holds, SparseR1C.qL, SparseR1C.qR,
      SparseR1C.qM, SparseR1C.qO, SparseR1C.qK]
    constructor
    · intro h
      linear_combination h
    · intro h
      linear_combination h
  · intro i c hc
    obtain ⟨⟨e1, e2, e3, e4, e5⟩, _⟩ := hall i (hrow i c hc)
    exact ⟨e1.symm, e2.symm, e3.symm, e4.symm, e5.symm⟩
  · have hN : nextPowerOfTwo
        ((additionCircuit F).Constraints.length + (additionCircuit F).Assertions.length) = 1 :=
      rfl
    have hone : (additionCircuit F).Constraints.length + (additionCircuit F).Assertions.length
        ≤ nextPowerOfTwo
          ((additionCircuit F).Constraints.length + (additionCircuit F).Assertions.length) := by
      rw [hN]
      exact Nat.le_refl 1
    obtain ⟨q, hq, _⟩ := selectorRows_spec (additionCircuit F) _ hone (by
        intro c hc
        simp only [SparseR1CS.rows, additionCircuit, List.append_nil, List.mem_singleton] at hc
        subst hc
        have hlen : (additionCircuit F).Coefficients.length = 3 := rfl
        simp [SparseR1C.coeffsBelow, hlen])
    have hnb : (additionCircuit F).nbVariables = 3 := rfl
    have hlro : lroOf (additionCircuit F) 1 = [0, 1, 2] := rfl
    obtain ⟨s, hs1, _, _⟩ := buildPermutation_spec (additionCircuit F) 1 (Nat.le_refl 1)
      (by
        intro pos hpos
        rw [hnb]
        interval_cases pos
        · exact (by decide : (0 : Nat) < 3)
        · exact (by decide : (1 : Nat) < 3)
        · exact (by decide : (2 : Nat) < 3))
      (by rw [hlro, hnb]; decide)
    have hs : buildPermutation (additionCircuit F)
        (nextPowerOfTwo
          ((additionCircuit F).Constraints.length + (additionCircuit F).Assertions.length))
        = some s := by
      rw [hN]
      exact hs1
    have hres := Setup_of_some (fun _ => (1 : F)) (additionCircuit F) () q _ hq hs
    have hroot1 : IsPrimitiveRoot ((fun _ => (1 : F)) (nextPowerOfTwo
        ((additionCircuit F).Constraints.length + (additionCircuit F).Assertions.length)))
        (nextPowerOfTwo
          ((additionCircuit F).Constraints.length + (additionCircuit F).Assertions.length)) := by
      rw [hN]
      exact IsPrimitiveRoot.one
    obtain ⟨q0, _, _, hall0⟩ :=
      Setup_evals (fun _ => (1 : F)) (additionCircuit F) () hroot1 _ hres
    obtain ⟨⟨d1, d2, d3, d4, d5⟩, g1, g2, g3, g4, g5⟩ := hall0 0 (by rw [hN]; decide)
    rw [← d1] at g1
    rw [← d2] at g2
    rw [← d3] at g3
    rw [← d4] at g4
    rw [← d5] at g5
    have e1 : columnAt (SparseR1C.qL (additionCircuit F).Coefficients) (additionCircuit F).rows 0
        = 1 := rfl
    have e2 : columnAt (SparseR1C.qR (additionCircuit F).Coefficients) (additionCircuit F).rows 0
        = 1 := rfl
    have e3 : columnAt (SparseR1C.qM (additionCircuit F).Coefficients) (additionCircuit F).rows 0
        = 0 * 0 := rfl
    have e4 : columnAt (SparseR1C.qO (additionCircuit F).Coefficients) (additionCircuit F).rows 0
        = -1 := rfl
    have e5 : columnAt (SparseR1C.qK (additionCircuit F).Coefficients) (additionCircuit F).rows 0
        = 0 := rfl
    rw [e1] at g1
    rw [e2] at g2
    rw [e3, mul_zero] at g3
    rw [e4] at g4
    rw [e5] at g5
    refine ⟨_, hres, g1, g2, g3, g4, g5, ?_⟩
    rw [g1, g2, g3, g4, g5, gateExpression]
    norm_num

theorem Setup_gate_expression_witness :
    ∃ res, Setup exampleRoot exampleCircuit () = some res ∧
      ∀ i c, exampleCircuit.rows[i]? = some c → ∀ l r o : ZMod 17,
        (gateExpression (evalPoly res.Ql (res.DomainNum.Generator ^ i))
            (evalPoly res.Qr (res.DomainNum.Generator ^ i))
            (evalPoly res.Qm (res.DomainNum.Generator ^ i))
            (evalPoly res.Qo (res.DomainNum.Generator ^ i))
            (evalPoly res.Qk (res.DomainNum.Generator ^ i)) l r o = 0 ↔
          c.holds exampleCircuit.Coefficients l r o) := by
  obtain ⟨q, hq, _⟩ := selectorRows_spec exampleCircuit
    (nextPowerOfTwo (exampleCircuit.Constraints.length + exampleCircuit.Assertions.length))
    (by decide) (by decide)
  have hs : buildPermutation exampleCircuit
      (nextPowerOfTwo (exampleCircuit.Constraints.length + exampleCircuit.Assertions.length))
      = some [5, 10, 9, 11, 4, 0, 3, 6, 1, 2, 8, 7] := by decide
  have hres := Setup_of_some exampleRoot exampleCircuit () q _ hq hs
  exact ⟨_, hres,
    (Setup_gate_expression exampleRoot exampleCircuit () exampleRoot_primitive _ hres).1⟩

theorem handled_false (vis : Visibility) : handled false vis = true := by
  simp [handled]

theorem handled_true (vis : Visibility) :
    handled true vis = true ↔ vis = Visibility.Public := by
  cases vis <;> simp [handled]

/-- A leaf with a field element has a value that converts to it. -/
theorem leafElement_of_ok {V F E : Type} (SetInterface : V → Conversion E F) (l : Leaf V)
    (h : leafElement SetInterface l ≠ none) :
    ∃ v x, l.tInput = some v ∧ SetInterface v = Conversion.ok x ∧
      leafElement SetInterface l = some x := by
  cases hv : l.tInput with
  | none => simp [leafElement, hv] at h
  | some v =>
    cases hs : SetInterface v with
    | ok x => exact ⟨v, x, rfl, hs, by simp [leafElement, hv, hs]⟩
    | error err => simp [leafElement, hv, hs] at h
    | panic => simp [leafElement, hv, hs] at h

/-- The handler skips a leaf that is not handled. -/
theorem collectHandler_skip {V F E : Type} (SetInterface : V → Conversion E F)
    (publicOnly : Bool) (l : Leaf V) (st : CollectState F)
    (h : handled publicOnly l.visibility = false) :
    collectHandler SetInterface publicOnly l.visibility l.name l.tInput st =
      some { tInput := l.tInput, state := st, err := none } := by
  cases publicOnly <;> cases hv : l.visibility <;> simp [handled, hv] at h ⊢
  simp [collectHandler]

/-- The handler stores the field element of a secret leaf in slot `i`. -/
theorem collectHandler_secret {V F E : Type} (SetInterface : V → Conversion E F)
    (l : Leaf V) (st : CollectState F) (x : F) (hvis : l.visibility = Visibility.Secret)
    (hx : leafElement SetInterface l = some x) (hi : st.i < st.witness.length) :
    collectHandler SetInterface false l.visibility l.name l.tInput st =
      some { tInput := l.tInput,
             state := { st with witness := st.witness.set st.i x, i := st.i + 1 },
             err := none } := by
  cases hv : l.tInput with
  | none => simp [leafElement, hv] at hx
  | some v =>
    cases hs : SetInterface v with
    | error err => simp [leafElement, hv, hs] at hx
    | panic => simp [leafElement, hv, hs] at hx
    | ok y =>
      simp only [leafElement, hv, hs, Option.some.injEq] at hx
      subst hx
      simp [collectHandler, hvis, hs, hi]

/-- The handler stores the field element of a public leaf in slot `j`. -/
theorem collectHandler_public {V F E : Type} (SetInterface : V → Conversion E F)
    (publicOnly : Bool) (l : Leaf V) (st : CollectState F) (x : F)
    (hvis : l.visibility = Visibility.Public)
    (hx : leafElement SetInterface l = some x) (hj : st.j < st.witness.length) :
    collectHandler SetInterface publicOnly l.visibility l.name l.tInput st =
      some { tInput := l.tInput,
             state := { st with witness := st.witness.set st.j x, j := st.j + 1 },
             err := none } := by
  cases hv : l.tInput with
  | none => simp [leafElement, hv] at hx
  | some v =>
    cases hs : SetInterface v with
    | error err => simp [leafElement, hv, hs] at hx
    | panic => simp [leafElement, hv, hs] at hx
    | ok y =>
      simp only [leafElement, hv, hs, Option.some.injEq] at hx
      subst hx
      cases publicOnly <;> simp [collectHandler, hvis, hs, hj]

theorem Parse_nil {V S X : Type}
    (handler : Visibility → String → Option V → S → Option (Visit V S X)) (st : S) :
    Parse handler [] st = some { leaves := [], state := st, err := none } := rfl

/-- One step of `Parse` at a leaf on which the handler returns no error. -/
theorem Parse_cons_ok {V S X : Type}
    (handler : Visibility → String → Option V → S → Option (Visit V S X)) (l : Leaf V)
    (rest : List (Leaf V)) (st : S) (r : Visit V S X)
    (h : handler l.visibility l.name l.tInput st = some r) (he : r.err = none) :
    Parse handler (l :: rest) st =
      match Parse handler rest r.state with
      | none => none
      | some w => some { w with leaves := { l with tInput := r.tInput } :: w.leaves } := by
  rw [Parse, h]
  simp only [he]

/-- One step of `Parse` at a leaf on which the handler returns an error. -/
theorem Parse_cons_error {V S X : Type}
    (handler : Visibility → String → Option V → S → Option (Visit V S X)) (l : Leaf V)
    (rest : List (Leaf V)) (st : S) (r : Visit V S X) (e : X)
    (h : handler l.visibility l.name l.tInput st = some r) (he : r.err = some e) :
    Parse handler (l :: rest) st =
      some { leaves := { l with tInput := r.tInput } :: rest, state := r.state,
             err := some e } := by
  rw [Parse, h]
  simp only [he]

theorem valuesOf_cons_same {V F E : Type} (SetInterface : V → Conversion E F) (vis : Visibility)
    (l : Leaf V) (rest : List (Leaf V)) (x : F) (hvis : l.visibility = vis)
    (hx : leafElement SetInterface l = some x) :
    valuesOf SetInterface vis (l :: rest) = x :: valuesOf SetInterface vis rest := by
  simp [valuesOf, hvis, hx]

theorem valuesOf_cons_other {V F E : Type} (SetInterface : V → Conversion E F) (vis : Visibility)
    (l : Leaf V) (rest : List (Leaf V)) (hvis : l.visibility ≠ vis) :
    valuesOf SetInterface vis (l :: rest) = valuesOf SetInterface vis rest := by
  simp [valuesOf, hvis]

/-- The walk of `FromAssignment` over leaves of which the handled ones have a field element:
with the slots of the public leaves at `pr` and those of the secret leaves at `sr`, it stores
the elements of the public leaves from slot `j` on and those of the secret leaves from slot
`i` on, and returns no error. -/
theorem Parse_collect_ok {V F E : Type} (SetInterface : V → Conversion E F) (publicOnly : Bool) :
    ∀ (a : List (Leaf V)) (pd pr sd sr : List F) (st : CollectState F),
      (∀ l, l ∈ a → handled publicOnly l.visibility = true → leafElement SetInterface l ≠ none) →
      (valuesOf SetInterface Visibility.Public a).length ≤ pr.length →
      (secretValues SetInterface publicOnly a).length ≤ sr.length →
      st.witness = pd ++ pr ++ sd ++ sr → st.i = (pd ++ pr ++ sd).length → st.j = pd.length →
      ∃ w, Parse (collectHandler SetInterface publicOnly) a st = some w ∧ w.leaves = a ∧
        w.err = none ∧
        w.state.witness = pd ++ valuesOf SetInterface Visibility.Public a
          ++ pr.drop (valuesOf SetInterface Visibility.Public a).length ++ sd
          ++ secretValues SetInterface publicOnly a
          ++ sr.drop (secretValues SetInterface publicOnly a).length ∧
        w.state.i = (pd ++ pr ++ sd).length + (secretValues SetInterface publicOnly a).length ∧
        w.state.j = pd.length + (valuesOf SetInterface Visibility.Public a).length := by
  intro a
  induction a with
  | nil =>
    intro pd pr sd sr st _ _ _ hw hi hj
    refine ⟨_, Parse_nil _ st, rfl, rfl, ?_, ?_, ?_⟩
    · cases publicOnly <;> simp [valuesOf, secretValues, hw]
    · cases publicOnly <;> simp [valuesOf, secretValues, hi]
    · simp [valuesOf, hj]
  | cons l rest ih =>
    intro pd pr sd sr st hok hpr hsr hw hi hj
    have hrest : ∀ l', l' ∈ rest → handled publicOnly l'.visibility = true →
        leafElement SetInterface l' ≠ none :=
      fun l' hl' => hok l' (List.mem_cons_of_mem _ hl')
    cases hh : handled publicOnly l.visibility with
    | false =>
      have hpo : publicOnly = true ∧ l.visibility = Visibility.Secret := by
        cases publicOnly <;> cases hv : l.visibility <;> simp [handled, hv] at hh ⊢
      obtain ⟨hpo, hvis⟩ := hpo
      subst hpo
      have hp : valuesOf SetInterface Visibility.Public (l :: rest) =
          valuesOf SetInterface Visibility.Public rest :=
        valuesOf_cons_other _ _ _ _ (by rw [hvis]; decide)
      have hs : ∀ b : List (Leaf V), secretValues SetInterface true b = [] := fun b => rfl
      rw [hp] at hpr ⊢
      rw [hs] at hsr ⊢
      obtain ⟨w, hP, hl, he, hww, hwi, hwj⟩ :=
        ih pd pr sd sr st hrest hpr (by rw [hs]; exact hsr) hw hi hj
      rw [hs] at hww hwi
      rw [Parse_cons_ok _ l rest st _ (collectHandler_skip SetInterface true l st hh) rfl, hP]
      exact ⟨_, rfl, by simp [hl], he, hww, hwi, hwj⟩
    | true =>
      obtain ⟨v, x, _, _, hx⟩ := leafElement_of_ok SetInterface l (hok l (List.mem_cons_self _ _) hh)
      cases hvis : l.visibility with
      | Public =>
        have hp : valuesOf SetInterface Visibility.Public (l :: rest) =
            x :: valuesOf SetInterface Visibility.Public rest :=
          valuesOf_cons_same _ _ _ _ x hvis hx
        have hs : secretValues SetInterface publicOnly (l :: rest) =
            secretValues SetInterface publicOnly rest := by
          unfold secretValues
          rw [valuesOf_cons_other _ _ _ _ (by rw [hvis]; decide)]
        rw [hp] at hpr ⊢
        rw [hs] at hsr ⊢
        cases pr with
        | nil => simp at hpr
        | cons p pr1 =>
          simp only [List.length_cons, Nat.add_le_add_iff_right] at hpr
          have hjlt : st.j < st.witness.length := by
            rw [hj, hw]; simp
          have hset : st.witness.set st.j x = (pd ++ [x]) ++ pr1 ++ sd ++ sr := by
            rw [hw, hj, List.append_assoc, List.append_assoc,
              List.set_append_right _ _ (Nat.le_refl _)]
            simp
          obtain ⟨w, hP, hl, he, hww, hwi, hwj⟩ :=
            ih (pd ++ [x]) pr1 sd sr { st with witness := st.witness.set st.j x, j := st.j + 1 }
              hrest hpr hsr hset (by simp [hi]) (by simp [hj])
          rw [Parse_cons_ok _ l rest st _
            (collectHandler_public SetInterface publicOnly l st x hvis hx hjlt) rfl, hP]
          refine ⟨_, rfl, by simp [hl], he, ?_, ?_, ?_⟩
          · simp only [hww]; simp
          · simp only [hwi]; simp
          · simp only [hwj]; simp; omega
      | Secret =>
        have hpo : publicOnly = false := by
          cases publicOnly
          · rfl
          · simp [handled, hvis] at hh
        subst hpo
        have hp : valuesOf SetInterface Visibility.Public (l :: rest) =
            valuesOf SetInterface Visibility.Public rest :=
          valuesOf_cons_other _ _ _ _ (by rw [hvis]; decide)
        have hs : secretValues SetInterface false (l :: rest) =
            x :: secretValues SetInterface false rest := by
          unfold secretValues
          simp only [Bool.false_eq_true, if_false]
          exact valuesOf_cons_same _ _ _ _ x hvis hx
        rw [hp] at hpr ⊢
        rw [hs] at hsr ⊢
        cases sr with
        | nil => simp at hsr
        | cons s sr1 =>
          simp only [List.length_cons, Nat.add_le_add_iff_right] at hsr
          have hilt : st.i < st.witness.length := by
            rw [hi, hw]; simp
          have hset : st.witness.set st.i x = pd ++ pr ++ (sd ++ [x]) ++ sr1 := by
            rw [hw, hi, List.set_append_right _ _ (Nat.le_refl _)]
            simp
          obtain ⟨w, hP, hl, he, hww, hwi, hwj⟩ :=
            ih pd pr (sd ++ [x]) sr1 { st with witness := st.witness.set st.i x, i := st.i + 1 }
              hrest hpr hsr hset (by simp [hi]; omega) (by simp [hj])
          rw [Parse_cons_ok _ l rest st _
            (collectHandler_secret SetInterface l st x hvis hx hilt) rfl, hP]
          refine ⟨_, rfl, by simp [hl], he, ?_, ?_, ?_⟩
          · simp only [hww]; simp
          · simp only [hwi]; simp; omega
          · simp only [hwj]

/-- The field elements of the leaves of a visibility are the elements of the leaves of that
visibility, in their order. -/
theorem valuesOf_eq_filterMap {V F E : Type} (SetInterface : V → Conversion E F)
    (vis : Visibility) (a : List (Leaf V)) :
    valuesOf SetInterface vis a =
      (a.filter (fun l => l.visibility == vis)).filterMap (leafElement SetInterface) := by
  induction a with
  | nil => rfl
  | cons l rest ih =>
    by_cases hvis : l.visibility = vis
    · cases hx : leafElement SetInterface l with
      | none => simp [valuesOf, hvis, hx, ih, List.filterMap_cons]
      | some x => simp [valuesOf, hvis, hx, ih, List.filterMap_cons]
    · simp [valuesOf, hvis, ih]

theorem valuesOf_length_le {V F E : Type} (SetInterface : V → Conversion E F)
    (vis : Visibility) (a : List (Leaf V)) :
    (valuesOf SetInterface vis a).length ≤ a.countP (fun l => l.visibility == vis) := by
  rw [valuesOf_eq_filterMap, List.countP_eq_length_filter]
  exact List.length_filterMap_le _ _

/-- Leaves that all have a field element give as many elements as there are leaves. -/
theorem valuesOf_length {V F E : Type} (SetInterface : V → Conversion E F)
    (vis : Visibility) (a : List (Leaf V))
    (hok : ∀ l, l ∈ a → l.visibility = vis → leafElement SetInterface l ≠ none) :
    (valuesOf SetInterface vis a).length = a.countP (fun l => l.visibility == vis) := by
  induction a with
  | nil => rfl
  | cons l rest ih =>
    have ih1 := ih (fun l' hl' => hok l' (List.mem_cons_of_mem _ hl'))
    by_cases hvis : l.visibility = vis
    · obtain ⟨_, x, _, _, hx⟩ :=
        leafElement_of_ok SetInterface l (hok l (List.mem_cons_self _ _) hvis)
      rw [valuesOf_cons_same _ _ _ _ x hvis hx, List.countP_cons]
      simp [hvis, ih1]
    · rw [valuesOf_cons_other _ _ _ _ hvis, List.countP_cons]
      simp [hvis, ih1]

theorem collectStart_length {V F : Type} (zero : F) (witness : Witness F)
    (a : List (Leaf V)) (publicOnly : Bool) :
    (collectStart zero witness (schemaOf a) publicOnly).witness.length =
      (schemaOf a).NbPublic + (if publicOnly then 0 else (schemaOf a).NbSecret) := by
  cases publicOnly
  · simp only [collectStart, Bool.false_eq_true, if_false]
    split
    · simp
    · rw [List.length_take]
      omega
  · simp only [collectStart, if_true, Nat.add_zero]
    split
    · simp
    · rw [List.length_take]
      omega

theorem collectStart_i {V F : Type} (zero : F) (witness : Witness F)
    (a : List (Leaf V)) (publicOnly : Bool) :
    (collectStart zero witness (schemaOf a) publicOnly).i = (schemaOf a).NbPublic := rfl

theorem collectStart_j {V F : Type} (zero : F) (witness : Witness F)
    (a : List (Leaf V)) (publicOnly : Bool) :
    (collectStart zero witness (schemaOf a) publicOnly).j = 0 := rfl

theorem secretValues_length_le {V F E : Type} (SetInterface : V → Conversion E F)
    (publicOnly : Bool) (a : List (Leaf V)) :
    (secretValues SetInterface publicOnly a).length ≤
      if publicOnly then 0 else a.countP (fun l => l.visibility == Visibility.Secret) := by
  cases publicOnly
  · exact valuesOf_length_le SetInterface Visibility.Secret a
  · simp [secretValues]

/-- The walk of `FromAssignment` over a front part of the assignment whose handled leaves
have a field element: the state it reaches from the start. -/
theorem Parse_collect_front {V F E : Type} (SetInterface : V → Conversion E F) (zero : F)
    (witness : Witness F) (publicOnly : Bool) (front tail : List (Leaf V))
    (hok : ∀ l, l ∈ front → handled publicOnly l.visibility = true →
      leafElement SetInterface l ≠ none) :
    ∃ w, Parse (collectHandler SetInterface publicOnly) front
        (collectStart zero witness (schemaOf (front ++ tail)) publicOnly) = some w ∧
      w.leaves = front ∧ w.err = none ∧
      w.state.witness = valuesOf SetInterface Visibility.Public front
        ++ (((collectStart zero witness (schemaOf (front ++ tail)) publicOnly).witness.take
            (schemaOf (front ++ tail)).NbPublic).drop
              (valuesOf SetInterface Visibility.Public front).length)
        ++ secretValues SetInterface publicOnly front
        ++ (((collectStart zero witness (schemaOf (front ++ tail)) publicOnly).witness.drop
            (schemaOf (front ++ tail)).NbPublic).drop
              (secretValues SetInterface publicOnly front).length) ∧
      w.state.i = (schemaOf (front ++ tail)).NbPublic
        + (secretValues SetInterface publicOnly front).length ∧
      w.state.j = (valuesOf SetInterface Visibility.Public front).length := by
  have hlen := collectStart_length zero witness (front ++ tail) publicOnly
  have hp := valuesOf_length_le SetInterface Visibility.Public front
  have hs := secretValues_length_le SetInterface publicOnly front
  have hcp : (schemaOf (front ++ tail)).NbPublic =
      front.countP (fun l => l.visibility == Visibility.Public)
        + tail.countP (fun l => l.visibility == Visibility.Public) := by
    simp [schemaOf, List.countP_append]
  have hcs : (schemaOf (front ++ tail)).NbSecret =
      front.countP (fun l => l.visibility == Visibility.Secret)
        + tail.countP (fun l => l.visibility == Visibility.Secret) := by
    simp [schemaOf, List.countP_append]
  have htake : ((collectStart zero witness (schemaOf (front ++ tail)) publicOnly).witness.take
      (schemaOf (front ++ tail)).NbPublic).length = (schemaOf (front ++ tail)).NbPublic := by
    rw [List.length_take, hlen]; omega
  have hdrop : ((collectStart zero witness (schemaOf (front ++ tail)) publicOnly).witness.drop
      (schemaOf (front ++ tail)).NbPublic).length =
        if publicOnly then 0 else (schemaOf (front ++ tail)).NbSecret := by
    rw [List.length_drop, hlen]; omega
  have hs1 : (secretValues SetInterface publicOnly front).length ≤
      if publicOnly then 0 else (schemaOf (front ++ tail)).NbSecret := by
    cases publicOnly
    · simp only [Bool.false_eq_true, if_false] at hs ⊢
      omega
    · exact hs
  obtain ⟨w, hP, hl, he, hww, hwi, hwj⟩ :=
    Parse_collect_ok SetInterface publicOnly front []
      ((collectStart zero witness (schemaOf (front ++ tail)) publicOnly).witness.take
        (schemaOf (front ++ tail)).NbPublic) []
      ((collectStart zero witness (schemaOf (front ++ tail)) publicOnly).witness.drop
        (schemaOf (front ++ tail)).NbPublic)
      (collectStart zero witness (schemaOf (front ++ tail)) publicOnly) hok
      (by rw [htake]; omega)
      (by rw [hdrop]; exact hs1)
      (by simp)
      (by simp only [List.nil_append, List.append_nil, htake]; rfl)
      rfl
  refine ⟨w, hP, hl, he, ?_, ?_, ?_⟩
  · simpa using hww
  · simp only [List.nil_append, List.append_nil, htake] at hwi
    exact hwi
  · simpa using hwj

/-- On an assignment whose handled leaves all have a field element `FromAssignment` returns
the schema and leaves the elements of the public leaves followed by those of the secret
leaves in the witness. -/
theorem FromAssignment_good {V F E : Type} (SetInterface : V → Conversion E F) (zero : F)
    (witness : Witness F) (a : List (Leaf V)) (publicOnly : Bool)
    (hok : ∀ l, l ∈ a → handled publicOnly l.visibility = true →
      leafElement SetInterface l ≠ none) :
    FromAssignment SetInterface none zero witness a publicOnly =
      some { witness := valuesOf SetInterface Visibility.Public a
               ++ secretValues SetInterface publicOnly a
             schema := some (schemaOf a)
             err := none } := by
  obtain ⟨w, hP, _, he, hww, _, _⟩ :=
    Parse_collect_front SetInterface zero witness publicOnly a [] hok
  rw [List.append_nil] at hP hww
  have hlen := collectStart_length zero witness a publicOnly
  have hp : (valuesOf SetInterface Visibility.Public a).length = (schemaOf a).NbPublic :=
    valuesOf_length SetInterface Visibility.Public a
      (fun l hl hvis => hok l hl (by cases publicOnly <;> simp [handled, hvis]))
  have hs : (secretValues SetInterface publicOnly a).length =
      if publicOnly then 0 else (schemaOf a).NbSecret := by
    cases publicOnly
    · exact valuesOf_length SetInterface Visibility.Secret a
        (fun l hl _ => hok l hl (handled_false _))
    · rfl
  have h1 : ((collectStart zero witness (schemaOf a) publicOnly).witness.take (schemaOf a).NbPublic).drop
      (valuesOf SetInterface Visibility.Public a).length = [] :=
    List.drop_eq_nil_of_le (by rw [List.length_take, hp]; omega)
  have h2 : ((collectStart zero witness (schemaOf a) publicOnly).witness.drop (schemaOf a).NbPublic).drop
      (secretValues SetInterface publicOnly a).length = [] :=
    List.drop_eq_nil_of_le (by rw [List.length_drop, hlen, hs]; omega)
  rw [h1, h2, List.append_nil, List.append_nil] at hww
  simp only [FromAssignment, ParseSchema, hP, he, hww, Option.isNone_none, if_true]

/-- Two assignments of the same schema have the same schema counts. -/
theorem schemaOf_of_shape {V : Type} :
    ∀ (a b : List (Leaf V)), shape b = shape a → schemaOf b = schemaOf a := by
  intro a
  induction a with
  | nil =>
    intro b h
    cases b with
    | nil => rfl
    | cons lb b1 => simp [shape] at h
  | cons la a1 ih =>
    intro b h
    cases b with
    | nil => simp [shape] at h
    | cons lb b1 =>
      simp only [shape, List.map_cons, List.cons.injEq, Prod.mk.injEq] at h
      have h1 := ih b1 h.2
      simp only [schemaOf, Schema.mk.injEq] at h1 ⊢
      rw [List.countP_cons, List.countP_cons, List.countP_cons, List.countP_cons, h1.1, h1.2,
        h.1.1]
      exact ⟨rfl, rfl⟩

/-- The walk of `ToAssignment` with `setHandler(v)` over leaves for which the witness has
slots from `i` on: every leaf of visibility `v` receives the next slot. -/
theorem Parse_set {V F : Type} (setAddr : Bool) (addrOf valueOf : F → V) (w : Witness F)
    (v : Visibility) :
    ∀ (b : List (Leaf V)) (i : Nat),
      i + b.countP (fun l => l.visibility == v) ≤ w.length →
      Parse (setHandler setAddr addrOf valueOf w v) b i =
        some { leaves := fillFrom (fun x => if setAddr then addrOf x else valueOf x) v
                 (w.drop i) b
               state := i + b.countP (fun l => l.visibility == v)
               err := none } := by
  intro b
  induction b with
  | nil => intro i _; rw [Parse_nil]; simp [fillFrom]
  | cons l rest ih =>
    intro i hlen
    by_cases hvis : l.visibility = v
    · have hc : (l :: rest).countP (fun l => l.visibility == v) =
          rest.countP (fun l => l.visibility == v) + 1 := by
        rw [List.countP_cons]; simp [hvis]
      rw [hc] at hlen ⊢
      have hi : i < w.length := by omega
      have hh : setHandler setAddr addrOf valueOf w v l.visibility l.name l.tInput i =
          some { tInput := some (if setAddr then addrOf w[i] else valueOf w[i]),
                 state := i + 1, err := none } := by
        simp [setHandler, hvis, List.getElem?_eq_getElem hi]
      rw [Parse_cons_ok _ l rest i _ hh rfl, ih (i + 1) (by omega),
        List.drop_eq_getElem_cons hi]
      simp only [fillFrom, hvis, if_true, Option.some.injEq, Walk.mk.injEq, and_true, true_and]
      omega
    · have hc : (l :: rest).countP (fun l => l.visibility == v) =
          rest.countP (fun l => l.visibility == v) := by
        rw [List.countP_cons]; simp [hvis]
      rw [hc] at hlen ⊢
      have hh : setHandler setAddr addrOf valueOf w v l.visibility l.name l.tInput i =
          some { tInput := l.tInput, state := i, err := none } := by
        simp [setHandler, hvis]
      rw [Parse_cons_ok _ l rest i _ hh rfl, ih i hlen]
      simp only [fillFrom, hvis, if_false]

/-- Filling the leaves of one visibility of `b` from the elements of the leaves of that
visibility of `a`, an assignment of the same schema. -/
theorem fillFrom_values {V F E : Type} (SetInterface : V → Conversion E F) (inject : F → V)
    (v : Visibility) :
    ∀ (a b : List (Leaf V)) (rest : List F), shape b = shape a →
      (∀ l, l ∈ a → l.visibility = v → leafElement SetInterface l ≠ none) →
      fillFrom inject v (valuesOf SetInterface v a ++ rest) b =
        List.zipWith (fun la lb =>
          if lb.visibility = v then assignLeaf SetInterface inject la lb else lb) a b := by
  intro a
  induction a with
  | nil =>
    intro b rest h _
    cases b with
    | nil => simp [fillFrom]
    | cons lb b1 => simp [shape] at h
  | cons la a1 ih =>
    intro b rest h hok
    cases b with
    | nil => simp [shape] at h
    | cons lb b1 =>
      simp only [shape, List.map_cons, List.cons.injEq, Prod.mk.injEq] at h
      have ih1 := fun rest => ih b1 rest h.2 (fun l hl => hok l (List.mem_cons_of_mem _ hl))
      by_cases hvis : lb.visibility = v
      · have hva : la.visibility = v := by rw [← h.1.1]; exact hvis
        obtain ⟨_, x, _, _, hx⟩ :=
          leafElement_of_ok SetInterface la (hok la (List.mem_cons_self _ _) hva)
        rw [valuesOf_cons_same _ _ _ _ x hva hx]
        simp only [List.cons_append, fillFrom, hvis, if_true, List.zipWith_cons_cons, ih1,
          assignLeaf, hx, Option.map_some']
      · have hva : la.visibility ≠ v := by rw [← h.1.1]; exact hvis
        rw [valuesOf_cons_other _ _ _ _ hva]
        simp only [fillFrom, hvis, if_false, List.zipWith_cons_cons, ih1]

/-- Filling the public and then the secret leaves of `b` from the elements of `a`, an
assignment of the same schema, gives every leaf of `b` the element of its leaf of `a`. -/
theorem fillFrom_both {V F E : Type} (SetInterface : V → Conversion E F) (inject : F → V) :
    ∀ (a b : List (Leaf V)) (rest1 rest2 : List F), shape b = shape a →
      (∀ l, l ∈ a → leafElement SetInterface l ≠ none) →
      fillFrom inject Visibility.Secret (valuesOf SetInterface Visibility.Secret a ++ rest2)
        (fillFrom inject Visibility.Public (valuesOf SetInterface Visibility.Public a ++ rest1)
          b) =
        List.zipWith (assignLeaf SetInterface inject) a b := by
  intro a
  induction a with
  | nil =>
    intro b rest1 rest2 h _
    cases b with
    | nil => simp [fillFrom]
    | cons lb b1 => simp [shape] at h
  | cons la a1 ih =>
    intro b rest1 rest2 h hok
    cases b with
    | nil => simp [shape] at h
    | cons lb b1 =>
      simp only [shape, List.map_cons, List.cons.injEq, Prod.mk.injEq] at h
      have ih1 := fun rest1 rest2 =>
        ih b1 rest1 rest2 h.2 (fun l hl => hok l (List.mem_cons_of_mem _ hl))
      obtain ⟨_, x, _, _, hx⟩ :=
        leafElement_of_ok SetInterface la (hok la (List.mem_cons_self _ _))
      cases hvb : lb.visibility with
      | Public =>
        have hva : la.visibility = Visibility.Public := by rw [← h.1.1]; exact hvb
        rw [valuesOf_cons_same _ _ _ _ x hva hx,
          valuesOf_cons_other _ _ _ _ (by rw [hva]; decide)]
        simp [fillFrom, hvb, ih1, assignLeaf, hx]
      | Secret =>
        have hva : la.visibility = Visibility.Secret := by rw [← h.1.1]; exact hvb
        rw [valuesOf_cons_same _ _ _ _ x hva hx,
          valuesOf_cons_other _ _ _ _ (by rw [hva]; decide)]
        simp [fillFrom, hvb, ih1, assignLeaf, hx]

/-- Filling leaves keeps their number, their visibilities and their names. -/
theorem fillFrom_shape {V F : Type} (inject : F → V) (v : Visibility) :
    ∀ (b : List (Leaf V)) (xs : List F), shape (fillFrom inject v xs b) = shape b := by
  intro b
  induction b with
  | nil => intro xs; simp [fillFrom]
  | cons l rest ih =>
    intro xs
    by_cases hvis : l.visibility = v
    · cases xs with
      | nil => simp [fillFrom, hvis]
      | cons x xs1 =>
        have := ih xs1
        simp only [shape] at this
        simp [fillFrom, hvis, shape, this]
    · have := ih xs
      simp only [shape] at this
      simp [fillFrom, hvis, shape, this]

/-! ## The contract of `FromAssignment` and `ToAssignment` -/

/-- C12: on an assignment (one the walker accepts, given as its list of leaves) whose leaves,
in `publicOnly` mode whose public leaves, all have a value that converts to a field element,
and whatever the witness held, `FromAssignment` returns no error and
leaves a witness of length `nbPublic+nbSecret` whose first `nbPublic` slots are the field
elements of the public leaves and whose other slots are those of the secret leaves, each in
the order of the walk; in `publicOnly` mode the witness has length `nbPublic` and holds the
elements of the public leaves only. -/
theorem FromAssignment_fills {V F E : Type} (SetInterface : V → Conversion E F) (zero : F)
    (witness : Witness F) (a : List (Leaf V)) (publicOnly : Bool)
    (hok : ∀ l, l ∈ a → handled publicOnly l.visibility = true →
      leafElement SetInterface l ≠ none) :
    ∃ r, FromAssignment SetInterface none zero witness a publicOnly = some r ∧
      r.err = none ∧ r.schema = some (schemaOf a) ∧
      r.witness.length = (schemaOf a).NbPublic
        + (if publicOnly then 0 else (schemaOf a).NbSecret) ∧
      r.witness.take (schemaOf a).NbPublic = valuesOf SetInterface Visibility.Public a ∧
      r.witness.drop (schemaOf a).NbPublic =
        (if publicOnly then [] else valuesOf SetInterface Visibility.Secret a) ∧
      (valuesOf SetInterface Visibility.Public a).length = (schemaOf a).NbPublic ∧
      (publicOnly = false →
        (valuesOf SetInterface Visibility.Secret a).length = (schemaOf a).NbSecret) ∧
      (∀ (k : Nat) (x : F), (valuesOf SetInterface Visibility.Public a)[k]? = some x →
        r.witness[k]? = some x) ∧
      (publicOnly = false → ∀ (k : Nat) (x : F),
        (valuesOf SetInterface Visibility.Secret a)[k]? = some x →
        r.witness[(schemaOf a).NbPublic + k]? = some x) := by
  have hp : (valuesOf SetInterface Visibility.Public a).length = (schemaOf a).NbPublic :=
    valuesOf_length SetInterface Visibility.Public a
      (fun l hl hvis => hok l hl (by cases publicOnly <;> simp [handled, hvis]))
  have hs : publicOnly = false →
      (valuesOf SetInterface Visibility.Secret a).length = (schemaOf a).NbSecret := by
    intro hpo
    subst hpo
    exact valuesOf_length SetInterface Visibility.Secret a
      (fun l hl _ => hok l hl (handled_false _))
  have hsv : secretValues SetInterface publicOnly a =
      if publicOnly then [] else valuesOf SetInterface Visibility.Secret a := rfl
  refine ⟨_, FromAssignment_good SetInterface zero witness a publicOnly hok, rfl, rfl, ?_, ?_,
    ?_, hp, hs, ?_, ?_⟩
  · simp only [List.length_append, hp, hsv]
    cases publicOnly
    · simp [hs rfl]
    · simp
  · simp only
    rw [← hp, List.take_left]
  · simp only
    rw [← hp, List.drop_left, hsv]
  · intro k x hk
    have hlt : k < (valuesOf SetInterface Visibility.Public a).length :=
      (List.getElem?_eq_some.mp hk).1
    simp only
    rw [List.getElem?_append_left hlt]
    exact hk
  · intro hpo k x hk
    subst hpo
    simp only
    rw [← hp, List.getElem?_append_right (Nat.le_add_right _ _), Nat.add_sub_cancel_left]
    exact hk

theorem FromAssignment_fills_witness :
    ∃ r, FromAssignment Value.SetInterface none 0 [7] exampleAssignment false = some r ∧
      r.err = none ∧ r.witness = [5, 16, 3, 4] :=
  match FromAssignment_fills Value.SetInterface (0 : ZMod 17) [7] exampleAssignment false
      (by decide) with
  | ⟨r, hr, he, _, hlen, htake, hdrop, _⟩ =>
    ⟨r, hr, he, by
      rw [← List.take_append_drop (schemaOf exampleAssignment).NbPublic r.witness, htake, hdrop]
      decide⟩

/-- In `publicOnly` mode the walk of `FromAssignment` reaches the same state with the same
error on two assignments of the same schema that agree on their public leaves. -/
theorem Parse_collect_publicOnly {V F E : Type} (SetInterface : V → Conversion E F) :
    ∀ (a1 a2 : List (Leaf V)) (st : CollectState F), shape a1 = shape a2 →
      (∀ (k : Nat) l1 l2, a1[k]? = some l1 → a2[k]? = some l2 →
        l1.visibility = Visibility.Public → l1.tInput = l2.tInput) →
      (Parse (collectHandler SetInterface true) a1 st).map (fun w => (w.state, w.err)) =
        (Parse (collectHandler SetInterface true) a2 st).map (fun w => (w.state, w.err)) := by
  intro a1
  induction a1 with
  | nil =>
    intro a2 st h _
    cases a2 with
    | nil => rfl
    | cons l2 r2 => simp [shape] at h
  | cons l1 r1 ih =>
    intro a2 st h hpub
    cases a2 with
    | nil => simp [shape] at h
    | cons l2 r2 =>
      simp only [shape, List.map_cons, List.cons.injEq, Prod.mk.injEq] at h
      have ih1 := fun st => ih r2 st h.2
        (fun k m1 m2 h1 h2 => hpub (k + 1) m1 m2 (by simpa using h1) (by simpa using h2))
      cases hvis : l1.visibility with
      | Secret =>
        have hvis2 : l2.visibility = Visibility.Secret := by rw [← h.1.1]; exact hvis
        rw [Parse_cons_ok _ l1 r1 st _
            (collectHandler_skip SetInterface true l1 st (by simp [handled, hvis])) rfl,
          Parse_cons_ok _ l2 r2 st _
            (collectHandler_skip SetInterface true l2 st (by simp [handled, hvis2])) rfl]
        have := ih1 st
        cases h1 : Parse (collectHandler SetInterface true) r1 st <;>
          cases h2 : Parse (collectHandler SetInterface true) r2 st <;>
          simp [h1, h2] at this ⊢
        exact this
      | Public =>
        have hin : l1.tInput = l2.tInput := hpub 0 l1 l2 (by simp) (by simp) hvis
        have heq : collectHandler SetInterface true l2.visibility l2.name l2.tInput st =
            collectHandler SetInterface true l1.visibility l1.name l1.tInput st := by
          rw [h.1.1, h.1.2, hin]
        cases hr : collectHandler SetInterface true l1.visibility l1.name l1.tInput st with
        | none =>
          rw [hr] at heq
          rw [Parse, hr, Parse, heq]
        | some r =>
          rw [hr] at heq
          cases hre : r.err with
          | some e =>
            rw [Parse_cons_error _ l1 r1 st r e hr hre, Parse_cons_error _ l2 r2 st r e heq hre]
            rfl
          | none =>
            rw [Parse_cons_ok _ l1 r1 st r hr hre, Parse_cons_ok _ l2 r2 st r heq hre]
            have := ih1 r.state
            cases h1 : Parse (collectHandler SetInterface true) r1 r.state <;>
              cases h2 : Parse (collectHandler SetInterface true) r2 r.state <;>
              simp [h1, h2] at this ⊢
            exact this

/-- C19: in `publicOnly` mode `FromAssignment` does not look at the secret leaves: on two
assignments of the same schema (the same visibilities and names, leaf by leaf, and the same
answer of the handler-less walk) whose public leaves hold the same values it has the same
outcome, the same witness and the same schema, the same error or the same panic, whatever the
secret leaves hold. -/
theorem FromAssignment_publicOnly {V F E : Type} (SetInterface : V → Conversion E F)
    (schemaErr : Option E) (zero : F) (witness : Witness F) (a1 a2 : List (Leaf V))
    (hshape : shape a1 = shape a2)
    (hpub : ∀ (k : Nat) l1 l2, a1[k]? = some l1 → a2[k]? = some l2 →
      l1.visibility = Visibility.Public → l1.tInput = l2.tInput) :
    FromAssignment SetInterface schemaErr zero witness a1 true =
      FromAssignment SetInterface schemaErr zero witness a2 true := by
  have hschema : schemaOf a1 = schemaOf a2 := schemaOf_of_shape a2 a1 hshape
  have h := Parse_collect_publicOnly SetInterface a1 a2
    (collectStart zero witness (schemaOf a2) true) hshape hpub
  cases schemaErr with
  | some err => rfl
  | none =>
    simp only [FromAssignment, ParseSchema, hschema]
    cases h1 : Parse (collectHandler SetInterface true) a1
        (collectStart zero witness (schemaOf a2) true) <;>
      cases h2 : Parse (collectHandler SetInterface true) a2
        (collectStart zero witness (schemaOf a2) true) <;>
      simp [h1, h2] at h ⊢
    simp only [h.1, h.2, and_self]

theorem FromAssignment_publicOnly_witness :
    FromAssignment Value.SetInterface none (0 : ZMod 17) [7] exampleAssignment true =
      FromAssignment Value.SetInterface none (0 : ZMod 17) [7] exampleHidden true :=
  FromAssignment_publicOnly Value.SetInterface none (0 : ZMod 17) [7] exampleAssignment
    exampleHidden
    (by decide)
    (by
      intro k l1 l2 h1 h2 hv
      match k, h1, h2 with
      | 0, h1, h2 => cases h1; cases h2; cases hv
      | 1, h1, h2 => cases h1; cases h2; rfl
      | 2, h1, h2 => cases h1; cases h2; cases hv
      | 3, h1, h2 => cases h1; cases h2; rfl
      | k + 4, h1, h2 => simp [exampleAssignment] at h1)

theorem schemaOf_NbPublic {V : Type} (a : List (Leaf V)) :
    a.countP (fun l => l.visibility == Visibility.Public) = (schemaOf a).NbPublic := rfl

theorem schemaOf_NbSecret {V : Type} (a : List (Leaf V)) :
    a.countP (fun l => l.visibility == Visibility.Secret) = (schemaOf a).NbSecret := rfl

/-- C13: `ToAssignment` undoes `FromAssignment`.  For an assignment `a` (one the walker
accepts) whose leaves all have a value that converts to a field element and a target `b` of
the same schema (the same visibilities and names, leaf by leaf), `FromAssignment(a, false)`
followed by `ToAssignment(b, false)` on the witness
obtained sets every leaf of `b` to the field element of the leaf of `a` at its place.  With
`publicOnly` in both calls (the public leaves of `a` having values that convert) every public
leaf of `b` is set to the element of its leaf of `a`, and every secret leaf of `b` is left as
it was. -/
theorem ToAssignment_FromAssignment {V F E : Type} (SetInterface : V → Conversion E F) (zero : F)
    (witness : Witness F) (a b : List (Leaf V)) (setAddr : Bool) (addrOf valueOf : F → V)
    (hshape : shape b = shape a) :
    ((∀ l, l ∈ a → leafElement SetInterface l ≠ none) →
      ∃ r, FromAssignment SetInterface none zero witness a false = some r ∧ r.err = none ∧
        ToAssignment setAddr addrOf valueOf r.witness b false =
          some (List.zipWith
            (assignLeaf SetInterface (fun x => if setAddr then addrOf x else valueOf x)) a b)) ∧
    ((∀ l, l ∈ a → l.visibility = Visibility.Public → leafElement SetInterface l ≠ none) →
      ∃ r, FromAssignment SetInterface none zero witness a true = some r ∧ r.err = none ∧
        ToAssignment setAddr addrOf valueOf r.witness b true =
          some (List.zipWith (fun la lb =>
            if lb.visibility = Visibility.Public then
              assignLeaf SetInterface (fun x => if setAddr then addrOf x else valueOf x) la lb
            else lb) a b)) ∧
    b.length = a.length := by
  have hschema : schemaOf b = schemaOf a := schemaOf_of_shape a b hshape
  refine ⟨?_, ?_, ?_⟩
  · intro hok
    have hp : (valuesOf SetInterface Visibility.Public a).length = (schemaOf a).NbPublic :=
      valuesOf_length SetInterface Visibility.Public a (fun l hl _ => hok l hl)
    have hs : (valuesOf SetInterface Visibility.Secret a).length = (schemaOf a).NbSecret :=
      valuesOf_length SetInterface Visibility.Secret a (fun l hl _ => hok l hl)
    refine ⟨_, FromAssignment_good SetInterface zero witness a false (fun l hl _ => hok l hl),
      rfl, ?_⟩
    have hsv : secretValues SetInterface false a = valuesOf SetInterface Visibility.Secret a :=
      rfl
    simp only [hsv]
    have h1 := Parse_set setAddr addrOf valueOf
      (valuesOf SetInterface Visibility.Public a ++ valuesOf SetInterface Visibility.Secret a)
      Visibility.Public b 0
      (by rw [schemaOf_NbPublic, hschema, List.length_append, hp]; omega)
    have hshape1 := fillFrom_shape (fun x => if setAddr then addrOf x else valueOf x)
      Visibility.Public b
      (valuesOf SetInterface Visibility.Public a ++ valuesOf SetInterface Visibility.Secret a)
    have hschema1 := schemaOf_of_shape _ _ hshape1
    have h2 := Parse_set setAddr addrOf valueOf
      (valuesOf SetInterface Visibility.Public a ++ valuesOf SetInterface Visibility.Secret a)
      Visibility.Secret
      (fillFrom (fun x => if setAddr then addrOf x else valueOf x) Visibility.Public
        (valuesOf SetInterface Visibility.Public a ++ valuesOf SetInterface Visibility.Secret a)
        b)
      (0 + b.countP (fun l => l.visibility == Visibility.Public))
      (by rw [schemaOf_NbPublic, schemaOf_NbSecret, hschema1, hschema, List.length_append, hp,
            hs]; omega)
    rw [List.drop_zero] at h1
    rw [Nat.zero_add, schemaOf_NbPublic, hschema, ← hp, List.drop_left] at h2
    have hboth := fillFrom_both SetInterface (fun x => if setAddr then addrOf x else valueOf x)
      a b (valuesOf SetInterface Visibility.Secret a) [] hshape hok
    rw [List.append_nil] at hboth
    rw [hboth] at h2
    rw [ToAssignment, h1]
    simp only [Bool.false_eq_true, if_false, Nat.zero_add, schemaOf_NbPublic, hschema, ← hp, h2]
  · intro hok
    have hp : (valuesOf SetInterface Visibility.Public a).length = (schemaOf a).NbPublic :=
      valuesOf_length SetInterface Visibility.Public a hok
    refine ⟨_, FromAssignment_good SetInterface zero witness a true
      (fun l hl hh => hok l hl ((handled_true _).mp hh)), rfl, ?_⟩
    have hsv : secretValues SetInterface true a = [] := rfl
    simp only [hsv]
    have h1 := Parse_set setAddr addrOf valueOf
      (valuesOf SetInterface Visibility.Public a ++ []) Visibility.Public b 0
      (by rw [schemaOf_NbPublic, hschema, List.length_append, hp]; simp)
    rw [List.drop_zero,
      fillFrom_values SetInterface (fun x => if setAddr then addrOf x else valueOf x)
        Visibility.Public a b [] hshape hok] at h1
    rw [ToAssignment, h1]
    simp only [if_true]
  · have := congrArg List.length hshape
    simpa [shape] using this

theorem ToAssignment_FromAssignment_witness :
    ∃ r, FromAssignment Value.SetInterface none (0 : ZMod 17) [7] exampleAssignment false = some r ∧
      ToAssignment false Value.pointer Value.element r.witness exampleTarget false =
        some [⟨Visibility.Secret, "A", some (Value.element 3)⟩,
              ⟨Visibility.Public, "B", some (Value.element 5)⟩,
              ⟨Visibility.Secret, "C", some (Value.element 4)⟩,
              ⟨Visibility.Public, "D", some (Value.element 16)⟩] :=
  match (ToAssignment_FromAssignment Value.SetInterface (0 : ZMod 17) [7] exampleAssignment
      exampleTarget false Value.pointer Value.element (by decide)).1 (by decide) with
  | ⟨r, hr, _, hto⟩ => ⟨r, hr, hto.trans (by decide)⟩

/-! ## The test entries of `lookup2` -/

/-- C15: `init` registers four entries `lookup2-b0b1`, one per pair of selector bits, all with
`V0..V3 = 0,1,2,3`.  In each of them the `Expected` of the good assignment is the input of index
`b0 + 2·b1` and the `Expected` of the bad assignment is another number; over a field in which
`2` and `3` are not zero (as in the scalar fields of the curves) the equality that `Define`
asserts holds for the good assignment and fails for the bad one. -/
theorem lookup2_entries (F : Type) [Field F] [DecidableEq F] (h2 : (2 : F) ≠ 0)
    (h3 : (3 : F) ≠ 0) :
    lookup2Entries.map (fun e => (e.name, e.good.Selector0, e.good.Selector1, e.good.Expected)) =
      [("lookup2-00", 0, 0, 0), ("lookup2-10", 1, 0, 1), ("lookup2-01", 0, 1, 2),
       ("lookup2-11", 1, 1, 3)] ∧
    ∀ e, e ∈ lookup2Entries →
      [e.good.V0, e.good.V1, e.good.V2, e.good.V3] = [0, 1, 2, 3] ∧
      [e.bad.V0, e.bad.V1, e.bad.V2, e.bad.V3] = [0, 1, 2, 3] ∧
      e.bad.Selector0 = e.good.Selector0 ∧ e.bad.Selector1 = e.good.Selector1 ∧
      (e.good.Selector0 = 0 ∨ e.good.Selector0 = 1) ∧
      (e.good.Selector1 = 0 ∨ e.good.Selector1 = 1) ∧
      [e.good.V0, e.good.V1, e.good.V2, e.good.V3][(e.good.Selector0
        + 2 * e.good.Selector1).toNat]? = some e.good.Expected ∧
      [e.bad.V0, e.bad.V1, e.bad.V2, e.bad.V3][(e.bad.Selector0
        + 2 * e.bad.Selector1).toNat]? ≠ some e.bad.Expected ∧
      e.good.Define F ∧ ¬ e.bad.Define F := by
  refine ⟨by decide, ?_⟩
  intro e he
  have hcases : e = ⟨"lookup2-00", ⟨0, 1, 2, 3, 0, 0, 0⟩, ⟨0, 1, 2, 3, 0, 0, 1⟩⟩ ∨
      e = ⟨"lookup2-10", ⟨0, 1, 2, 3, 1, 0, 1⟩, ⟨0, 1, 2, 3, 1, 0, 0⟩⟩ ∨
      e = ⟨"lookup2-01", ⟨0, 1, 2, 3, 0, 1, 2⟩, ⟨0, 1, 2, 3, 0, 1, 0⟩⟩ ∨
      e = ⟨"lookup2-11", ⟨0, 1, 2, 3, 1, 1, 3⟩, ⟨0, 1, 2, 3, 1, 1, 0⟩⟩ := by
    have hl : lookup2Entries =
        [⟨"lookup2-00", ⟨0, 1, 2, 3, 0, 0, 0⟩, ⟨0, 1, 2, 3, 0, 0, 1⟩⟩,
         ⟨"lookup2-10", ⟨0, 1, 2, 3, 1, 0, 1⟩, ⟨0, 1, 2, 3, 1, 0, 0⟩⟩,
         ⟨"lookup2-01", ⟨0, 1, 2, 3, 0, 1, 2⟩, ⟨0, 1, 2, 3, 0, 1, 0⟩⟩,
         ⟨"lookup2-11", ⟨0, 1, 2, 3, 1, 1, 3⟩, ⟨0, 1, 2, 3, 1, 1, 0⟩⟩] := by decide
    rw [hl] at he
    simpa using he
  rcases hcases with h | h | h | h <;> subst h
  · refine ⟨rfl, rfl, rfl, rfl, by decide, by decide, by decide, by decide, ?_, ?_⟩
    · simp [lookup2Circuit.Define, Lookup2]
    · simp [lookup2Circuit.Define, Lookup2]
  · refine ⟨rfl, rfl, rfl, rfl, by decide, by decide, by decide, by decide, ?_, ?_⟩
    · simp [lookup2Circuit.Define, Lookup2]
    · simp [lookup2Circuit.Define, Lookup2]
  · refine ⟨rfl, rfl, rfl, rfl, by decide, by decide, by decide, by decide, ?_, ?_⟩
    · simp [lookup2Circuit.Define, Lookup2]
    · simp [lookup2Circuit.Define, Lookup2, h2]
  · refine ⟨rfl, rfl, rfl, rfl, by decide, by decide, by decide, by decide, ?_, ?_⟩
    · simp [lookup2Circuit.Define, Lookup2]
    · simp [lookup2Circuit.Define, Lookup2, h3]

theorem lookup2_entries_witness :
    (2 : ZMod 17) ≠ 0 ∧ (3 : ZMod 17) ≠ 0 ∧
    ∀ e, e ∈ lookup2Entries → e.good.Define (ZMod 17) ∧ ¬ e.bad.Define (ZMod 17) :=
  ⟨by decide, by decide, fun e he =>
    ⟨((lookup2_entries (ZMod 17) (by decide) (by decide)).2 e he).2.2.2.2.2.2.2.2.1,
     ((lookup2_entries (ZMod 17) (by decide) (by decide)).2 e he).2.2.2.2.2.2.2.2.2⟩⟩

end Gnark
